import Mathlib

/-!
# Index-aligned sliding windows: the core of `slide-index.c`

A shallow embedding of `src/slide-index.c` and a verification of its behaviour.

Conventions of the embedding.

* Keys and boundary values (`i`, `starts`, `stops`) are totally ordered and
  compared with `compare_lt` / `compare_lte` / `compare_gt`; they are embedded
  as `Int` with `<`, `≤`, `>`.
* C `int` values are embedded as `Int` (or `Nat` when they are 1-based cursor
  positions or lengths); all of them are bounded by a vector length, so no
  wrap-around is involved.
* A read or a write outside of a vector or of a C array is a failure of the
  run (`SlideError.subscript_out_of_bounds`, `span_index_out_of_bounds`,
  `assign_out_of_bounds`).
* The per-window computation and the value container primitives are
  collaborators of the core; they are the fields of `Collaborators`.
* Every run records a chronological `trace` of what it did: cursor look-ups,
  evaluator invocations and output writes.
* The per-window computation is a function of the slice it is given; a failure
  inside of it, the interrupt check `R_CheckUserInterrupt` and the final
  `vec_restore` / `copy_names` of the output are outside of the embedding.
-/

namespace Slider

/-- The ways a run of the core can stop early. -/
inductive SlideError where
  /-- Raised by `stop_range_start_past_stop`. -/
  | range_start_past_stop
  /-- Raised by `stop_not_all_size_one(iteration, size)`. -/
  | not_all_size_one (iteration : Int) (size : Nat)
  /-- A vector (`i`, `starts`, `stops`, `out_indices`) is read outside of its bounds. -/
  | subscript_out_of_bounds
  /-- The arrays `window_starts` / `window_stops` / `window_sizes` are accessed at `index`
  outside of `0 .. size_i - 1`. -/
  | span_index_out_of_bounds (index : Int)
  /-- The output container is written at the 1-based `position` outside of `1 .. size`. -/
  | assign_out_of_bounds (position : Nat)
  deriving DecidableEq, Repr

/-- What a run does, in chronological order. -/
inductive Event (V : Type) where
  /-- A call `locate_window_start_index(i, start, ..)` made in `iteration`. -/
  | locate_start (iteration : Int) (start : Int)
  /-- A call `locate_window_stop_index(i, stop, ..)` made in `iteration`. -/
  | locate_stop (iteration : Int) (stop : Int)
  /-- The evaluator is run in `iteration` on the slice `(window_start, window_size)` of `x`
  and computes `elt`. -/
  | eval (iteration : Int) (window_start window_size : Int) (elt : V)
  /-- The 1-based output `position` is assigned `elt` in `iteration`. -/
  | assign (iteration : Int) (position : Nat) (elt : V)
  deriving DecidableEq, Repr

/-- The collaborators of the core, for values of type `V`. -/
structure Collaborators (V : Type) where
  /-- The row count of a value: `vec_size`. -/
  vec_size : V → Nat
  /-- The value every slot of `vec_init(ptype, size)` holds. -/
  vec_init : V
  /-- The slice evaluator: `slice_and_update_env(x, window, ..)` followed by
  `Rf_eval(f_call, env)`, as a function of the slice `(window_start, window_size)`. -/
  eval : Int → Int → V
  /-- The coercion `vctrs_cast(elt, ptype, ..)` followed by `vec_proxy`. -/
  vctrs_cast : V → V

/-- The entries of `params`. -/
structure Params where
  complete : Bool
  before_unbounded : Bool
  after_unbounded : Bool
  constrain : Bool
  size : Nat
  deriving DecidableEq, Repr

/-- The variables the iteration loop of `slide_index_core_impl` mutates, and the trace. -/
structure LoopState (V : Type) where
  out : List V
  window_start : Int
  window_stop : Int
  last_start_position : Nat
  last_stop_position : Nat
  trace : List (Event V)
  deriving DecidableEq, Repr

/-- How a run ends: it returns the output container, or it fails. -/
inductive Outcome (V : Type) where
  | returned (out : List V) (trace : List (Event V))
  | failed (error : SlideError) (trace : List (Event V))
  deriving DecidableEq, Repr

/-- The trace of a run. -/
def Outcome.trace {V : Type} : Outcome V → List (Event V)
  | .returned _ trace => trace
  | .failed _ trace => trace

/-- The result of one stage of the loop: the next state, or a failure with the trace so far. -/
abbrev Step (V : Type) := Except (SlideError × List (Event V)) (LoopState V)

/-- The element of `x` at the 1-based position `pos`: `vec_slice_impl(x, pos)`. -/
def vec_slice_impl {α : Type} (x : List α) (pos : Int) : Option α :=
  if 1 ≤ pos then x[(pos - 1).toNat]? else none

/-- The read `a[k]` of a C array. -/
def array_get (a : List Int) (k : Int) : Option Int :=
  if 0 ≤ k then a[k.toNat]? else none

/-- The write `a[k] = v` of a C array. -/
def array_set (a : List Int) (k : Nat) (v : Int) : Option (List Int) :=
  if k < a.length then some (a.set k v) else none

/-- The loop of `locate_window_start_index`: `p` is `*p_last_start_position_val`, and the
list is `i` from position `p` on, so that its head is `vec_slice_impl(i, last_start_position)`.
Returns the group index and the cursor position left behind. -/
def locate_window_start_scan (start : Int) (size : Nat) : List Int → Nat → Option (Int × Nat)
  | [], _ => none
  | i_position :: rest, p =>
    if i_position < start then
      if p = size then some ((size : Int) - 1, p)
      else locate_window_start_scan start size rest (p + 1)
    else some ((p : Int) - 1, p)

/-- Translation of `locate_window_start_index`. -/
def locate_window_start_index (i : List Int) (start : Int) (size : Nat)
    (last_start_position : Nat) : Option (Int × Nat) :=
  if last_start_position = 0 then none
  else locate_window_start_scan start size (i.drop (last_start_position - 1)) last_start_position

/-- The loop of `locate_window_stop_index`, see `locate_window_start_scan`. -/
def locate_window_stop_scan (stop : Int) (size : Nat) : List Int → Nat → Option (Int × Nat)
  | [], _ => none
  | i_position :: rest, p =>
    if i_position ≤ stop then
      if p = size then some ((size : Int) - 1, p)
      else locate_window_stop_scan stop size rest (p + 1)
    else some ((p : Int) - 2, p)

/-- Translation of `locate_window_stop_index`. -/
def locate_window_stop_index (i : List Int) (stop : Int) (size : Nat)
    (last_stop_position : Nat) : Option (Int × Nat) :=
  if last_stop_position = 0 then none
  else locate_window_stop_scan stop size (i.drop (last_stop_position - 1)) last_stop_position

/-- Modelled from the spec: `vec_any_gt` of `compare.h` is not among the sources; by the
validation pre-check of the spec (every `starts[k] <= stops[k]` must hold) it tells whether
some `starts[k]` is past `stops[k]`. -/
def vec_any_gt (starts stops : List Int) : Bool :=
  (List.zip starts stops).any (fun ab => decide (ab.1 > ab.2))

/-- Translation of `check_starts_not_past_stops`: `true` when the check passes. -/
def check_starts_not_past_stops (starts stops : List Int) : Bool :=
  !(vec_any_gt starts stops)

/-- Translation of `compute_window_sizes`. -/
def compute_window_sizes (window_sizes : List Int) (x : List (List Nat)) (n : Nat) :
    Option (List Int) :=
  (List.range n).foldlM
    (fun ws k => do
      let elt ← x[k]?
      array_set ws k (elt.length : Int))
    window_sizes

/-- Translation of `compute_window_starts`. -/
def compute_window_starts (window_starts window_sizes : List Int) (n : Nat) :
    Option (List Int) := do
  let window_starts ← array_set window_starts 0 0
  let r ← (List.range' 1 (n - 1)).foldlM
    (fun (acc : Int × List Int) k => do
      let s ← window_sizes[k - 1]?
      let sum := acc.1 + s
      let ws ← array_set acc.2 k sum
      pure (sum, ws))
    ((0 : Int), window_starts)
  pure r.2

/-- Translation of `compute_window_stops`. -/
def compute_window_stops (window_stops window_sizes window_starts : List Int) (n : Nat) :
    Option (List Int) :=
  (List.range n).foldlM
    (fun ws k => do
      let a ← window_starts[k]?
      let s ← window_sizes[k]?
      array_set ws k (a + s - 1))
    window_stops

/-- Translation of `adjust_iteration_min`. -/
def adjust_iteration_min (iteration_min : Int) (range i : List Int) (size : Nat) :
    Option Int := do
  let i_first ← vec_slice_impl i 1
  let range_first ← vec_slice_impl range 1
  if i_first > range_first then
    let forward_adjustment ← (List.range size).foldlM
      (fun (adj : Int) k => do
        let r ← range[k]?
        pure (if i_first > r then adj + 1 else adj))
      (0 : Int)
    pure (iteration_min + forward_adjustment)
  else
    pure iteration_min

/-- Translation of `adjust_iteration_max`. -/
def adjust_iteration_max (iteration_max : Int) (range i : List Int) (size : Nat) :
    Option Int := do
  let i_last ← vec_slice_impl i (size : Int)
  let range_last ← vec_slice_impl range (size : Int)
  if i_last < range_last then
    let backward_adjustment ← (List.range size).foldlM
      (fun (adj : Int) k => do
        let r ← range[k]?
        pure (if i_last < r then adj + 1 else adj))
      (0 : Int)
    pure (iteration_max - backward_adjustment)
  else
    pure iteration_max

/-- The iteration adjustment of `slide_index_core_impl` (the block that follows
`int iteration_max = size_i;`): the pair `(iteration_min, iteration_max)`. -/
def iteration_bounds (params : Params) (i starts stops : List Int) : Option (Int × Int) :=
  let size_i := i.length
  let iteration_min : Int := 1
  let iteration_max : Int := size_i
  if params.complete then do
    let iteration_min ←
      if !params.before_unbounded then adjust_iteration_min iteration_min starts i size_i
      else pure iteration_min
    let iteration_max ←
      if !params.after_unbounded then adjust_iteration_max iteration_max stops i size_i
      else pure iteration_max
    pure (iteration_min, iteration_max)
  else do
    let iteration_max ←
      if !params.before_unbounded then adjust_iteration_max iteration_max starts i size_i
      else pure iteration_max
    let iteration_min ←
      if !params.after_unbounded then adjust_iteration_min iteration_min stops i size_i
      else pure iteration_min
    pure (iteration_min, iteration_max)

/-- The `if (!before_unbounded)` block of the loop body. -/
def window_start_stage {V : Type} (params : Params) (i starts window_starts : List Int)
    (iteration : Int) (st : LoopState V) : Step V :=
  if params.before_unbounded then .ok st
  else
    match vec_slice_impl starts iteration with
    | none => .error (.subscript_out_of_bounds, st.trace)
    | some start =>
      let trace := st.trace ++ [Event.locate_start iteration start]
      match locate_window_start_index i start i.length st.last_start_position with
      | none => .error (.subscript_out_of_bounds, trace)
      | some (window_start_index, position) =>
        match array_get window_starts window_start_index with
        | none => .error (.span_index_out_of_bounds window_start_index, trace)
        | some window_start =>
          .ok { st with
                window_start := window_start
                last_start_position := position
                trace := trace }

/-- The `if (!after_unbounded)` block of the loop body. -/
def window_stop_stage {V : Type} (params : Params) (i stops window_stops : List Int)
    (iteration : Int) (st : LoopState V) : Step V :=
  if params.after_unbounded then .ok st
  else
    match vec_slice_impl stops iteration with
    | none => .error (.subscript_out_of_bounds, st.trace)
    | some stop =>
      let trace := st.trace ++ [Event.locate_stop iteration stop]
      match locate_window_stop_index i stop i.length st.last_stop_position with
      | none => .error (.subscript_out_of_bounds, trace)
      | some (window_stop_index, position) =>
        match array_get window_stops window_stop_index with
        | none => .error (.span_index_out_of_bounds window_stop_index, trace)
        | some window_stop =>
          .ok { st with
                window_stop := window_stop
                last_stop_position := position
                trace := trace }

/-- The empty-window adjustment `if (window_stop < window_start)` of the loop body. -/
def normalize_window {V : Type} (st : LoopState V) : LoopState V :=
  if st.window_stop < st.window_start then
    { st with window_start := 0, window_stop := -1 }
  else st

/-- The evaluation of the loop body, from `int window_size` to `elt = Rf_eval(f_call, env)`:
the computed value and the state. -/
def eval_stage {V : Type} (c : Collaborators V) (iteration : Int) (st : LoopState V) :
    V × LoopState V :=
  let window_size := st.window_stop - st.window_start + 1
  let elt := c.eval st.window_start window_size
  (elt, { st with trace := st.trace ++ [Event.eval iteration st.window_start window_size elt] })

/-- The writes of `elt` at the positions of `out_index`, in order: the loop over `j` with
`SET_VECTOR_ELT(out, p_out_index[j] - 1, elt)`, and `vec_assign_impl(out, out_index, elt, ..)`
for a one-row `elt`. -/
def assign_loop {V : Type} (iteration : Int) (elt : V) :
    List Nat → LoopState V → Step V
  | [], st => .ok st
  | q :: rest, st =>
    if 1 ≤ q ∧ q ≤ st.out.length then
      assign_loop iteration elt rest
        { st with
          out := st.out.set (q - 1) elt
          trace := st.trace ++ [Event.assign iteration q elt] }
    else .error (.assign_out_of_bounds q, st.trace)

/-- The scatter of the loop body, from `SEXP out_index = VECTOR_ELT(..)` to its end;
`VECTOR_ELT(out_indices, iteration - 1)` is the element at the 1-based position
`iteration`. -/
def scatter_stage {V : Type} (c : Collaborators V) (params : Params)
    (out_indices : List (List Nat)) (iteration : Int) (elt : V) (st : LoopState V) : Step V :=
  match vec_slice_impl out_indices iteration with
  | none => .error (.subscript_out_of_bounds, st.trace)
  | some out_index =>
    if params.constrain then
      let elt := c.vctrs_cast elt
      if c.vec_size elt ≠ 1 then
        .error (.not_all_size_one iteration (c.vec_size elt), st.trace)
      else assign_loop iteration elt out_index st
    else assign_loop iteration elt out_index st

/-- The body of the iteration loop of `slide_index_core_impl`. -/
def iteration_body {V : Type} (c : Collaborators V) (params : Params)
    (i starts stops : List Int) (out_indices : List (List Nat))
    (window_starts window_stops : List Int) (iteration : Int) (st : LoopState V) : Step V :=
  match window_start_stage params i starts window_starts iteration st with
  | .error e => .error e
  | .ok st1 =>
    match window_stop_stage params i stops window_stops iteration st1 with
    | .error e => .error e
    | .ok st2 =>
      let r := eval_stage c iteration (normalize_window st2)
      scatter_stage c params out_indices iteration r.1 r.2

/-- The values `*p_iteration_val` takes in `for (; *p_iteration_val <= iteration_max; ..)`. -/
def iterations (iteration_min iteration_max : Int) : List Int :=
  (List.range (iteration_max + 1 - iteration_min).toNat).map
    (fun (j : Nat) => iteration_min + (j : Int))

/-- The iteration loop: `body` at each iteration in turn, until one fails. -/
def slide_loop {V : Type} (body : Int → LoopState V → Step V) :
    List Int → LoopState V → Step V
  | [], st => .ok st
  | iteration :: rest, st =>
    match body iteration st with
    | .error e => .error e
    | .ok st1 => slide_loop body rest st1

/-- The span table of `slide_index_core_impl`: `window_starts` and `window_stops`, computed
by `compute_window_sizes`, `compute_window_starts` and `compute_window_stops` on arrays of
`size_i` entries. -/
def window_tables (out_indices : List (List Nat)) (size_i : Nat) :
    Except SlideError (List Int × List Int) :=
  match compute_window_sizes (List.replicate size_i 0) out_indices size_i with
  | none => .error .subscript_out_of_bounds
  | some window_sizes =>
    match compute_window_starts (List.replicate size_i 0) window_sizes size_i with
    | none => .error (.span_index_out_of_bounds 0)
    | some window_starts =>
      match compute_window_stops (List.replicate size_i 0) window_sizes window_starts
          size_i with
      | none => .error (.span_index_out_of_bounds size_i)
      | some window_stops => .ok (window_starts, window_stops)

/-- The state the iteration loop starts in. -/
def initial_state {V : Type} (c : Collaborators V) (params : Params) : LoopState V :=
  { out := List.replicate params.size c.vec_init
    window_start := 0
    window_stop := (params.size : Int) - 1
    last_start_position := 1
    last_stop_position := 1
    trace := [] }

/-- Translation of `slide_index_core_impl`, up to the end of the iteration loop. -/
def slide_index_core_impl {V : Type} (c : Collaborators V) (i starts stops : List Int)
    (out_indices : List (List Nat)) (params : Params) : Outcome V :=
  let size_i := i.length
  if !params.before_unbounded && !params.after_unbounded
      && !check_starts_not_past_stops starts stops then
    .failed .range_start_past_stop []
  else
    match iteration_bounds params i starts stops with
    | none => .failed .subscript_out_of_bounds []
    | some (iteration_min, iteration_max) =>
      match window_tables out_indices size_i with
      | .error e => .failed e []
      | .ok (window_starts, window_stops) =>
        match slide_loop
            (iteration_body c params i starts stops out_indices window_starts window_stops)
            (iterations iteration_min iteration_max) (initial_state c params) with
        | .error e => .failed e.1 e.2
        | .ok st => .returned st.out st.trace

/-- The iteration an event belongs to. -/
def Event.iteration {V : Type} : Event V → Int
  | .locate_start k _ => k
  | .locate_stop k _ => k
  | .eval k _ _ _ => k
  | .assign k _ _ => k

/-- The value the scatter writes: the coerced one under the constrained policy, the
computed one as it is under the unconstrained policy. -/
def scattered {V : Type} (c : Collaborators V) (params : Params) (elt : V) : V :=
  if params.constrain then c.vctrs_cast elt else elt

/-- The group indices `locate_window_start_index` returns when the boundary values are fed
in order to one shared cursor, which every call leaves where the next call picks it up. -/
def locate_start_carried (i : List Int) (size : Nat) : List Int → Nat → Option (List Int)
  | [], _ => some []
  | b :: bs, p =>
    match locate_window_start_index i b size p with
    | none => none
    | some (idx, p1) => (locate_start_carried i size bs p1).map (fun idxs => idx :: idxs)

/-- The group indices `locate_window_start_index` returns when every boundary value is
looked up with a fresh cursor at position 1. -/
def locate_start_fresh (i : List Int) (size : Nat) (bs : List Int) : Option (List Int) :=
  bs.mapM (fun b => (locate_window_start_index i b size 1).map Prod.fst)

/-- The group indices `locate_window_stop_index` returns when the boundary values are fed
in order to one shared cursor. -/
def locate_stop_carried (i : List Int) (size : Nat) : List Int → Nat → Option (List Int)
  | [], _ => some []
  | b :: bs, p =>
    match locate_window_stop_index i b size p with
    | none => none
    | some (idx, p1) => (locate_stop_carried i size bs p1).map (fun idxs => idx :: idxs)

/-- The group indices `locate_window_stop_index` returns when every boundary value is
looked up with a fresh cursor at position 1. -/
def locate_stop_fresh (i : List Int) (size : Nat) (bs : List Int) : Option (List Int) :=
  bs.mapM (fun b => (locate_window_stop_index i b size 1).map Prod.fst)

/-- The key of the group that owns the 0-based data position `p`, when the groups are
consecutive blocks of the given sizes, the k-th group having the k-th key. -/
def group_key : List Nat → List Int → Nat → Option Int
  | size :: sizes, key :: keys, p =>
    if p < size then some key else group_key sizes keys (p - size)
  | _, _, _ => none

/-- The cursor look-ups of one iteration: the events the two window stages may record. -/
def locate_events {V : Type} (params : Params) (it : Int) (locs : List (Event V)) : Prop :=
  ∀ ev ∈ locs, (params.before_unbounded = false ∧ ∃ b, ev = Event.locate_start it b)
    ∨ (params.after_unbounded = false ∧ ∃ b, ev = Event.locate_stop it b)

/-- The state after the evaluation of an iteration whose window stages end in `s2`. -/
def evaluated {V : Type} (c : Collaborators V) (it : Int) (s2 : LoopState V) : V × LoopState V :=
  eval_stage c it (normalize_window s2)

/-- The start of the span of group `k`: the sizes of the groups before it, summed. -/
def span_start (out_indices : List (List Nat)) (k : Nat) : Int :=
  (((out_indices.take k).map List.length).sum : Nat)

/-- The slice `(window_start, window_size)` is exact for iteration `k`: it holds the 0-based
data positions whose group has its key in the range of the iteration, that is not before
`starts[k]` unless the before side is unbounded and not after `stops[k]` unless the after
side is unbounded, and no other position. -/
def exact_window (params : Params) (i starts stops : List Int) (out_indices : List (List Nat))
    (k window_start window_size : Int) : Prop :=
  0 ≤ window_start ∧ 0 ≤ window_size
  ∧ ∀ p : Nat, (window_start ≤ p ∧ (p : Int) < window_start + window_size)
      ↔ ∃ key, group_key (out_indices.map List.length) i p = some key
          ∧ (params.before_unbounded = true ∨ ∃ b, vec_slice_impl starts k = some b ∧ b ≤ key)
          ∧ (params.after_unbounded = true ∨ ∃ b, vec_slice_impl stops k = some b ∧ key ≤ b)

/-- Collaborators for the examples: a value is the list of the data positions of the slice
it was computed on, its row count is the length of that list, the coercion does nothing
and the initial value of an output slot is the empty list. -/
def example_collaborators : Collaborators (List Int) :=
  { vec_size := fun v => v.length
    vec_init := []
    eval := fun window_start window_size =>
      (List.range window_size.toNat).map (fun (j : Nat) => window_start + (j : Int))
    vctrs_cast := fun v => v }

/-- The slice `(window_start, window_size)` is exact for iteration `k` and anchored at the
unbounded sides: it starts at position 0 when the before side is unbounded and ends at
position `size - 1` when the after side is unbounded. -/
def resolved_window (params : Params) (i starts stops : List Int)
    (out_indices : List (List Nat)) (k window_start window_size : Int) : Prop :=
  exact_window params i starts stops out_indices k window_start window_size
  ∧ (params.before_unbounded = true → window_start = 0)
  ∧ (params.after_unbounded = true → window_start + window_size = params.size)

/-- The slices handed to the evaluator in a run, in order: `(iteration, window_start,
window_size)`. -/
def Outcome.windows {V : Type} (o : Outcome V) : List (Int × Int × Int) :=
  o.trace.filterMap fun ev =>
    match ev with
    | .eval k window_start window_size _ => some (k, window_start, window_size)
    | _ => none

/-- The number of executions of `(*p_last_start_position_val)++` by the loop of
`locate_window_start_index`, run on the keys from the cursor position `p` on. -/
def locate_window_start_advances (start : Int) (size : Nat) : List Int → Nat → Nat
  | [], _ => 0
  | i_position :: rest, p =>
    if i_position < start then
      if p = size then 0
      else 1 + locate_window_start_advances start size rest (p + 1)
    else 0

/-- The number of executions of `(*p_last_stop_position_val)++` by the loop of
`locate_window_stop_index`, run on the keys from the cursor position `p` on. -/
def locate_window_stop_advances (stop : Int) (size : Nat) : List Int → Nat → Nat
  | [], _ => 0
  | i_position :: rest, p =>
    if i_position ≤ stop then
      if p = size then 0
      else 1 + locate_window_stop_advances stop size rest (p + 1)
    else 0

/-- Successive calls of `locate_window_start_index` on one carried cursor, one call per
boundary value: the cursor positions the calls leave behind, and the total number of
advances of the cursor. -/
def start_cursor_run (i : List Int) (size : Nat) : List Int → Nat → Option (List Nat × Nat)
  | [], _ => some ([], 0)
  | b :: bs, p =>
    match locate_window_start_index i b size p with
    | none => none
    | some (_, p1) =>
      match start_cursor_run i size bs p1 with
      | none => none
      | some (ps, n) =>
        some (p1 :: ps, locate_window_start_advances b size (i.drop (p - 1)) p + n)

/-- Successive calls of `locate_window_stop_index` on one carried cursor, one call per
boundary value: the cursor positions the calls leave behind, and the total number of
advances of the cursor. -/
def stop_cursor_run (i : List Int) (size : Nat) : List Int → Nat → Option (List Nat × Nat)
  | [], _ => some ([], 0)
  | b :: bs, p =>
    match locate_window_stop_index i b size p with
    | none => none
    | some (_, p1) =>
      match stop_cursor_run i size bs p1 with
      | none => none
      | some (ps, n) =>
        some (p1 :: ps, locate_window_stop_advances b size (i.drop (p - 1)) p + n)

/-- The two `if` blocks that open the loop body: the state they leave holds the window
resolved from the span table, before the empty-window adjustment. -/
def resolve_window {V : Type} (params : Params) (i starts stops : List Int)
    (window_starts window_stops : List Int) (iteration : Int) (st : LoopState V) : Step V :=
  match window_start_stage params i starts window_starts iteration st with
  | .error e => .error e
  | .ok st1 => window_stop_stage params i stops window_stops iteration st1

/-- The state in which the loop of a run enters iteration `k`: the loop run from
`iteration_min` up to iteration `k - 1`. -/
def state_entering {V : Type} (c : Collaborators V) (params : Params)
    (i starts stops : List Int) (out_indices : List (List Nat))
    (window_starts window_stops : List Int) (iteration_min k : Int) : Step V :=
  slide_loop (iteration_body c params i starts stops out_indices window_starts window_stops)
    (iterations iteration_min (k - 1)) (initial_state c params)

theorem start_scan_step (i : List Int) (start : Int) (size p : Nat) (hp : 1 ≤ p)
    (hlt : p ≤ i.length) :
    locate_window_start_scan start size (i.drop (p - 1)) p =
      if i.getD (p - 1) 0 < start then
        if p = size then some ((size : Int) - 1, p)
        else locate_window_start_scan start size (i.drop p) (p + 1)
      else some ((p : Int) - 1, p) := by
  have h1 : p - 1 < i.length := by omega
  rw [List.drop_eq_getElem_cons h1]
  have h2 : p - 1 + 1 = p := by omega
  simp only [locate_window_start_scan, h2, List.getD_eq_getElem _ _ h1]

theorem stop_scan_step (i : List Int) (stop : Int) (size p : Nat) (hp : 1 ≤ p)
    (hlt : p ≤ i.length) :
    locate_window_stop_scan stop size (i.drop (p - 1)) p =
      if i.getD (p - 1) 0 ≤ stop then
        if p = size then some ((size : Int) - 1, p)
        else locate_window_stop_scan stop size (i.drop p) (p + 1)
      else some ((p : Int) - 2, p) := by
  have h1 : p - 1 < i.length := by omega
  rw [List.drop_eq_getElem_cons h1]
  have h2 : p - 1 + 1 = p := by omega
  simp only [locate_window_stop_scan, h2, List.getD_eq_getElem _ _ h1]

theorem start_scan_spec (i : List Int) (start : Int) :
    ∀ (n p : Nat), 1 ≤ p → p + n = i.length →
      ∃ p' : Nat, locate_window_start_scan start i.length (i.drop (p - 1)) p
          = some ((p' : Int) - 1, p')
        ∧ p ≤ p' ∧ p' ≤ i.length
        ∧ (∀ q, p ≤ q → q < p' → i.getD (q - 1) 0 < start)
        ∧ (start ≤ i.getD (p' - 1) 0 ∨ (p' = i.length ∧ i.getD (p' - 1) 0 < start)) := by
  intro n
  induction n with
  | zero =>
    intro p hp hn
    rw [start_scan_step i start _ p hp (by omega)]
    have hpl : p = i.length := by omega
    by_cases h : i.getD (p - 1) 0 < start
    · refine ⟨p, ?_, le_refl _, by omega, fun q h1 h2 => by omega, Or.inr ⟨hpl, h⟩⟩
      rw [if_pos h, if_pos hpl, hpl]
    · refine ⟨p, by rw [if_neg h], le_refl _, by omega, fun q h1 h2 => by omega,
        Or.inl (by omega)⟩
  | succ n ih =>
    intro p hp hn
    rw [start_scan_step i start _ p hp (by omega)]
    by_cases h : i.getD (p - 1) 0 < start
    · have hne : p ≠ i.length := by omega
      obtain ⟨p', h1, h2, h3, h4, h5⟩ := ih (p + 1) (by omega) (by omega)
      simp only [Nat.add_sub_cancel] at h1
      refine ⟨p', by rw [if_pos h, if_neg hne, h1], by omega, h3, ?_, h5⟩
      intro q hq1 hq2
      by_cases hq : q = p
      · subst hq; exact h
      · exact h4 q (by omega) hq2
    · refine ⟨p, by rw [if_neg h], le_refl _, by omega, fun q h1 h2 => by omega,
        Or.inl (by omega)⟩

theorem stop_scan_spec (i : List Int) (stop : Int) :
    ∀ (n p : Nat), 1 ≤ p → p + n = i.length →
      ∃ (idx : Int) (p' : Nat),
        locate_window_stop_scan stop i.length (i.drop (p - 1)) p = some (idx, p')
        ∧ p ≤ p' ∧ p' ≤ i.length
        ∧ (∀ q, p ≤ q → q < p' → i.getD (q - 1) 0 ≤ stop)
        ∧ ((stop < i.getD (p' - 1) 0 ∧ idx = (p' : Int) - 2)
            ∨ (p' = i.length ∧ i.getD (p' - 1) 0 ≤ stop ∧ idx = (i.length : Int) - 1)) := by
  intro n
  induction n with
  | zero =>
    intro p hp hn
    rw [stop_scan_step i stop _ p hp (by omega)]
    have hpl : p = i.length := by omega
    by_cases h : i.getD (p - 1) 0 ≤ stop
    · refine ⟨(i.length : Int) - 1, p, by rw [if_pos h, if_pos hpl], le_refl _, by omega,
        fun q h1 h2 => by omega, Or.inr ⟨hpl, h, rfl⟩⟩
    · refine ⟨(p : Int) - 2, p, by rw [if_neg h], le_refl _, by omega,
        fun q h1 h2 => by omega, Or.inl ⟨by omega, rfl⟩⟩
  | succ n ih =>
    intro p hp hn
    rw [stop_scan_step i stop _ p hp (by omega)]
    by_cases h : i.getD (p - 1) 0 ≤ stop
    · have hne : p ≠ i.length := by omega
      obtain ⟨idx, p', h1, h2, h3, h4, h5⟩ := ih (p + 1) (by omega) (by omega)
      simp only [Nat.add_sub_cancel] at h1
      refine ⟨idx, p', by rw [if_pos h, if_neg hne, h1], by omega, h3, ?_, h5⟩
      intro q hq1 hq2
      by_cases hq : q = p
      · subst hq; exact h
      · exact h4 q (by omega) hq2
    · refine ⟨(p : Int) - 2, p, by rw [if_neg h], le_refl _, by omega,
        fun q h1 h2 => by omega, Or.inl ⟨by omega, rfl⟩⟩

/-- The result of `locate_window_start_index` from a cursor inside `1 .. size`. -/
theorem locate_start_spec (i : List Int) (start : Int) (p : Nat) (hp : 1 ≤ p)
    (hpl : p ≤ i.length) :
    ∃ p' : Nat, locate_window_start_index i start i.length p = some ((p' : Int) - 1, p')
      ∧ p ≤ p' ∧ p' ≤ i.length
      ∧ (∀ q, p ≤ q → q < p' → i.getD (q - 1) 0 < start)
      ∧ (start ≤ i.getD (p' - 1) 0 ∨ (p' = i.length ∧ i.getD (p' - 1) 0 < start)) := by
  unfold locate_window_start_index
  rw [if_neg (by omega)]
  exact start_scan_spec i start (i.length - p) p hp (by omega)

/-- The result of `locate_window_stop_index` from a cursor inside `1 .. size`. -/
theorem locate_stop_spec (i : List Int) (stop : Int) (p : Nat) (hp : 1 ≤ p)
    (hpl : p ≤ i.length) :
    ∃ (idx : Int) (p' : Nat), locate_window_stop_index i stop i.length p = some (idx, p')
      ∧ p ≤ p' ∧ p' ≤ i.length
      ∧ (∀ q, p ≤ q → q < p' → i.getD (q - 1) 0 ≤ stop)
      ∧ ((stop < i.getD (p' - 1) 0 ∧ idx = (p' : Int) - 2)
          ∨ (p' = i.length ∧ i.getD (p' - 1) 0 ≤ stop ∧ idx = (i.length : Int) - 1)) := by
  unfold locate_window_stop_index
  rw [if_neg (by omega)]
  exact stop_scan_spec i stop (i.length - p) p hp (by omega)

/-- A start cursor can be moved over keys below the boundary without changing the result. -/
theorem locate_start_skip (i : List Int) (start : Int) :
    ∀ (d p : Nat), 1 ≤ p → p + d ≤ i.length →
      (∀ q, p ≤ q → q < p + d → i.getD (q - 1) 0 < start) →
      locate_window_start_index i start i.length p
        = locate_window_start_index i start i.length (p + d) := by
  intro d
  induction d with
  | zero => intro p _ _ _; rfl
  | succ d ih =>
    intro p hp hpl hlt
    have h1 : locate_window_start_index i start i.length p
        = locate_window_start_index i start i.length (p + 1) := by
      unfold locate_window_start_index
      rw [if_neg (by omega), if_neg (by omega), start_scan_step i start _ p hp (by omega),
        if_pos (hlt p (le_refl _) (by omega)), if_neg (by omega), Nat.add_sub_cancel]
    rw [h1, ih (p + 1) (by omega) (by omega) (fun q h2 h3 => hlt q (by omega) (by omega))]
    congr 1
    omega

/-- A stop cursor can be moved over keys not above the boundary without changing the result. -/
theorem locate_stop_skip (i : List Int) (stop : Int) :
    ∀ (d p : Nat), 1 ≤ p → p + d ≤ i.length →
      (∀ q, p ≤ q → q < p + d → i.getD (q - 1) 0 ≤ stop) →
      locate_window_stop_index i stop i.length p
        = locate_window_stop_index i stop i.length (p + d) := by
  intro d
  induction d with
  | zero => intro p _ _ _; rfl
  | succ d ih =>
    intro p hp hpl hlt
    have h1 : locate_window_stop_index i stop i.length p
        = locate_window_stop_index i stop i.length (p + 1) := by
      unfold locate_window_stop_index
      rw [if_neg (by omega), if_neg (by omega), stop_scan_step i stop _ p hp (by omega),
        if_pos (hlt p (le_refl _) (by omega)), if_neg (by omega), Nat.add_sub_cancel]
    rw [h1, ih (p + 1) (by omega) (by omega) (fun q h2 h3 => hlt q (by omega) (by omega))]
    congr 1
    omega

theorem locate_start_carried_eq (i : List Int) :
    ∀ (bs : List Int) (p : Nat), bs.Pairwise (fun a b => a ≤ b) → 1 ≤ p → p ≤ i.length →
      (∀ b ∈ bs, ∀ q, 1 ≤ q → q < p → i.getD (q - 1) 0 < b) →
      ∃ idxs, locate_start_carried i i.length bs p = some idxs
        ∧ locate_start_fresh i i.length bs = some idxs ∧ idxs.length = bs.length := by
  intro bs
  induction bs with
  | nil => intro p _ _ _ _; exact ⟨[], rfl, rfl, rfl⟩
  | cons b bs ih =>
    intro p hs hp hpl hinv
    obtain ⟨p', h1, h2, h3, h4, _⟩ := locate_start_spec i b p hp hpl
    have hfresh : locate_window_start_index i b i.length 1
        = locate_window_start_index i b i.length p := by
      have := locate_start_skip i b (p - 1) 1 (le_refl _) (by omega)
        (fun q hq1 hq2 => hinv b (List.mem_cons_self _ _) q hq1 (by omega))
      rw [this]; congr 1; omega
    rw [List.pairwise_cons] at hs
    obtain ⟨idxs, e1, e2, e3⟩ := ih p' hs.2 (by omega) h3 (by
      intro b' hb' q hq1 hq2
      have hbb : b ≤ b' := hs.1 b' hb'
      by_cases hq : q < p
      · have := hinv b (List.mem_cons_self _ _) q hq1 hq
        omega
      · have := h4 q (by omega) hq2
        omega)
    refine ⟨((p' : Int) - 1) :: idxs, ?_, ?_, by simp [e3]⟩
    · simp only [locate_start_carried, h1, e1, Option.map_some']
    · unfold locate_start_fresh at e2 ⊢
      simp only [List.mapM_cons, hfresh, h1, Option.map_some', e2]
      rfl

theorem locate_stop_carried_eq (i : List Int) :
    ∀ (bs : List Int) (p : Nat), bs.Pairwise (fun a b => a ≤ b) → 1 ≤ p → p ≤ i.length →
      (∀ b ∈ bs, ∀ q, 1 ≤ q → q < p → i.getD (q - 1) 0 ≤ b) →
      ∃ idxs, locate_stop_carried i i.length bs p = some idxs
        ∧ locate_stop_fresh i i.length bs = some idxs ∧ idxs.length = bs.length := by
  intro bs
  induction bs with
  | nil => intro p _ _ _ _; exact ⟨[], rfl, rfl, rfl⟩
  | cons b bs ih =>
    intro p hs hp hpl hinv
    obtain ⟨idx, p', h1, h2, h3, h4, _⟩ := locate_stop_spec i b p hp hpl
    have hfresh : locate_window_stop_index i b i.length 1
        = locate_window_stop_index i b i.length p := by
      have := locate_stop_skip i b (p - 1) 1 (le_refl _) (by omega)
        (fun q hq1 hq2 => hinv b (List.mem_cons_self _ _) q hq1 (by omega))
      rw [this]; congr 1; omega
    rw [List.pairwise_cons] at hs
    obtain ⟨idxs, e1, e2, e3⟩ := ih p' hs.2 (by omega) h3 (by
      intro b' hb' q hq1 hq2
      have hbb : b ≤ b' := hs.1 b' hb'
      by_cases hq : q < p
      · have := hinv b (List.mem_cons_self _ _) q hq1 hq
        omega
      · have := h4 q (by omega) hq2
        omega)
    refine ⟨idx :: idxs, ?_, ?_, by simp [e3]⟩
    · simp only [locate_stop_carried, h1, e1, Option.map_some']
    · unfold locate_stop_fresh at e2 ⊢
      simp only [List.mapM_cons, hfresh, h1, Option.map_some', e2]
      rfl

/-- C10. The amortized cursor is a pure optimization: for a key sequence of length at least
one and boundary values fed in non-decreasing order to one shared cursor that starts at
position 1, every call returns (the calls never fail), and the group indices returned are
those returned with a fresh cursor at position 1 for each boundary value; this holds for
`locate_window_start_index` and for `locate_window_stop_index`. -/
theorem amortized_cursor_is_pure_optimization (i bs : List Int) (hM : 1 ≤ i.length)
    (hbs : bs.Pairwise (fun a b => a ≤ b)) :
    (∃ idxs, locate_start_carried i i.length bs 1 = some idxs ∧ idxs.length = bs.length)
    ∧ locate_start_carried i i.length bs 1 = locate_start_fresh i i.length bs
    ∧ (∃ idxs, locate_stop_carried i i.length bs 1 = some idxs ∧ idxs.length = bs.length)
    ∧ locate_stop_carried i i.length bs 1 = locate_stop_fresh i i.length bs := by
  obtain ⟨a, a1, a2, a3⟩ := locate_start_carried_eq i bs 1 hbs (le_refl _) hM
    (fun _ _ q h1 h2 => by omega)
  obtain ⟨b, b1, b2, b3⟩ := locate_stop_carried_eq i bs 1 hbs (le_refl _) hM
    (fun _ _ q h1 h2 => by omega)
  exact ⟨⟨a, a1, a3⟩, by rw [a1, a2], ⟨b, b1, b3⟩, by rw [b1, b2]⟩

/-- C10 at the keys `[1, 3, 3, 7]` and the boundary values `[0, 3, 3, 5, 9]`. -/
theorem amortized_cursor_is_pure_optimization_witness :
    locate_start_carried [1, 3, 3, 7] 4 [0, 3, 3, 5, 9] 1 = some [0, 1, 1, 3, 3]
    ∧ locate_stop_carried [1, 3, 3, 7] 4 [0, 3, 3, 5, 9] 1 = some [-1, 2, 2, 2, 3]
    ∧ ((∃ idxs, locate_start_carried [1, 3, 3, 7] ([1, 3, 3, 7] : List Int).length
            [0, 3, 3, 5, 9] 1 = some idxs ∧ idxs.length = ([0, 3, 3, 5, 9] : List Int).length)
      ∧ locate_start_carried [1, 3, 3, 7] ([1, 3, 3, 7] : List Int).length [0, 3, 3, 5, 9] 1
          = locate_start_fresh [1, 3, 3, 7] ([1, 3, 3, 7] : List Int).length [0, 3, 3, 5, 9]
      ∧ (∃ idxs, locate_stop_carried [1, 3, 3, 7] ([1, 3, 3, 7] : List Int).length
            [0, 3, 3, 5, 9] 1 = some idxs ∧ idxs.length = ([0, 3, 3, 5, 9] : List Int).length)
      ∧ locate_stop_carried [1, 3, 3, 7] ([1, 3, 3, 7] : List Int).length [0, 3, 3, 5, 9] 1
          = locate_stop_fresh [1, 3, 3, 7] ([1, 3, 3, 7] : List Int).length [0, 3, 3, 5, 9]) :=
  ⟨by decide, by decide,
    amortized_cursor_is_pure_optimization [1, 3, 3, 7] [0, 3, 3, 5, 9] (by decide) (by decide)⟩

theorem iterations_succ (lo : Int) (n : Nat) :
    (List.range (n + 1)).map (fun (j : Nat) => lo + (j : Int))
      = lo :: (List.range n).map (fun (j : Nat) => (lo + 1) + (j : Int)) := by
  rw [List.range_succ_eq_map, List.map_cons, List.map_map]
  simp only [Nat.cast_zero, add_zero, List.cons.injEq, true_and]
  apply List.map_congr_left
  intro j _
  simp only [Function.comp, Nat.cast_succ]
  omega

/-- Loop invariants: a property kept by every iteration of the range holds when the loop
ends, and a property of every failure of the body holds of a failure of the loop. -/
theorem slide_loop_invariant {V : Type} (body : Int → LoopState V → Step V)
    (Inv : Int → LoopState V → Prop) (Bad : SlideError × List (Event V) → Prop) :
    ∀ (n : Nat) (lo : Int) (st : LoopState V), Inv lo st →
      (∀ it s, lo ≤ it → it < lo + n → Inv it s →
        (∀ s1, body it s = .ok s1 → Inv (it + 1) s1) ∧ (∀ e, body it s = .error e → Bad e)) →
      (∀ s1, slide_loop body ((List.range n).map (fun (j : Nat) => lo + (j : Int))) st = .ok s1 →
        Inv (lo + n) s1)
      ∧ (∀ e, slide_loop body ((List.range n).map (fun (j : Nat) => lo + (j : Int))) st = .error e →
        Bad e) := by
  intro n
  induction n with
  | zero =>
    intro lo st h0 _
    simp only [List.range_zero, List.map_nil, slide_loop]
    refine ⟨?_, ?_⟩
    · intro s1 h; cases h; simpa using h0
    · intro e h; cases h
  | succ n ih =>
    intro lo st h0 hstep
    rw [iterations_succ]
    simp only [slide_loop]
    obtain ⟨hok, herr⟩ := hstep lo st (le_refl _) (by omega) h0
    cases hb : body lo st with
    | error e =>
      simp only
      exact ⟨fun s1 h => (by cases h), fun e1 h => (by cases h; exact herr _ hb)⟩
    | ok s0 =>
      simp only
      have := ih (lo + 1) s0 (hok _ hb)
        (fun it s h1 h2 h3 => hstep it s (by omega) (by push_cast; omega) h3)
      have e : lo + 1 + (n : Int) = lo + ((n + 1 : Nat) : Int) := by push_cast; omega
      rw [e] at this
      exact this

/-- The same for the iterations `iteration_min .. iteration_max`. -/
theorem slide_loop_iterations {V : Type} (body : Int → LoopState V → Step V)
    (Inv : Int → LoopState V → Prop) (Bad : SlideError × List (Event V) → Prop)
    (iteration_min iteration_max : Int) (st : LoopState V) (h0 : Inv iteration_min st)
    (hstep : ∀ it s, iteration_min ≤ it → it ≤ iteration_max → Inv it s →
        (∀ s1, body it s = .ok s1 → Inv (it + 1) s1) ∧ (∀ e, body it s = .error e → Bad e)) :
    (∀ s1, slide_loop body (iterations iteration_min iteration_max) st = .ok s1 →
        Inv (max iteration_min (iteration_max + 1)) s1)
      ∧ (∀ e, slide_loop body (iterations iteration_min iteration_max) st = .error e →
        Bad e) := by
  have := slide_loop_invariant body Inv Bad (iteration_max + 1 - iteration_min).toNat
    iteration_min st h0 (fun it s h1 h2 h3 => hstep it s h1 (by omega) h3)
  have e : iteration_min + ((iteration_max + 1 - iteration_min).toNat : Int)
      = max iteration_min (iteration_max + 1) := by omega
  rw [e] at this
  exact this

/-! ### The stages of the loop body -/

theorem window_start_stage_unbounded {V : Type} (params : Params) (i starts ws : List Int)
    (it : Int) (st : LoopState V) (hb : params.before_unbounded = true) :
    window_start_stage params i starts ws it st = .ok st := by
  simp [window_start_stage, hb]

theorem window_start_stage_eq {V : Type} (params : Params) (i starts ws : List Int)
    (it : Int) (st : LoopState V) (hb : params.before_unbounded = false)
    (start idx v : Int) (p1 : Nat)
    (h1 : vec_slice_impl starts it = some start)
    (h2 : locate_window_start_index i start i.length st.last_start_position = some (idx, p1))
    (h3 : array_get ws idx = some v) :
    window_start_stage params i starts ws it st =
      .ok { st with
            window_start := v
            last_start_position := p1
            trace := st.trace ++ [Event.locate_start it start] } := by
  simp [window_start_stage, hb, h1, h2, h3]

theorem window_start_stage_ok {V : Type} (params : Params) (i starts ws : List Int)
    (it : Int) (st s1 : LoopState V)
    (h : window_start_stage params i starts ws it st = .ok s1) :
    (params.before_unbounded = true ∧ s1 = st)
    ∨ (params.before_unbounded = false ∧ ∃ start idx v p1,
        vec_slice_impl starts it = some start
        ∧ locate_window_start_index i start i.length st.last_start_position = some (idx, p1)
        ∧ array_get ws idx = some v
        ∧ s1 = { st with
                 window_start := v
                 last_start_position := p1
                 trace := st.trace ++ [Event.locate_start it start] }) := by
  unfold window_start_stage at h
  split at h
  · next hb => left; cases h; exact ⟨hb, rfl⟩
  · next hb =>
    right
    refine ⟨by simpa using hb, ?_⟩
    split at h
    · cases h
    · next start h1 =>
      simp only at h
      split at h
      · cases h
      · next idx p1 h2 =>
        split at h
        · cases h
        · next v h3 =>
          cases h
          exact ⟨start, idx, v, p1, h1, h2, h3, rfl⟩

theorem window_start_stage_error {V : Type} (params : Params) (i starts ws : List Int)
    (it : Int) (st : LoopState V) (e : SlideError × List (Event V))
    (h : window_start_stage params i starts ws it st = .error e) :
    params.before_unbounded = false
    ∧ (e.1 = .subscript_out_of_bounds ∨ ∃ idx, e.1 = .span_index_out_of_bounds idx)
    ∧ (e.2 = st.trace ∨ ∃ start, e.2 = st.trace ++ [Event.locate_start it start]) := by
  unfold window_start_stage at h
  split at h
  · cases h
  · next hb =>
    refine ⟨by simpa using hb, ?_⟩
    split at h
    · cases h; exact ⟨Or.inl rfl, Or.inl rfl⟩
    · next start h1 =>
      simp only at h
      split at h
      · cases h; exact ⟨Or.inl rfl, Or.inr ⟨start, rfl⟩⟩
      · next idx p1 h2 =>
        split at h
        · cases h; exact ⟨Or.inr ⟨idx, rfl⟩, Or.inr ⟨start, rfl⟩⟩
        · cases h

theorem window_stop_stage_unbounded {V : Type} (params : Params) (i stops ws : List Int)
    (it : Int) (st : LoopState V) (hb : params.after_unbounded = true) :
    window_stop_stage params i stops ws it st = .ok st := by
  simp [window_stop_stage, hb]

theorem window_stop_stage_eq {V : Type} (params : Params) (i stops ws : List Int)
    (it : Int) (st : LoopState V) (hb : params.after_unbounded = false)
    (stop idx v : Int) (p1 : Nat)
    (h1 : vec_slice_impl stops it = some stop)
    (h2 : locate_window_stop_index i stop i.length st.last_stop_position = some (idx, p1))
    (h3 : array_get ws idx = some v) :
    window_stop_stage params i stops ws it st =
      .ok { st with
            window_stop := v
            last_stop_position := p1
            trace := st.trace ++ [Event.locate_stop it stop] } := by
  simp [window_stop_stage, hb, h1, h2, h3]

theorem window_stop_stage_ok {V : Type} (params : Params) (i stops ws : List Int)
    (it : Int) (st s1 : LoopState V)
    (h : window_stop_stage params i stops ws it st = .ok s1) :
    (params.after_unbounded = true ∧ s1 = st)
    ∨ (params.after_unbounded = false ∧ ∃ stop idx v p1,
        vec_slice_impl stops it = some stop
        ∧ locate_window_stop_index i stop i.length st.last_stop_position = some (idx, p1)
        ∧ array_get ws idx = some v
        ∧ s1 = { st with
                 window_stop := v
                 last_stop_position := p1
                 trace := st.trace ++ [Event.locate_stop it stop] }) := by
  unfold window_stop_stage at h
  split at h
  · next hb => left; cases h; exact ⟨hb, rfl⟩
  · next hb =>
    right
    refine ⟨by simpa using hb, ?_⟩
    split at h
    · cases h
    · next stop h1 =>
      simp only at h
      split at h
      · cases h
      · next idx p1 h2 =>
        split at h
        · cases h
        · next v h3 =>
          cases h
          exact ⟨stop, idx, v, p1, h1, h2, h3, rfl⟩

theorem window_stop_stage_error {V : Type} (params : Params) (i stops ws : List Int)
    (it : Int) (st : LoopState V) (e : SlideError × List (Event V))
    (h : window_stop_stage params i stops ws it st = .error e) :
    params.after_unbounded = false
    ∧ (e.1 = .subscript_out_of_bounds ∨ ∃ idx, e.1 = .span_index_out_of_bounds idx)
    ∧ (e.2 = st.trace ∨ ∃ stop, e.2 = st.trace ++ [Event.locate_stop it stop]) := by
  unfold window_stop_stage at h
  split at h
  · cases h
  · next hb =>
    refine ⟨by simpa using hb, ?_⟩
    split at h
    · cases h; exact ⟨Or.inl rfl, Or.inl rfl⟩
    · next stop h1 =>
      simp only at h
      split at h
      · cases h; exact ⟨Or.inl rfl, Or.inr ⟨stop, rfl⟩⟩
      · next idx p1 h2 =>
        split at h
        · cases h; exact ⟨Or.inr ⟨idx, rfl⟩, Or.inr ⟨stop, rfl⟩⟩
        · cases h

theorem assign_loop_ok {V : Type} (it : Int) (elt : V) :
    ∀ (g : List Nat) (st s1 : LoopState V), assign_loop it elt g st = .ok s1 →
      s1 = { st with
             out := g.foldl (fun o q => o.set (q - 1) elt) st.out
             trace := st.trace ++ g.map (fun q => Event.assign it q elt) }
      ∧ ∀ q ∈ g, 1 ≤ q ∧ q ≤ st.out.length := by
  intro g
  induction g with
  | nil =>
    intro st s1 h
    simp only [assign_loop] at h
    cases h
    simp
  | cons q g ih =>
    intro st s1 h
    simp only [assign_loop] at h
    split at h
    · next hq =>
      obtain ⟨h1, h2⟩ := ih _ _ h
      refine ⟨?_, ?_⟩
      · rw [h1]; simp
      · intro q1 hq1
        rcases List.mem_cons.1 hq1 with rfl | hq1
        · exact hq
        · simpa using h2 q1 hq1
    · cases h

theorem assign_loop_error {V : Type} (it : Int) (elt : V) :
    ∀ (g : List Nat) (st : LoopState V) (e : SlideError × List (Event V)),
      assign_loop it elt g st = .error e →
      ∃ (q : Nat) (g0 : List Nat), e.1 = .assign_out_of_bounds q
        ∧ e.2 = st.trace ++ g0.map (fun q => Event.assign it q elt) := by
  intro g
  induction g with
  | nil => intro st e h; simp only [assign_loop] at h; cases h
  | cons q g ih =>
    intro st e h
    simp only [assign_loop] at h
    split at h
    · obtain ⟨q1, g0, h1, h2⟩ := ih _ _ h
      exact ⟨q1, q :: g0, h1, by rw [h2]; simp⟩
    · cases h; exact ⟨q, [], rfl, by simp⟩

theorem assign_loop_total {V : Type} (it : Int) (elt : V) :
    ∀ (g : List Nat) (st : LoopState V), (∀ q ∈ g, 1 ≤ q ∧ q ≤ st.out.length) →
      ∃ s1, assign_loop it elt g st = .ok s1 := by
  intro g
  induction g with
  | nil => intro st _; exact ⟨st, rfl⟩
  | cons q g ih =>
    intro st h
    simp only [assign_loop]
    rw [if_pos (h q (List.mem_cons_self _ _))]
    exact ih _ (fun q1 hq1 => by simpa using h q1 (List.mem_cons_of_mem _ hq1))

theorem foldl_set_length {V : Type} (elt : V) :
    ∀ (g : List Nat) (out : List V),
      (g.foldl (fun o q => o.set (q - 1) elt) out).length = out.length := by
  intro g
  induction g with
  | nil => intro out; rfl
  | cons q g ih => intro out; simp [List.foldl_cons, ih]

theorem foldl_set_getElem? {V : Type} (elt : V) :
    ∀ (g : List Nat) (out : List V) (j : Nat), (∀ q ∈ g, 1 ≤ q) → j < out.length →
      (g.foldl (fun o q => o.set (q - 1) elt) out)[j]?
        = if j + 1 ∈ g then some elt else out[j]? := by
  intro g
  induction g with
  | nil => intro out j _ _; simp
  | cons q g ih =>
    intro out j hq hj
    rw [List.foldl_cons, ih _ _ (fun q1 h1 => hq q1 (List.mem_cons_of_mem _ h1))
      (by simpa using hj)]
    have hq1 := hq q (List.mem_cons_self _ _)
    by_cases h1 : j + 1 ∈ g
    · simp [h1]
    · by_cases h2 : j + 1 = q
      · subst h2
        simp [h1, hj]
      · have h4 : q - 1 ≠ j := by omega
        rw [List.getElem?_set_ne h4]
        simp [h1, h2]

theorem scatter_stage_ok {V : Type} (c : Collaborators V) (params : Params)
    (out_indices : List (List Nat)) (it : Int) (elt : V) (st s1 : LoopState V)
    (h : scatter_stage c params out_indices it elt st = .ok s1) :
    ∃ g, vec_slice_impl out_indices it = some g
      ∧ (params.constrain = true → c.vec_size (c.vctrs_cast elt) = 1)
      ∧ s1 = { st with
               out := g.foldl (fun o q => o.set (q - 1) (scattered c params elt)) st.out
               trace := st.trace ++ g.map (fun q => Event.assign it q (scattered c params elt)) }
      ∧ ∀ q ∈ g, 1 ≤ q ∧ q ≤ st.out.length := by
  unfold scatter_stage at h
  split at h
  · cases h
  · next g hg =>
    refine ⟨g, hg, ?_⟩
    by_cases hc : params.constrain = true
    · simp only [hc, if_true] at h
      split at h
      · cases h
      · next hs =>
        obtain ⟨h1, h2⟩ := assign_loop_ok _ _ _ _ _ h
        refine ⟨fun _ => by simpa using hs, ?_, h2⟩
        simpa [scattered, hc] using h1
    · simp only [hc] at h
      obtain ⟨h1, h2⟩ := assign_loop_ok _ _ _ _ _ h
      refine ⟨fun h => absurd h hc, ?_, h2⟩
      simpa [scattered, hc] using h1

theorem scatter_stage_error {V : Type} (c : Collaborators V) (params : Params)
    (out_indices : List (List Nat)) (it : Int) (elt : V) (st : LoopState V)
    (e : SlideError × List (Event V))
    (h : scatter_stage c params out_indices it elt st = .error e) :
    (vec_slice_impl out_indices it = none ∧ e = (.subscript_out_of_bounds, st.trace))
    ∨ (params.constrain = true ∧ c.vec_size (c.vctrs_cast elt) ≠ 1
        ∧ e = (.not_all_size_one it (c.vec_size (c.vctrs_cast elt)), st.trace))
    ∨ (∃ (q : Nat) (g0 : List Nat), e.1 = .assign_out_of_bounds q
        ∧ (params.constrain = true → c.vec_size (c.vctrs_cast elt) = 1)
        ∧ e.2 = st.trace ++ g0.map (fun q => Event.assign it q (scattered c params elt))) := by
  unfold scatter_stage at h
  split at h
  · next hg => cases h; exact Or.inl ⟨hg, rfl⟩
  · next g hg =>
    right
    by_cases hc : params.constrain = true
    · simp only [hc, if_true] at h
      split at h
      · next hs => cases h; exact Or.inl ⟨hc, hs, rfl⟩
      · next hs =>
        obtain ⟨q, g0, h1, h2⟩ := assign_loop_error _ _ _ _ _ h
        exact Or.inr ⟨q, g0, h1, fun _ => by simpa using hs, by simpa [scattered, hc] using h2⟩
    · simp only [hc] at h
      obtain ⟨q, g0, h1, h2⟩ := assign_loop_error _ _ _ _ _ h
      exact Or.inr ⟨q, g0, h1, fun h => absurd h hc, by simpa [scattered, hc] using h2⟩

@[simp] theorem normalize_window_out {V : Type} (st : LoopState V) :
    (normalize_window st).out = st.out := by
  unfold normalize_window; split <;> rfl

@[simp] theorem normalize_window_trace {V : Type} (st : LoopState V) :
    (normalize_window st).trace = st.trace := by
  unfold normalize_window; split <;> rfl

@[simp] theorem normalize_window_last_start_position {V : Type} (st : LoopState V) :
    (normalize_window st).last_start_position = st.last_start_position := by
  unfold normalize_window; split <;> rfl

@[simp] theorem normalize_window_last_stop_position {V : Type} (st : LoopState V) :
    (normalize_window st).last_stop_position = st.last_stop_position := by
  unfold normalize_window; split <;> rfl

theorem resolve_cases {V : Type} (params : Params) (i starts stops ws we : List Int)
    (it : Int) (st : LoopState V) :
    (∃ e locs, (window_start_stage params i starts ws it st = .error (e, st.trace ++ locs)
          ∨ ∃ s1, window_start_stage params i starts ws it st = .ok s1
              ∧ window_stop_stage params i stops we it s1 = .error (e, st.trace ++ locs))
        ∧ locate_events params it locs
        ∧ (e = .subscript_out_of_bounds ∨ ∃ idx, e = .span_index_out_of_bounds idx))
    ∨ (∃ s1 s2 locs, window_start_stage params i starts ws it st = .ok s1
        ∧ window_stop_stage params i stops we it s1 = .ok s2
        ∧ s2.out = st.out ∧ s2.trace = st.trace ++ locs ∧ locate_events params it locs) := by
  cases h1 : window_start_stage params i starts ws it st with
  | error e =>
    left
    obtain ⟨hb, hk, ht⟩ := window_start_stage_error _ _ _ _ _ _ _ h1
    rcases ht with ht | ⟨b, ht⟩
    · refine ⟨e.1, [], Or.inl (by rw [← ht]; simp), (by intro ev hev; cases hev), hk⟩
    · refine ⟨e.1, [Event.locate_start it b], Or.inl (by rw [← ht]), ?_, hk⟩
      intro ev hev
      rw [List.mem_singleton] at hev
      exact Or.inl ⟨hb, b, hev⟩
  | ok s1 =>
    have hs1 : s1.out = st.out ∧ ∃ l1, s1.trace = st.trace ++ l1 ∧ locate_events params it l1 := by
      rcases window_start_stage_ok _ _ _ _ _ _ _ h1 with ⟨_, rfl⟩ | ⟨hb, b, idx, v, p1, _, _, _, rfl⟩
      · exact ⟨rfl, [], (by simp), (by intro ev hev; cases hev)⟩
      · refine ⟨rfl, [Event.locate_start it b], rfl, ?_⟩
        intro ev hev
        rw [List.mem_singleton] at hev
        exact Or.inl ⟨hb, b, hev⟩
    obtain ⟨ho1, l1, ht1, hl1⟩ := hs1
    cases h2 : window_stop_stage params i stops we it s1 with
    | error e =>
      left
      obtain ⟨hb, hk, ht⟩ := window_stop_stage_error _ _ _ _ _ _ _ h2
      rcases ht with ht | ⟨b, ht⟩
      · refine ⟨e.1, l1, Or.inr ⟨s1, rfl, (by rw [← ht1, ← ht]; exact h2)⟩, hl1, hk⟩
      · refine ⟨e.1, l1 ++ [Event.locate_stop it b],
          Or.inr ⟨s1, rfl, (by rw [← List.append_assoc, ← ht1, ← ht]; exact h2)⟩, ?_, hk⟩
        intro ev hev
        rcases List.mem_append.1 hev with hev | hev
        · exact hl1 ev hev
        · rw [List.mem_singleton] at hev
          exact Or.inr ⟨hb, b, hev⟩
    | ok s2 =>
      right
      refine ⟨s1, s2, ?_⟩
      rcases window_stop_stage_ok _ _ _ _ _ _ _ h2 with ⟨_, rfl⟩ | ⟨hb, b, idx, v, p1, _, _, _, rfl⟩
      · exact ⟨l1, rfl, h2, ho1, ht1, hl1⟩
      · refine ⟨l1 ++ [Event.locate_stop it b], rfl, h2, ho1, ?_, ?_⟩
        · simp [ht1]
        · intro ev hev
          rcases List.mem_append.1 hev with hev | hev
          · exact hl1 ev hev
          · rw [List.mem_singleton] at hev
            exact Or.inr ⟨hb, b, hev⟩

/-- Every way one iteration of the loop can go. -/
theorem iteration_body_cases {V : Type} (c : Collaborators V) (params : Params)
    (i starts stops : List Int) (out_indices : List (List Nat)) (ws we : List Int)
    (it : Int) (st : LoopState V) :
    (∃ e locs, iteration_body c params i starts stops out_indices ws we it st
          = .error (e, st.trace ++ locs)
        ∧ locate_events params it locs
        ∧ (e = .subscript_out_of_bounds ∨ ∃ idx, e = .span_index_out_of_bounds idx))
    ∨ (∃ s1 s2 locs, window_start_stage params i starts ws it st = .ok s1
        ∧ window_stop_stage params i stops we it s1 = .ok s2
        ∧ s2.out = st.out ∧ s2.trace = st.trace ++ locs ∧ locate_events params it locs
        ∧ ((vec_slice_impl out_indices it = none
              ∧ iteration_body c params i starts stops out_indices ws we it st
                = .error (.subscript_out_of_bounds, (evaluated c it s2).2.trace))
          ∨ (params.constrain = true ∧ c.vec_size (c.vctrs_cast (evaluated c it s2).1) ≠ 1
              ∧ iteration_body c params i starts stops out_indices ws we it st
                = .error (.not_all_size_one it (c.vec_size (c.vctrs_cast (evaluated c it s2).1)),
                    (evaluated c it s2).2.trace))
          ∨ (∃ (q : Nat) (g0 : List Nat),
              (params.constrain = true → c.vec_size (c.vctrs_cast (evaluated c it s2).1) = 1)
              ∧ iteration_body c params i starts stops out_indices ws we it st
                = .error (.assign_out_of_bounds q, (evaluated c it s2).2.trace
                    ++ g0.map (fun q => Event.assign it q
                        (scattered c params (evaluated c it s2).1))))
          ∨ (∃ g, vec_slice_impl out_indices it = some g
              ∧ (params.constrain = true → c.vec_size (c.vctrs_cast (evaluated c it s2).1) = 1)
              ∧ (∀ q ∈ g, 1 ≤ q ∧ q ≤ st.out.length)
              ∧ iteration_body c params i starts stops out_indices ws we it st
                = .ok { (evaluated c it s2).2 with
                        out := g.foldl
                          (fun o q => o.set (q - 1) (scattered c params (evaluated c it s2).1))
                          st.out
                        trace := (evaluated c it s2).2.trace
                          ++ g.map (fun q => Event.assign it q
                              (scattered c params (evaluated c it s2).1)) }))) := by
  rcases resolve_cases params i starts stops ws we it st with
    ⟨e, locs, h, hl, hk⟩ | ⟨s1, s2, locs, h1, h2, ho, ht, hl⟩
  · left
    refine ⟨e, locs, ?_, hl, hk⟩
    unfold iteration_body
    rcases h with h | ⟨s1, h1, h2⟩
    · rw [h]
    · rw [h1]; simp only; rw [h2]
  · right
    refine ⟨s1, s2, locs, h1, h2, ho, ht, hl, ?_⟩
    have hb : iteration_body c params i starts stops out_indices ws we it st
        = scatter_stage c params out_indices it (evaluated c it s2).1 (evaluated c it s2).2 := by
      unfold iteration_body
      rw [h1]; simp only; rw [h2]; rfl
    rw [hb]
    cases hsc : scatter_stage c params out_indices it (evaluated c it s2).1
        (evaluated c it s2).2 with
    | error e =>
      rcases scatter_stage_error _ _ _ _ _ _ _ hsc with ⟨hg, he⟩ | ⟨hc, hs, he⟩
        | ⟨q, g0, he1, hs, he2⟩
      · left; exact ⟨hg, by rw [he]⟩
      · right; left; exact ⟨hc, hs, by rw [he]⟩
      · right; right; left
        refine ⟨q, g0, hs, ?_⟩
        rw [← he1, ← he2]
    | ok s3 =>
      obtain ⟨g, hg, hs, he, hq⟩ := scatter_stage_ok _ _ _ _ _ _ _ hsc
      right; right; right
      have ho2 : (evaluated c it s2).2.out = st.out := by
        simp [evaluated, eval_stage, ho]
      refine ⟨g, hg, hs, by simpa [ho2] using hq, ?_⟩
      rw [he, ho2]

theorem evaluated_trace {V : Type} (c : Collaborators V) (it : Int) (s2 : LoopState V) :
    (evaluated c it s2).2.trace = s2.trace ++
      [Event.eval it (normalize_window s2).window_start
        ((normalize_window s2).window_stop - (normalize_window s2).window_start + 1)
        (evaluated c it s2).1] := by
  simp [evaluated, eval_stage]

theorem evaluated_elt {V : Type} (c : Collaborators V) (it : Int) (s2 : LoopState V) :
    (evaluated c it s2).1 = c.eval (normalize_window s2).window_start
        ((normalize_window s2).window_stop - (normalize_window s2).window_start + 1) := by
  simp [evaluated, eval_stage]

/-- Every way a run can go: the range check fails, the set-up fails, or the loop runs. -/
theorem run_cases {V : Type} (c : Collaborators V) (i starts stops : List Int)
    (out_indices : List (List Nat)) (params : Params) :
    (params.before_unbounded = false ∧ params.after_unbounded = false
        ∧ vec_any_gt starts stops = true
        ∧ slide_index_core_impl c i starts stops out_indices params
          = .failed .range_start_past_stop [])
    ∨ (¬ (params.before_unbounded = false ∧ params.after_unbounded = false
            ∧ vec_any_gt starts stops = true)
        ∧ ((iteration_bounds params i starts stops = none
              ∧ slide_index_core_impl c i starts stops out_indices params
                = .failed .subscript_out_of_bounds [])
          ∨ (∃ e, window_tables out_indices i.length = .error e
              ∧ slide_index_core_impl c i starts stops out_indices params = .failed e [])
          ∨ (∃ iteration_min iteration_max ws we,
              iteration_bounds params i starts stops = some (iteration_min, iteration_max)
              ∧ window_tables out_indices i.length = .ok (ws, we)
              ∧ slide_index_core_impl c i starts stops out_indices params =
                match slide_loop (iteration_body c params i starts stops out_indices ws we)
                    (iterations iteration_min iteration_max) (initial_state c params) with
                | .error e => .failed e.1 e.2
                | .ok st => .returned st.out st.trace))) := by
  by_cases hchk : params.before_unbounded = false ∧ params.after_unbounded = false
      ∧ vec_any_gt starts stops = true
  · left
    obtain ⟨h1, h2, h3⟩ := hchk
    refine ⟨h1, h2, h3, ?_⟩
    simp [slide_index_core_impl, h1, h2, h3, check_starts_not_past_stops]
  · right
    refine ⟨hchk, ?_⟩
    have hcond : (!params.before_unbounded && !params.after_unbounded
        && !check_starts_not_past_stops starts stops) = false := by
      simp only [check_starts_not_past_stops]
      cases hb : params.before_unbounded <;> cases ha : params.after_unbounded
        <;> cases hv : vec_any_gt starts stops <;> simp_all
    unfold slide_index_core_impl
    simp only [hcond]
    cases hib : iteration_bounds params i starts stops with
    | none => left; exact ⟨rfl, by simp⟩
    | some r =>
      obtain ⟨iteration_min, iteration_max⟩ := r
      right
      cases hwt : window_tables out_indices i.length with
      | error e => left; exact ⟨e, rfl, by simp⟩
      | ok t =>
        obtain ⟨ws, we⟩ := t
        right
        exact ⟨iteration_min, iteration_max, ws, we, rfl, rfl, rfl⟩

/-- What an iteration that succeeds leaves behind: the look-ups, one evaluation and the
writes of its group are appended to the trace, and the group's positions are assigned. -/
theorem iteration_body_ok_summary {V : Type} (c : Collaborators V) (params : Params)
    (i starts stops : List Int) (out_indices : List (List Nat)) (ws we : List Int)
    (it : Int) (st s3 : LoopState V)
    (h : iteration_body c params i starts stops out_indices ws we it st = .ok s3) :
    ∃ (locs : List (Event V)) (g : List Nat) (a l : Int),
      locate_events params it locs
      ∧ vec_slice_impl out_indices it = some g
      ∧ (∀ q ∈ g, 1 ≤ q ∧ q ≤ st.out.length)
      ∧ (params.constrain = true → c.vec_size (c.vctrs_cast (c.eval a l)) = 1)
      ∧ s3.trace = st.trace ++ locs ++ [Event.eval it a l (c.eval a l)]
          ++ g.map (fun q => Event.assign it q (scattered c params (c.eval a l)))
      ∧ s3.out = g.foldl (fun o q => o.set (q - 1) (scattered c params (c.eval a l))) st.out := by
  rcases iteration_body_cases c params i starts stops out_indices ws we it st with
    ⟨e1, locs, hb, _, hk⟩ | ⟨s1, s2, locs, _, _, _, ht, hl, ⟨_, hb⟩ | ⟨_, _, hb⟩
      | ⟨q, g0, _, hb⟩ | ⟨g, hg, hs, hq, hb⟩⟩
  · rw [hb] at h; cases h
  · rw [hb] at h; cases h
  · rw [hb] at h; cases h
  · rw [hb] at h; cases h
  · rw [hb] at h
    cases h
    refine ⟨locs, g, (normalize_window s2).window_start,
      (normalize_window s2).window_stop - (normalize_window s2).window_start + 1,
      hl, hg, hq, ?_, ?_, ?_⟩
    · rw [← evaluated_elt c it s2]; exact hs
    · simp only
      rw [evaluated_trace, ht, evaluated_elt]
    · simp only
      rw [evaluated_elt]

/-- What an iteration that fails leaves behind. -/
theorem iteration_body_error_summary {V : Type} (c : Collaborators V) (params : Params)
    (i starts stops : List Int) (out_indices : List (List Nat)) (ws we : List Int)
    (it : Int) (st : LoopState V) (e : SlideError × List (Event V))
    (h : iteration_body c params i starts stops out_indices ws we it st = .error e) :
    ∃ (locs : List (Event V)), locate_events params it locs
      ∧ ((e.2 = st.trace ++ locs
            ∧ (e.1 = .subscript_out_of_bounds ∨ ∃ idx, e.1 = .span_index_out_of_bounds idx))
        ∨ ∃ (a l : Int),
            (e.2 = st.trace ++ locs ++ [Event.eval it a l (c.eval a l)]
              ∧ ((vec_slice_impl out_indices it = none ∧ e.1 = .subscript_out_of_bounds)
                ∨ (params.constrain = true ∧ c.vec_size (c.vctrs_cast (c.eval a l)) ≠ 1
                    ∧ e.1 = .not_all_size_one it (c.vec_size (c.vctrs_cast (c.eval a l))))))
            ∨ (∃ (q : Nat) (g0 : List Nat), e.1 = .assign_out_of_bounds q
                ∧ (params.constrain = true → c.vec_size (c.vctrs_cast (c.eval a l)) = 1)
                ∧ e.2 = st.trace ++ locs ++ [Event.eval it a l (c.eval a l)]
                    ++ g0.map (fun q => Event.assign it q (scattered c params (c.eval a l))))) := by
  rcases iteration_body_cases c params i starts stops out_indices ws we it st with
    ⟨e1, locs, hb, hl, hk⟩ | ⟨s1, s2, locs, _, _, _, ht, hl, ⟨hg, hb⟩ | ⟨hc, hs, hb⟩
      | ⟨q, g0, hs, hb⟩ | ⟨g, hg, hs, hq, hb⟩⟩
  · rw [hb] at h; cases h
    exact ⟨locs, hl, Or.inl ⟨rfl, hk⟩⟩
  · rw [hb] at h; cases h
    refine ⟨locs, hl, Or.inr ⟨(normalize_window s2).window_start,
      (normalize_window s2).window_stop - (normalize_window s2).window_start + 1,
      Or.inl ⟨?_, Or.inl ⟨hg, rfl⟩⟩⟩⟩
    simp only
    rw [evaluated_trace, ht, evaluated_elt]
  · rw [hb] at h; cases h
    refine ⟨locs, hl, Or.inr ⟨(normalize_window s2).window_start,
      (normalize_window s2).window_stop - (normalize_window s2).window_start + 1,
      Or.inl ⟨?_, Or.inr ⟨hc, ?_, ?_⟩⟩⟩⟩
    · simp only
      rw [evaluated_trace, ht, evaluated_elt]
    · rw [← evaluated_elt c it s2]; exact hs
    · simp only
      rw [evaluated_elt]
  · rw [hb] at h; cases h
    refine ⟨locs, hl, Or.inr ⟨(normalize_window s2).window_start,
      (normalize_window s2).window_stop - (normalize_window s2).window_start + 1,
      Or.inr ⟨q, g0, rfl, ?_, ?_⟩⟩⟩
    · rw [← evaluated_elt c it s2]; exact hs
    · simp only
      rw [evaluated_trace, ht, evaluated_elt]
  · rw [hb] at h; cases h

theorem locate_events_iteration {V : Type} (params : Params) (it : Int)
    (locs : List (Event V)) (h : locate_events params it locs) (ev : Event V) (hev : ev ∈ locs) :
    ev.iteration = it := by
  rcases h ev hev with ⟨_, b, rfl⟩ | ⟨_, b, rfl⟩ <;> rfl

theorem locate_events_not_eval {V : Type} (params : Params) (it : Int)
    (locs : List (Event V)) (h : locate_events params it locs) (k a l : Int) (elt : V) :
    Event.eval k a l elt ∉ locs := by
  intro hev
  rcases h _ hev with ⟨_, b, hb⟩ | ⟨_, b, hb⟩ <;> cases hb

theorem locate_events_not_assign {V : Type} (params : Params) (it : Int)
    (locs : List (Event V)) (h : locate_events params it locs) (k : Int) (q : Nat) (elt : V) :
    Event.assign k q elt ∉ locs := by
  intro hev
  rcases h _ hev with ⟨_, b, hb⟩ | ⟨_, b, hb⟩ <;> cases hb

theorem foldlM_some_inv {α β : Type} (f : β → α → Option β) (Q : β → Prop)
    (hf : ∀ b a b1, Q b → f b a = some b1 → Q b1) :
    ∀ (l : List α) (b r : β), Q b → l.foldlM f b = some r → Q r := by
  intro l
  induction l with
  | nil => intro b r hb h; simp only [List.foldlM_nil, Option.pure_def, Option.some.injEq] at h; exact h ▸ hb
  | cons x l ih =>
    intro b r hb h
    rw [List.foldlM_cons] at h
    cases hx : f b x with
    | none => rw [hx] at h; cases h
    | some b1 =>
      rw [hx] at h
      exact ih b1 r (hf b x b1 hb hx) h

theorem adjust_iteration_min_ge (iteration_min : Int) (range i : List Int) (size : Nat)
    (r : Int) (h : adjust_iteration_min iteration_min range i size = some r) :
    iteration_min ≤ r := by
  unfold adjust_iteration_min at h
  cases h1 : vec_slice_impl i 1 with
  | none => rw [h1] at h; cases h
  | some i_first =>
    cases h2 : vec_slice_impl range 1 with
    | none => rw [h1, h2] at h; cases h
    | some range_first =>
      rw [h1, h2] at h
      simp only [Option.bind_eq_bind, Option.some_bind, Option.pure_def] at h
      split at h
      · cases h3 : (List.range size).foldlM
            (fun (adj : Int) k => (range[k]?).bind
              (fun r => some (if i_first > r then adj + 1 else adj))) (0 : Int) with
        | none => rw [h3] at h; cases h
        | some adj =>
          rw [h3] at h
          simp only [Option.some_bind, Option.some.injEq] at h
          have := foldlM_some_inv
            (fun (adj : Int) k => (range[k]?).bind
              (fun r => some (if i_first > r then adj + 1 else adj)))
            (fun adj => 0 ≤ adj)
            (by
              intro b a b1 hb hf
              cases hr : range[a]? with
              | none => simp only [hr, Option.none_bind] at hf; cases hf
              | some r =>
                simp only [hr, Option.some_bind, Option.some.injEq] at hf
                split at hf <;> omega)
            _ _ _ (le_refl _) h3
          omega
      · simp only [Option.some.injEq] at h; omega

theorem adjust_iteration_max_le (iteration_max : Int) (range i : List Int) (size : Nat)
    (r : Int) (h : adjust_iteration_max iteration_max range i size = some r) :
    r ≤ iteration_max := by
  unfold adjust_iteration_max at h
  cases h1 : vec_slice_impl i (size : Int) with
  | none => rw [h1] at h; cases h
  | some i_last =>
    cases h2 : vec_slice_impl range (size : Int) with
    | none => rw [h1, h2] at h; cases h
    | some range_last =>
      rw [h1, h2] at h
      simp only [Option.bind_eq_bind, Option.some_bind, Option.pure_def] at h
      split at h
      · cases h3 : (List.range size).foldlM
            (fun (adj : Int) k => (range[k]?).bind
              (fun r => some (if i_last < r then adj + 1 else adj))) (0 : Int) with
        | none => rw [h3] at h; cases h
        | some adj =>
          rw [h3] at h
          simp only [Option.some_bind, Option.some.injEq] at h
          have := foldlM_some_inv
            (fun (adj : Int) k => (range[k]?).bind
              (fun r => some (if i_last < r then adj + 1 else adj)))
            (fun adj => 0 ≤ adj)
            (by
              intro b a b1 hb hf
              cases hr : range[a]? with
              | none => simp only [hr, Option.none_bind] at hf; cases hf
              | some r =>
                simp only [hr, Option.some_bind, Option.some.injEq] at hf
                split at hf <;> omega)
            _ _ _ (le_refl _) h3
          omega
      · simp only [Option.some.injEq] at h; omega

theorem iteration_bounds_eq (params : Params) (i starts stops : List Int) :
    iteration_bounds params i starts stops =
      if params.complete then
        (if params.before_unbounded then some 1
          else adjust_iteration_min 1 starts i i.length).bind fun lo =>
        (if params.after_unbounded then some (i.length : Int)
          else adjust_iteration_max (i.length : Int) stops i i.length).bind fun hi =>
        some (lo, hi)
      else
        (if params.before_unbounded then some (i.length : Int)
          else adjust_iteration_max (i.length : Int) starts i i.length).bind fun hi =>
        (if params.after_unbounded then some 1
          else adjust_iteration_min 1 stops i i.length).bind fun lo =>
        some (lo, hi) := by
  unfold iteration_bounds
  cases params.complete <;> cases params.before_unbounded <;> cases params.after_unbounded <;> rfl

/-- The iteration range lies inside `1 .. size_i`. -/
theorem iteration_bounds_range (params : Params) (i starts stops : List Int)
    (iteration_min iteration_max : Int)
    (h : iteration_bounds params i starts stops = some (iteration_min, iteration_max)) :
    1 ≤ iteration_min ∧ iteration_max ≤ i.length := by
  rw [iteration_bounds_eq] at h
  split at h
  · cases h1 : (if params.before_unbounded = true then some (1 : Int)
        else adjust_iteration_min 1 starts i i.length) with
    | none => rw [h1] at h; cases h
    | some lo =>
      cases h2 : (if params.after_unbounded = true then some (i.length : Int)
          else adjust_iteration_max (i.length : Int) stops i i.length) with
      | none => rw [h1, h2] at h; cases h
      | some hi =>
        rw [h1, h2] at h
        simp only [Option.some_bind, Option.some.injEq, Prod.mk.injEq] at h
        obtain ⟨rfl, rfl⟩ := h
        constructor
        · split at h1
          · cases h1; exact le_refl _
          · exact adjust_iteration_min_ge _ _ _ _ _ h1
        · split at h2
          · cases h2; exact le_refl _
          · exact adjust_iteration_max_le _ _ _ _ _ h2
  · cases h2 : (if params.before_unbounded = true then some (i.length : Int)
        else adjust_iteration_max (i.length : Int) starts i i.length) with
    | none => rw [h2] at h; cases h
    | some hi =>
      cases h1 : (if params.after_unbounded = true then some (1 : Int)
          else adjust_iteration_min 1 stops i i.length) with
      | none => rw [h2, h1] at h; cases h
      | some lo =>
        rw [h2, h1] at h
        simp only [Option.some_bind, Option.some.injEq, Prod.mk.injEq] at h
        obtain ⟨rfl, rfl⟩ := h
        constructor
        · split at h1
          · cases h1; exact le_refl _
          · exact adjust_iteration_min_ge _ _ _ _ _ h1
        · split at h2
          · cases h2; exact le_refl _
          · exact adjust_iteration_max_le _ _ _ _ _ h2

theorem vec_slice_impl_some {α : Type} (x : List α) (pos : Int) (h1 : 1 ≤ pos)
    (h2 : pos ≤ x.length) : ∃ g, vec_slice_impl x pos = some g := by
  unfold vec_slice_impl
  rw [if_pos h1]
  have h : (pos - 1).toNat < x.length := by omega
  exact ⟨x[(pos - 1).toNat], List.getElem?_eq_getElem h⟩

theorem vec_slice_impl_eq {α : Type} (x : List α) (pos : Int) (g : α)
    (h : vec_slice_impl x pos = some g) :
    1 ≤ pos ∧ pos ≤ x.length ∧ x[(pos - 1).toNat]? = some g := by
  unfold vec_slice_impl at h
  split at h
  · next h1 =>
    refine ⟨h1, ?_, h⟩
    have := (List.getElem?_eq_some_iff.1 h).1
    omega
  · cases h

theorem vec_any_gt_iff (starts stops : List Int) :
    vec_any_gt starts stops = true
      ↔ ∃ (k : Nat) (a b : Int), starts[k]? = some a ∧ stops[k]? = some b ∧ a > b := by
  unfold vec_any_gt
  rw [List.any_eq_true]
  constructor
  · rintro ⟨⟨a, b⟩, hm, hgt⟩
    obtain ⟨k, hk⟩ := List.mem_iff_getElem?.1 hm
    rw [List.getElem?_zip_eq_some] at hk
    exact ⟨k, a, b, hk.1, hk.2, by simpa using hgt⟩
  · rintro ⟨k, a, b, h1, h2, h3⟩
    refine ⟨(a, b), ?_, by simpa using h3⟩
    exact List.mem_iff_getElem?.2 ⟨k, by rw [List.getElem?_zip_eq_some]; exact ⟨h1, h2⟩⟩

theorem window_tables_error (out_indices : List (List Nat)) (n : Nat) (e : SlideError)
    (h : window_tables out_indices n = .error e) :
    e = .subscript_out_of_bounds ∨ ∃ idx, e = .span_index_out_of_bounds idx := by
  unfold window_tables at h
  split at h
  · cases h; exact Or.inl rfl
  · split at h
    · cases h; exact Or.inr ⟨_, rfl⟩
    · split at h
      · cases h; exact Or.inr ⟨_, rfl⟩
      · cases h

/-- The failures of the loop body are the out-of-bounds accesses and the cardinality
mismatch. -/
theorem iteration_body_error_kind {V : Type} (c : Collaborators V) (params : Params)
    (i starts stops : List Int) (out_indices : List (List Nat)) (ws we : List Int)
    (it : Int) (st : LoopState V) (e : SlideError × List (Event V))
    (h : iteration_body c params i starts stops out_indices ws we it st = .error e) :
    e.1 ≠ .range_start_past_stop := by
  rcases iteration_body_cases c params i starts stops out_indices ws we it st with
    ⟨e1, locs, hb, _, hk⟩ | ⟨s1, s2, locs, _, _, _, _, _, ⟨_, hb⟩ | ⟨_, _, hb⟩ | ⟨q, g0, _, hb⟩
      | ⟨g, _, _, _, hb⟩⟩
  · rw [hb] at h; cases h
    rcases hk with rfl | ⟨idx, rfl⟩ <;> simp
  · rw [hb] at h; cases h; simp
  · rw [hb] at h; cases h; simp
  · rw [hb] at h; cases h; simp
  · rw [hb] at h; cases h

theorem slide_loop_error_kind {V : Type} (c : Collaborators V) (params : Params)
    (i starts stops : List Int) (out_indices : List (List Nat)) (ws we : List Int)
    (iteration_min iteration_max : Int) (st : LoopState V) (e : SlideError × List (Event V))
    (h : slide_loop (iteration_body c params i starts stops out_indices ws we)
      (iterations iteration_min iteration_max) st = .error e) :
    e.1 ≠ .range_start_past_stop :=
  (slide_loop_iterations _ (fun _ _ => True) (fun e => e.1 ≠ .range_start_past_stop)
    iteration_min iteration_max st trivial
    (fun it s _ _ _ => ⟨fun _ _ => trivial,
      fun e he => iteration_body_error_kind c params i starts stops out_indices ws we it s e he⟩)).2
    e h

/-- The range-ordering error comes from the check that precedes the loop, and from nowhere
else. -/
theorem range_error_from_check {V : Type} (c : Collaborators V) (i starts stops : List Int)
    (out_indices : List (List Nat)) (params : Params) (tr : List (Event V))
    (h : slide_index_core_impl c i starts stops out_indices params
      = .failed .range_start_past_stop tr) :
    params.before_unbounded = false ∧ params.after_unbounded = false
      ∧ vec_any_gt starts stops = true ∧ tr = [] := by
  rcases run_cases c i starts stops out_indices params with
    ⟨h1, h2, h3, h4⟩ | ⟨_, ⟨_, h4⟩ | ⟨e, he, h4⟩ | ⟨lo, hi, ws, we, _, _, h4⟩⟩
  · rw [h4] at h; cases h; exact ⟨h1, h2, h3, rfl⟩
  · rw [h4] at h; cases h
  · rw [h4] at h; cases h
    rcases window_tables_error _ _ _ he with h5 | ⟨idx, h5⟩ <;> cases h5
  · rw [h4] at h
    cases hl : slide_loop (iteration_body c params i starts stops out_indices ws we)
        (iterations lo hi) (initial_state c params) with
    | error e =>
      rw [hl] at h
      simp only [Outcome.failed.injEq] at h
      exact absurd h.1 (slide_loop_error_kind c params i starts stops out_indices ws we
        lo hi _ e hl)
    | ok s => rw [hl] at h; cases h

/-- C6. The run fails with the range-ordering error exactly when neither side is unbounded
and some `starts[k]` is past `stops[k]`; it then fails before anything else is done: its
trace is empty, so the evaluator has not been invoked and no output position has been
written. With an unbounded side the error never occurs. -/
theorem range_ordering_error {V : Type} (c : Collaborators V) (i starts stops : List Int)
    (out_indices : List (List Nat)) (params : Params) :
    ((∃ tr, slide_index_core_impl c i starts stops out_indices params
          = .failed .range_start_past_stop tr)
      ↔ (params.before_unbounded = false ∧ params.after_unbounded = false
          ∧ ∃ (k : Nat) (a b : Int), starts[k]? = some a ∧ stops[k]? = some b ∧ a > b))
    ∧ (∀ tr, slide_index_core_impl c i starts stops out_indices params
          = .failed .range_start_past_stop tr → tr = []) := by
  have key := range_error_from_check c i starts stops out_indices params
  refine ⟨⟨?_, ?_⟩, fun tr h => (key tr h).2.2.2⟩
  · rintro ⟨tr, h⟩
    obtain ⟨h1, h2, h3, _⟩ := key tr h
    exact ⟨h1, h2, (vec_any_gt_iff _ _).1 h3⟩
  · rintro ⟨h1, h2, h3⟩
    rcases run_cases c i starts stops out_indices params with
      ⟨_, _, _, h4⟩ | ⟨hn, _⟩
    · exact ⟨[], h4⟩
    · exact absurd ⟨h1, h2, (vec_any_gt_iff _ _).2 h3⟩ hn

/-! ### The span table -/

theorem foldlM_some_guard {α β : Type} (f : β → α → Option β) (P : α → Prop)
    (hf : ∀ b a, ¬ P a → f b a = none) :
    ∀ (l : List α) (b r : β), l.foldlM f b = some r → ∀ a ∈ l, P a := by
  intro l
  induction l with
  | nil => intro b r _ a ha; cases ha
  | cons x l ih =>
    intro b r h a ha
    rw [List.foldlM_cons] at h
    cases hx : f b x with
    | none => rw [hx] at h; cases h
    | some b1 =>
      rw [hx] at h
      rcases List.mem_cons.1 ha with rfl | ha
      · by_contra hP
        rw [hf b a hP] at hx
        cases hx
      · exact ih b1 r h a ha

theorem array_set_append (pre rest : List Int) (old v : Int) :
    array_set (pre ++ old :: rest) pre.length v = some (pre ++ v :: rest) := by
  unfold array_set
  rw [if_pos (by simp)]
  simp

/-- The sizes of the first `n` groups, as `compute_window_sizes` stores them. -/
theorem compute_window_sizes_rounds (x : List (List Nat)) :
    ∀ (m : Nat) (a : List Int), m ≤ x.length → m ≤ a.length →
      (List.range m).foldlM
        (fun ws k => do
          let elt ← x[k]?
          array_set ws k (elt.length : Int)) a
      = some ((x.take m).map (fun g => (g.length : Int)) ++ a.drop m) := by
  intro m
  induction m with
  | zero => intro a _ _; simp
  | succ m ih =>
    intro a hx ha
    rw [List.range_succ, List.foldlM_append, ih a (by omega) (by omega)]
    have hxm : m < x.length := by omega
    have ham : m < a.length := by omega
    have hlen : ((x.take m).map (fun g => (g.length : Int))).length = m := by
      simp; omega
    simp only [Option.bind_eq_bind, Option.some_bind, List.foldlM_cons, List.foldlM_nil,
      List.getElem?_eq_getElem hxm, Option.pure_def, Option.bind_some]
    rw [List.drop_eq_getElem_cons ham]
    have := array_set_append ((x.take m).map (fun g => (g.length : Int))) (a.drop (m + 1))
      a[m] ((x[m]).length : Int)
    rw [hlen] at this
    rw [this]
    have e : List.take (m + 1) x = List.take m x ++ [x[m]] := by
      rw [List.take_succ, List.getElem?_eq_getElem hxm]; rfl
    rw [e, List.map_append, List.append_assoc]
    rfl

theorem compute_window_sizes_eq (x : List (List Nat)) (n : Nat) (hx : n ≤ x.length) :
    compute_window_sizes (List.replicate n 0) x n
      = some ((x.take n).map (fun g => (g.length : Int))) := by
  unfold compute_window_sizes
  rw [compute_window_sizes_rounds x n _ hx (by simp)]
  simp

theorem compute_window_sizes_some (x : List (List Nat)) (n : Nat) (a r : List Int)
    (h : compute_window_sizes a x n = some r) : n ≤ x.length := by
  unfold compute_window_sizes at h
  have := foldlM_some_guard
    (fun ws k => do
      let elt ← x[k]?
      array_set ws k (elt.length : Int))
    (fun k => k < x.length)
    (by
      intro b k hk
      have : x[k]? = none := List.getElem?_eq_none (by omega)
      simp [this])
    _ _ _ h
  by_contra hn
  have := this (n - 1) (List.mem_range.2 (by omega))
  omega


/-- The array `window_starts` after the first `m` rounds of the loop of
`compute_window_starts`. -/
theorem compute_window_starts_rounds (sizes : List Int) (n : Nat) :
    ∀ (m : Nat), m + 1 ≤ n → n ≤ sizes.length →
      (List.range' 1 m).foldlM
        (fun (acc : Int × List Int) k => do
          let s ← sizes[k - 1]?
          let sum := acc.1 + s
          let ws ← array_set acc.2 k sum
          pure (sum, ws))
        ((0 : Int), List.replicate n (0 : Int))
      = some ((sizes.take m).sum,
          (List.range (m + 1)).map (fun k => (sizes.take k).sum)
            ++ List.replicate (n - 1 - m) 0) := by
  intro m
  induction m with
  | zero =>
    intro hn _
    have : n = (n - 1 - 0) + 1 := by omega
    simp only [List.range'_zero, List.foldlM_nil, List.take_zero, List.sum_nil, Option.pure_def,
      Option.some.injEq, Prod.mk.injEq, true_and]
    conv_lhs => rw [this, List.replicate_succ]
    simp [List.range_succ]
  | succ m ih =>
    intro hn hs
    rw [List.range'_1_concat, List.foldlM_append, ih (by omega) hs]
    have hsm : m < sizes.length := by omega
    have hlen : ((List.range (m + 1)).map (fun k => (sizes.take k).sum)).length = 1 + m := by
      simp; omega
    have hrep : List.replicate (n - 1 - m) (0 : Int)
        = 0 :: List.replicate (n - 1 - (m + 1)) 0 := by
      have : n - 1 - m = (n - 1 - (m + 1)) + 1 := by omega
      rw [this, List.replicate_succ]
    have hset := array_set_append ((List.range (m + 1)).map (fun k => (sizes.take k).sum))
      (List.replicate (n - 1 - (m + 1)) 0) 0 ((sizes.take m).sum + sizes[m])
    rw [hlen] at hset
    have hidx : 1 + m - 1 = m := by omega
    simp only [Option.bind_eq_bind, Option.some_bind, List.foldlM_cons, List.foldlM_nil, hidx,
      List.getElem?_eq_getElem hsm, Option.pure_def, Option.bind_some, hrep, hset,
      Option.some.injEq, Prod.mk.injEq]
    have hsum : (sizes.take (m + 1)).sum = (sizes.take m).sum + sizes[m] :=
      List.sum_take_succ sizes m hsm
    refine ⟨hsum.symm, ?_⟩
    rw [List.range_succ (n := m + 1), List.map_append, List.append_assoc, ← hsum]
    rfl

theorem compute_window_starts_eq (sizes : List Int) (n : Nat) (hn : 1 ≤ n)
    (hs : n ≤ sizes.length) :
    compute_window_starts (List.replicate n 0) sizes n
      = some ((List.range n).map (fun k => (sizes.take k).sum)) := by
  unfold compute_window_starts
  have h0 : array_set (List.replicate n (0 : Int)) 0 0 = some (List.replicate n 0) := by
    unfold array_set
    rw [if_pos (by simp; omega)]
    have : n = (n - 1) + 1 := by omega
    rw [this, List.replicate_succ]
    simp
  rw [h0]
  have hp := compute_window_starts_rounds sizes n (n - 1) (by omega) hs
  have h1 : n - 1 + 1 = n := by omega
  have h2 : n - 1 - (n - 1) = 0 := by omega
  rw [h1, h2] at hp
  simp only [Option.bind_eq_bind, Option.some_bind, Option.pure_def] at hp ⊢
  rw [hp]
  simp

/-- The array `window_stops` after the first `m` rounds of the loop of
`compute_window_stops`. -/
theorem compute_window_stops_rounds (sizes starts : List Int) :
    ∀ (m : Nat) (a : List Int), m ≤ sizes.length → m ≤ starts.length → m ≤ a.length →
      (List.range m).foldlM
        (fun ws k => do
          let a ← starts[k]?
          let s ← sizes[k]?
          array_set ws k (a + s - 1)) a
      = some ((List.range m).map (fun k => starts.getD k 0 + sizes.getD k 0 - 1)
          ++ a.drop m) := by
  intro m
  induction m with
  | zero => intro a _ _ _; simp
  | succ m ih =>
    intro a h1 h2 h3
    rw [List.range_succ, List.foldlM_append, ih a (by omega) (by omega) (by omega)]
    have hs : m < sizes.length := by omega
    have ht : m < starts.length := by omega
    have ha : m < a.length := by omega
    have hlen : ((List.range m).map
        (fun k => starts.getD k 0 + sizes.getD k 0 - 1)).length = m := by simp
    have hset := array_set_append
      ((List.range m).map (fun k => starts.getD k 0 + sizes.getD k 0 - 1))
      (a.drop (m + 1)) a[m] (starts[m] + sizes[m] - 1)
    rw [hlen] at hset
    simp only [Option.bind_eq_bind, Option.some_bind, List.foldlM_cons, List.foldlM_nil,
      List.getElem?_eq_getElem hs, List.getElem?_eq_getElem ht, Option.pure_def,
      Option.bind_some]
    rw [List.drop_eq_getElem_cons ha, hset]
    simp only [Option.some.injEq]
    rw [List.map_append, List.append_assoc]
    simp [List.getElem?_eq_getElem hs, List.getElem?_eq_getElem ht]

theorem compute_window_stops_eq (sizes starts : List Int) (n : Nat) (hs : n ≤ sizes.length)
    (ht : n ≤ starts.length) :
    compute_window_stops (List.replicate n 0) sizes starts n
      = some ((List.range n).map (fun k => starts.getD k 0 + sizes.getD k 0 - 1)) := by
  unfold compute_window_stops
  rw [compute_window_stops_rounds sizes starts n _ hs ht (by simp)]
  simp

theorem sizes_take_sum (x : List (List Nat)) (n k : Nat) (hk : k ≤ n) :
    (((x.take n).map (fun g => (g.length : Int))).take k).sum = span_start x k := by
  unfold span_start
  rw [← List.map_take, List.take_take, min_eq_left hk, Nat.cast_list_sum, List.map_map]
  rfl

theorem span_start_succ (x : List (List Nat)) (k : Nat) (hk : k < x.length) :
    span_start x (k + 1) = span_start x k + ((x[k]).length : Int) := by
  unfold span_start
  have h := List.sum_take_succ (x.map List.length) k (by simpa using hk)
  rw [← List.map_take, ← List.map_take] at h
  rw [h]
  simp

/-- The span table of at least one group: group `k` spans the positions
`span_start k .. span_start (k + 1) - 1`. -/
theorem window_tables_eq (out_indices : List (List Nat)) (n : Nat) (hn : 1 ≤ n)
    (hx : n ≤ out_indices.length) :
    ∃ ws we, window_tables out_indices n = .ok (ws, we)
      ∧ ws.length = n ∧ we.length = n
      ∧ (∀ k, k < n → ws[k]? = some (span_start out_indices k))
      ∧ (∀ k, k < n → we[k]? = some (span_start out_indices (k + 1) - 1)) := by
  have hsz := compute_window_sizes_eq out_indices n hx
  have hlen : ((out_indices.take n).map (fun g => (g.length : Int))).length = n := by
    simp; omega
  have hst := compute_window_starts_eq ((out_indices.take n).map (fun g => (g.length : Int)))
    n hn (by omega)
  have hsp := compute_window_stops_eq ((out_indices.take n).map (fun g => (g.length : Int)))
    ((List.range n).map
      (fun k => (((out_indices.take n).map (fun g => (g.length : Int))).take k).sum))
    n (by omega) (by simp)
  refine ⟨_, _, by unfold window_tables; rw [hsz]; simp only; rw [hst]; simp only; rw [hsp],
    by simp, by simp, ?_, ?_⟩
  · intro k hk
    rw [List.getElem?_map, List.getElem?_range hk]
    simp only [Option.map_some', Option.some.injEq]
    exact sizes_take_sum out_indices n k (by omega)
  · intro k hk
    rw [List.getElem?_map, List.getElem?_range hk]
    simp only [Option.map_some', Option.some.injEq]
    have h1 : ((List.range n).map
        (fun k => (((out_indices.take n).map (fun g => (g.length : Int))).take k).sum)).getD k 0
        = span_start out_indices k := by
      rw [List.getD_eq_getElem?_getD, List.getElem?_map, List.getElem?_range hk]
      simp only [Option.map_some', Option.getD_some]
      exact sizes_take_sum out_indices n k (by omega)
    have h2 : ((out_indices.take n).map (fun g => (g.length : Int))).getD k 0
        = ((out_indices[k]).length : Int) := by
      rw [List.getD_eq_getElem?_getD, List.getElem?_map, List.getElem?_take_of_lt hk,
        List.getElem?_eq_getElem (by omega)]
      rfl
    rw [h1, h2, span_start_succ out_indices k (by omega)]

theorem window_tables_ok_length (x : List (List Nat)) (n : Nat) (t : List Int × List Int)
    (h : window_tables x n = .ok t) : n ≤ x.length := by
  unfold window_tables at h
  split at h
  · cases h
  · next sizes hs => exact compute_window_sizes_some _ _ _ _ hs

/-! ### The cardinality check of the constrained scatter -/

/-- The loop under the constrained policy: it fails with the cardinality mismatch at the
first evaluation of a value that is not of one row. -/
theorem slide_loop_constrained {V : Type} (c : Collaborators V) (params : Params)
    (i starts stops : List Int) (out_indices : List (List Nat)) (ws we : List Int)
    (iteration_min iteration_max : Int) (hc : params.constrain = true)
    (hlo : 1 ≤ iteration_min) (hhi : iteration_max ≤ out_indices.length) :
    (∀ s1, slide_loop (iteration_body c params i starts stops out_indices ws we)
        (iterations iteration_min iteration_max) (initial_state c params) = .ok s1 →
      ∀ (k a l : Int) (elt : V), Event.eval k a l elt ∈ s1.trace →
        c.vec_size (c.vctrs_cast elt) = 1)
    ∧ (∀ e, slide_loop (iteration_body c params i starts stops out_indices ws we)
        (iterations iteration_min iteration_max) (initial_state c params) = .error e →
      (∀ k n, e.1 = .not_all_size_one k n →
        ∃ (tr0 : List (Event V)) (a l : Int) (elt : V),
          e.2 = tr0 ++ [Event.eval k a l elt] ∧ n = c.vec_size (c.vctrs_cast elt) ∧ n ≠ 1
          ∧ (∀ ev ∈ tr0, ev.iteration ≤ k)
          ∧ (∀ (k1 : Int) (q : Nat) (v : V), Event.assign k1 q v ∈ tr0 → k1 < k)
          ∧ (∀ (k1 a1 l1 : Int) (elt1 : V), Event.eval k1 a1 l1 elt1 ∈ tr0 →
              k1 < k ∧ c.vec_size (c.vctrs_cast elt1) = 1))
      ∧ ((∀ k n, e.1 ≠ .not_all_size_one k n) →
          ∀ (k a l : Int) (elt : V), Event.eval k a l elt ∈ e.2 →
            c.vec_size (c.vctrs_cast elt) = 1)) := by
  have := slide_loop_iterations (iteration_body c params i starts stops out_indices ws we)
    (fun it st => (∀ ev ∈ st.trace, ev.iteration < it)
      ∧ (∀ (k a l : Int) (elt : V), Event.eval k a l elt ∈ st.trace →
          c.vec_size (c.vctrs_cast elt) = 1))
    (fun e => (∀ k n, e.1 = .not_all_size_one k n →
        ∃ (tr0 : List (Event V)) (a l : Int) (elt : V),
          e.2 = tr0 ++ [Event.eval k a l elt] ∧ n = c.vec_size (c.vctrs_cast elt) ∧ n ≠ 1
          ∧ (∀ ev ∈ tr0, ev.iteration ≤ k)
          ∧ (∀ (k1 : Int) (q : Nat) (v : V), Event.assign k1 q v ∈ tr0 → k1 < k)
          ∧ (∀ (k1 a1 l1 : Int) (elt1 : V), Event.eval k1 a1 l1 elt1 ∈ tr0 →
              k1 < k ∧ c.vec_size (c.vctrs_cast elt1) = 1))
      ∧ ((∀ k n, e.1 ≠ .not_all_size_one k n) →
          ∀ (k a l : Int) (elt : V), Event.eval k a l elt ∈ e.2 →
            c.vec_size (c.vctrs_cast elt) = 1))
    iteration_min iteration_max (initial_state c params)
    ⟨(by intro ev hev; cases hev), (by intro k a l elt hev; cases hev)⟩
    (by
      intro it st h1 h2 ⟨hit, hsz⟩
      constructor
      · intro s1 hb
        obtain ⟨locs, g, a, l, hl, hg, hq, hs, ht, ho⟩ :=
          iteration_body_ok_summary c params i starts stops out_indices ws we it st s1 hb
        rw [ht]
        constructor
        · intro ev hev
          simp only [List.mem_append, List.mem_singleton, List.mem_map] at hev
          rcases hev with ((hev | hev) | rfl) | ⟨q, _, rfl⟩
          · have := hit ev hev; omega
          · rw [locate_events_iteration params it locs hl ev hev]; omega
          · simp [Event.iteration]
          · simp [Event.iteration]
        · intro k a1 l1 elt hev
          simp only [List.mem_append, List.mem_singleton, List.mem_map] at hev
          rcases hev with ((hev | hev) | hev) | ⟨q, _, hev⟩
          · exact hsz k a1 l1 elt hev
          · exact absurd hev (locate_events_not_eval params it locs hl k a1 l1 elt)
          · cases hev; exact hs hc
          · cases hev
      · intro e hb
        obtain ⟨locs, hl, h⟩ :=
          iteration_body_error_summary c params i starts stops out_indices ws we it st e hb
        have hpre : ∀ (k1 a1 l1 : Int) (elt1 : V),
            Event.eval k1 a1 l1 elt1 ∈ st.trace ++ locs →
            k1 < it ∧ c.vec_size (c.vctrs_cast elt1) = 1 := by
          intro k1 a1 l1 elt1 hev
          rcases List.mem_append.1 hev with hev | hev
          · exact ⟨by simpa [Event.iteration] using hit _ hev, hsz _ _ _ _ hev⟩
          · exact absurd hev (locate_events_not_eval params it locs hl k1 a1 l1 elt1)
        rcases h with ⟨ht, hk⟩ | ⟨a, l, ⟨ht, ⟨hg, hk⟩ | ⟨_, hs, hk⟩⟩ | ⟨q, g0, hk, hs, ht⟩⟩
        · constructor
          · intro k n hkn
            rcases hk with hk | ⟨idx, hk⟩ <;> rw [hk] at hkn <;> cases hkn
          · intro _ k a l elt hev
            rw [ht] at hev
            exact (hpre k a l elt hev).2
        · obtain ⟨g, hg1⟩ := vec_slice_impl_some out_indices it (by omega) (by omega)
          rw [hg1] at hg; cases hg
        · constructor
          · intro k n hkn
            rw [hk] at hkn
            cases hkn
            refine ⟨st.trace ++ locs, a, l, c.eval a l, ht, rfl, hs, ?_, ?_, hpre⟩
            · intro ev hev
              rcases List.mem_append.1 hev with hev | hev
              · have := hit ev hev; omega
              · rw [locate_events_iteration params it locs hl ev hev]
            · intro k1 q v hev
              rcases List.mem_append.1 hev with hev | hev
              · simpa [Event.iteration] using hit _ hev
              · exact absurd hev (locate_events_not_assign params it locs hl k1 q v)
          · intro hne
            exact absurd hk (hne _ _)
        · constructor
          · intro k n hkn
            rw [hk] at hkn; cases hkn
          · intro _ k a1 l1 elt hev
            rw [ht] at hev
            simp only [List.mem_append, List.mem_singleton, List.mem_map] at hev
            rcases hev with ((hev | hev) | hev) | ⟨q1, _, hev⟩
            · exact hsz k a1 l1 elt hev
            · exact absurd hev (locate_events_not_eval params it locs hl k a1 l1 elt)
            · cases hev; exact hs hc
            · cases hev)
  exact ⟨fun s1 h => (this.1 s1 h).2, this.2⟩

/-- The loop under the unconstrained policy never fails with the cardinality mismatch. -/
theorem slide_loop_unconstrained {V : Type} (c : Collaborators V) (params : Params)
    (i starts stops : List Int) (out_indices : List (List Nat)) (ws we : List Int)
    (iteration_min iteration_max : Int) (st : LoopState V) (hc : params.constrain = false)
    (e : SlideError × List (Event V))
    (h : slide_loop (iteration_body c params i starts stops out_indices ws we)
        (iterations iteration_min iteration_max) st = .error e) :
    ∀ k n, e.1 ≠ .not_all_size_one k n := by
  refine (slide_loop_iterations (iteration_body c params i starts stops out_indices ws we)
    (fun _ _ => True) (fun e => ∀ k n, e.1 ≠ .not_all_size_one k n)
    iteration_min iteration_max st trivial ?_).2 e h
  intro it s _ _ _
  refine ⟨fun _ _ => trivial, ?_⟩
  intro e hb k n hkn
  obtain ⟨locs, hl, h⟩ :=
    iteration_body_error_summary c params i starts stops out_indices ws we it s e hb
  rcases h with ⟨ht, hk⟩ | ⟨a, l, ⟨ht, ⟨hg, hk⟩ | ⟨hc1, hs, hk⟩⟩ | ⟨q, g0, hk, hs, ht⟩⟩
  · rcases hk with hk | ⟨idx, hk⟩ <;> rw [hk] at hkn <;> cases hkn
  · rw [hk] at hkn; cases hkn
  · rw [hc] at hc1; cases hc1
  · rw [hk] at hkn; cases hkn

/-- C7. Under the constrained policy the run fails with the cardinality mismatch exactly
when an evaluation of the run computes a value whose row count is not 1; the error then
reports the iteration `k` and the row count `n` of the last event of the trace, which is
that evaluation: nothing is written for `k`, every evaluation before it is of an earlier
iteration and computed a one-row value (so `k` is the smallest such iteration), and
nothing of a later iteration has happened. Under the unconstrained policy the run never
fails this way, and the scatter of a group whose positions lie in the output succeeds
whatever the row count. The coercion `vctrs_cast` is taken to keep the row count. -/
theorem cardinality_mismatch {V : Type} (c : Collaborators V) (i starts stops : List Int)
    (out_indices : List (List Nat)) (params : Params)
    (hcast : ∀ v, c.vec_size (c.vctrs_cast v) = c.vec_size v) :
    (params.constrain = true →
      ((∃ k n tr, slide_index_core_impl c i starts stops out_indices params
            = .failed (.not_all_size_one k n) tr)
        ↔ ∃ (k a l : Int) (elt : V),
            Event.eval k a l elt
              ∈ (slide_index_core_impl c i starts stops out_indices params).trace
            ∧ c.vec_size elt ≠ 1)
      ∧ (∀ k n tr, slide_index_core_impl c i starts stops out_indices params
            = .failed (.not_all_size_one k n) tr →
          ∃ (tr0 : List (Event V)) (a l : Int) (elt : V),
            tr = tr0 ++ [Event.eval k a l elt] ∧ n = c.vec_size elt ∧ n ≠ 1
            ∧ (∀ ev ∈ tr0, ev.iteration ≤ k)
            ∧ (∀ (k1 : Int) (q : Nat) (v : V), Event.assign k1 q v ∈ tr0 → k1 < k)
            ∧ (∀ (k1 a1 l1 : Int) (elt1 : V), Event.eval k1 a1 l1 elt1 ∈ tr0 →
                k1 < k ∧ c.vec_size elt1 = 1)))
    ∧ (params.constrain = false →
      (∀ k n tr, slide_index_core_impl c i starts stops out_indices params
          ≠ .failed (.not_all_size_one k n) tr)
      ∧ (∀ (it : Int) (elt : V) (st : LoopState V) (g : List Nat),
          vec_slice_impl out_indices it = some g → (∀ q ∈ g, 1 ≤ q ∧ q ≤ st.out.length) →
          ∃ s1, scatter_stage c params out_indices it elt st = .ok s1)) := by
  constructor
  · intro hc
    have detail : ∀ k n tr, slide_index_core_impl c i starts stops out_indices params
          = .failed (.not_all_size_one k n) tr →
        ∃ (tr0 : List (Event V)) (a l : Int) (elt : V),
          tr = tr0 ++ [Event.eval k a l elt] ∧ n = c.vec_size elt ∧ n ≠ 1
          ∧ (∀ ev ∈ tr0, ev.iteration ≤ k)
          ∧ (∀ (k1 : Int) (q : Nat) (v : V), Event.assign k1 q v ∈ tr0 → k1 < k)
          ∧ (∀ (k1 a1 l1 : Int) (elt1 : V), Event.eval k1 a1 l1 elt1 ∈ tr0 →
              k1 < k ∧ c.vec_size elt1 = 1) := by
      intro k n tr h
      rcases run_cases c i starts stops out_indices params with
        ⟨_, _, _, h4⟩ | ⟨_, ⟨_, h4⟩ | ⟨e, he, h4⟩ | ⟨lo, hi, ws, we, hib, hwt, h4⟩⟩
      · rw [h4] at h; cases h
      · rw [h4] at h; cases h
      · rw [h4] at h; cases h
        rcases window_tables_error _ _ _ he with h5 | ⟨idx, h5⟩ <;> cases h5
      · have hr := iteration_bounds_range params i starts stops lo hi hib
        have hx := window_tables_ok_length _ _ _ hwt
        have hloop := slide_loop_constrained c params i starts stops out_indices ws we lo hi hc
          hr.1 (by omega)
        rw [h4] at h
        cases hl : slide_loop (iteration_body c params i starts stops out_indices ws we)
            (iterations lo hi) (initial_state c params) with
        | ok s => rw [hl] at h; cases h
        | error e =>
          rw [hl] at h
          simp only [Outcome.failed.injEq] at h
          obtain ⟨tr0, a, l, elt, e1, e2, e3, e4, e5, e6⟩ := (hloop.2 e hl).1 k n h.1
          refine ⟨tr0, a, l, elt, by rw [← h.2, e1], by rw [e2, hcast], e3, e4, e5, ?_⟩
          intro k1 a1 l1 elt1 hev
          have := e6 k1 a1 l1 elt1 hev
          rw [hcast] at this
          exact this
    refine ⟨⟨?_, ?_⟩, detail⟩
    · rintro ⟨k, n, tr, h⟩
      obtain ⟨tr0, a, l, elt, e1, e2, e3, _⟩ := detail k n tr h
      refine ⟨k, a, l, elt, ?_, by rw [← e2]; exact e3⟩
      rw [h, Outcome.trace, e1]
      simp
    · rintro ⟨k, a, l, elt, hev, hne⟩
      rcases run_cases c i starts stops out_indices params with
        ⟨_, _, _, h4⟩ | ⟨_, ⟨_, h4⟩ | ⟨e, he, h4⟩ | ⟨lo, hi, ws, we, hib, hwt, h4⟩⟩
      · rw [h4] at hev; cases hev
      · rw [h4] at hev; cases hev
      · rw [h4] at hev; cases hev
      · have hr := iteration_bounds_range params i starts stops lo hi hib
        have hx := window_tables_ok_length _ _ _ hwt
        have hloop := slide_loop_constrained c params i starts stops out_indices ws we lo hi hc
          hr.1 (by omega)
        rw [h4] at hev ⊢
        cases hl : slide_loop (iteration_body c params i starts stops out_indices ws we)
            (iterations lo hi) (initial_state c params) with
        | ok s =>
          rw [hl] at hev
          have := hloop.1 s hl k a l elt hev
          rw [hcast] at this
          exact absurd this hne
        | error e =>
          rw [hl] at hev
          simp only
          by_cases hkind : ∃ k n, e.1 = .not_all_size_one k n
          · obtain ⟨k1, n1, hk1⟩ := hkind
            exact ⟨k1, n1, e.2, by rw [hk1]⟩
          · have := (hloop.2 e hl).2 (fun k n hkn => hkind ⟨k, n, hkn⟩) k a l elt hev
            rw [hcast] at this
            exact absurd this hne
  · intro hc
    constructor
    · intro k n tr h
      rcases run_cases c i starts stops out_indices params with
        ⟨_, _, _, h4⟩ | ⟨_, ⟨_, h4⟩ | ⟨e, he, h4⟩ | ⟨lo, hi, ws, we, hib, hwt, h4⟩⟩
      · rw [h4] at h; cases h
      · rw [h4] at h; cases h
      · rw [h4] at h; cases h
        rcases window_tables_error _ _ _ he with h5 | ⟨idx, h5⟩ <;> cases h5
      · rw [h4] at h
        cases hl : slide_loop (iteration_body c params i starts stops out_indices ws we)
            (iterations lo hi) (initial_state c params) with
        | ok s => rw [hl] at h; cases h
        | error e =>
          rw [hl] at h
          simp only [Outcome.failed.injEq] at h
          exact slide_loop_unconstrained c params i starts stops out_indices ws we lo hi _ hc
            e hl k n h.1
    · intro it elt st g hg hq
      unfold scatter_stage
      rw [hg]
      simp only [hc]
      exact assign_loop_total it elt g st hq

/-- C7 on an expanding window under the constrained policy, with an evaluator that returns
as many rows as the slice has: iteration 2 is the first to compute a value that is not of
one row, and the run stops there. -/
theorem cardinality_mismatch_witness :
    slide_index_core_impl example_collaborators [1, 2, 3] [1, 1, 1] [1, 2, 3]
        [[1], [2], [3]]
        { complete := false, before_unbounded := false, after_unbounded := false,
          constrain := true, size := 3 }
      = .failed (.not_all_size_one 2 2)
          [Event.locate_start 1 1, Event.locate_stop 1 1, Event.eval 1 0 1 [0],
            Event.assign 1 1 [0], Event.locate_start 2 1, Event.locate_stop 2 2,
            Event.eval 2 0 2 [0, 1]]
    ∧ ((∃ k n tr, slide_index_core_impl example_collaborators [1, 2, 3] [1, 1, 1] [1, 2, 3]
            [[1], [2], [3]]
            { complete := false, before_unbounded := false, after_unbounded := false,
              constrain := true, size := 3 }
          = .failed (.not_all_size_one k n) tr)
        ↔ ∃ (k a l : Int) (elt : List Int),
            Event.eval k a l elt
              ∈ (slide_index_core_impl example_collaborators [1, 2, 3] [1, 1, 1] [1, 2, 3]
                  [[1], [2], [3]]
                  { complete := false, before_unbounded := false, after_unbounded := false,
                    constrain := true, size := 3 }).trace
            ∧ example_collaborators.vec_size elt ≠ 1) :=
  ⟨by decide,
    ((cardinality_mismatch example_collaborators [1, 2, 3] [1, 1, 1] [1, 2, 3]
      [[1], [2], [3]]
      { complete := false, before_unbounded := false, after_unbounded := false,
        constrain := true, size := 3 } (fun _ => rfl)).1 rfl).1⟩

/-! ### The trace and the output of the loop -/

/-- The trace of the loop: the events of the iterations it has gone through, one
evaluation for each of them. -/
theorem slide_loop_trace {V : Type} (c : Collaborators V) (params : Params)
    (i starts stops : List Int) (out_indices : List (List Nat)) (ws we : List Int)
    (iteration_min iteration_max : Int) :
    (∀ s1, slide_loop (iteration_body c params i starts stops out_indices ws we)
        (iterations iteration_min iteration_max) (initial_state c params) = .ok s1 →
      (∀ ev ∈ s1.trace, iteration_min ≤ ev.iteration ∧ ev.iteration ≤ iteration_max)
      ∧ (∀ k, iteration_min ≤ k → k ≤ iteration_max →
          ∃ a l, Event.eval k a l (c.eval a l) ∈ s1.trace
            ∧ ∀ g, vec_slice_impl out_indices k = some g → ∀ q ∈ g,
                Event.assign k q (scattered c params (c.eval a l)) ∈ s1.trace)
      ∧ (∀ (k a l : Int) (elt : V) (a1 l1 : Int) (elt1 : V), Event.eval k a l elt ∈ s1.trace →
          Event.eval k a1 l1 elt1 ∈ s1.trace → a = a1 ∧ l = l1 ∧ elt = elt1))
    ∧ (∀ e, slide_loop (iteration_body c params i starts stops out_indices ws we)
        (iterations iteration_min iteration_max) (initial_state c params) = .error e →
      (∀ ev ∈ e.2, iteration_min ≤ ev.iteration ∧ ev.iteration ≤ iteration_max)) := by
  have := slide_loop_iterations (iteration_body c params i starts stops out_indices ws we)
    (fun it st => (∀ ev ∈ st.trace, iteration_min ≤ ev.iteration ∧ ev.iteration < it)
      ∧ (∀ k, iteration_min ≤ k → k < it → ∃ a l, Event.eval k a l (c.eval a l) ∈ st.trace
            ∧ ∀ g, vec_slice_impl out_indices k = some g → ∀ q ∈ g,
                Event.assign k q (scattered c params (c.eval a l)) ∈ st.trace)
      ∧ (∀ (k a l : Int) (elt : V) (a1 l1 : Int) (elt1 : V), Event.eval k a l elt ∈ st.trace →
          Event.eval k a1 l1 elt1 ∈ st.trace → a = a1 ∧ l = l1 ∧ elt = elt1))
    (fun e => ∀ ev ∈ e.2, iteration_min ≤ ev.iteration ∧ ev.iteration ≤ iteration_max)
    iteration_min iteration_max (initial_state c params)
    ⟨(by intro ev hev; cases hev), (by intro k h1 h2; omega),
      (by intro k a l elt a1 l1 elt1 hev; cases hev)⟩
    (by
      intro it st h1 h2 ⟨hit, hall, huniq⟩
      constructor
      · intro s1 hb
        obtain ⟨locs, g, a, l, hl, hg, hq, hs, ht, ho⟩ :=
          iteration_body_ok_summary c params i starts stops out_indices ws we it st s1 hb
        rw [ht]
        refine ⟨?_, ?_, ?_⟩
        · intro ev hev
          simp only [List.mem_append, List.mem_singleton, List.mem_map] at hev
          rcases hev with ((hev | hev) | rfl) | ⟨q, _, rfl⟩
          · have := hit ev hev; omega
          · rw [locate_events_iteration params it locs hl ev hev]; omega
          · simp only [Event.iteration]; omega
          · simp only [Event.iteration]; omega
        · intro k hk1 hk2
          by_cases hk : k = it
          · subst hk
            refine ⟨a, l, by simp, ?_⟩
            intro g1 hg1 q hq1
            rw [hg] at hg1; cases hg1
            simp only [List.mem_append, List.mem_singleton, List.mem_map]
            exact Or.inr ⟨q, hq1, rfl⟩
          · obtain ⟨a1, l1, h, hw⟩ := hall k hk1 (by omega)
            refine ⟨a1, l1, by simp [h], ?_⟩
            intro g1 hg1 q hq1
            have := hw g1 hg1 q hq1
            simp [this]
        · intro k a0 l0 elt a1 l1 elt1 hev hev1
          simp only [List.mem_append, List.mem_singleton, List.mem_map] at hev hev1
          have hold : ∀ (k a0 l0 : Int) (elt : V), Event.eval k a0 l0 elt ∈ locs → False :=
            fun k a0 l0 elt h => locate_events_not_eval params it locs hl k a0 l0 elt h
          rcases hev with ((hev | hev) | hev) | ⟨q, _, hev⟩
          · rcases hev1 with ((hev1 | hev1) | hev1) | ⟨q, _, hev1⟩
            · exact huniq _ _ _ _ _ _ _ hev hev1
            · exact (hold _ _ _ _ hev1).elim
            · cases hev1
              have := (hit _ hev).2
              simp only [Event.iteration] at this
              omega
            · cases hev1
          · exact (hold _ _ _ _ hev).elim
          · cases hev
            rcases hev1 with ((hev1 | hev1) | hev1) | ⟨q, _, hev1⟩
            · have := (hit _ hev1).2
              simp only [Event.iteration] at this
              omega
            · exact (hold _ _ _ _ hev1).elim
            · cases hev1; exact ⟨rfl, rfl, rfl⟩
            · cases hev1
          · cases hev
      · intro e hb
        obtain ⟨locs, hl, h⟩ :=
          iteration_body_error_summary c params i starts stops out_indices ws we it st e hb
        intro ev hev
        rcases h with ⟨ht, _⟩ | ⟨a, l, ⟨ht, _⟩ | ⟨q, g0, _, _, ht⟩⟩
        · rw [ht] at hev
          rcases List.mem_append.1 hev with hev | hev
          · have := hit ev hev; omega
          · rw [locate_events_iteration params it locs hl ev hev]; omega
        · rw [ht] at hev
          simp only [List.mem_append, List.mem_singleton] at hev
          rcases hev with (hev | hev) | rfl
          · have := hit ev hev; omega
          · rw [locate_events_iteration params it locs hl ev hev]; omega
          · simp only [Event.iteration]; omega
        · rw [ht] at hev
          simp only [List.mem_append, List.mem_singleton, List.mem_map] at hev
          rcases hev with ((hev | hev) | rfl) | ⟨q, _, rfl⟩
          · have := hit ev hev; omega
          · rw [locate_events_iteration params it locs hl ev hev]; omega
          · simp only [Event.iteration]; omega
          · simp only [Event.iteration]; omega)
  refine ⟨fun s1 h => ?_, this.2⟩
  obtain ⟨h1, h2, h3⟩ := this.1 s1 h
  refine ⟨fun ev hev => ?_, fun k hk1 hk2 => h2 k hk1 (by omega), h3⟩
  have := h1 ev hev
  omega

/-- The output of the loop: every position holds what the last iteration whose group names
it has scattered, or its initial value when no iteration names it. -/
theorem slide_loop_out {V : Type} (c : Collaborators V) (params : Params)
    (i starts stops : List Int) (out_indices : List (List Nat)) (ws we : List Int)
    (iteration_min iteration_max : Int) (s1 : LoopState V)
    (h : slide_loop (iteration_body c params i starts stops out_indices ws we)
        (iterations iteration_min iteration_max) (initial_state c params) = .ok s1) :
    s1.out.length = params.size
    ∧ ∀ q : Nat, 1 ≤ q → q ≤ params.size →
      ((∀ k g, iteration_min ≤ k → k ≤ iteration_max → vec_slice_impl out_indices k = some g →
            q ∉ g)
          ∧ s1.out[q - 1]? = some c.vec_init)
      ∨ (∃ (k : Int) (g : List Nat) (a l : Int), iteration_min ≤ k ∧ k ≤ iteration_max
          ∧ vec_slice_impl out_indices k = some g ∧ q ∈ g
          ∧ (∀ k1 g1, k < k1 → k1 ≤ iteration_max → vec_slice_impl out_indices k1 = some g1 →
              q ∉ g1)
          ∧ Event.eval k a l (c.eval a l) ∈ s1.trace
          ∧ s1.out[q - 1]? = some (scattered c params (c.eval a l))) := by
  have := (slide_loop_iterations (iteration_body c params i starts stops out_indices ws we)
    (fun it st => st.out.length = params.size
      ∧ ∀ q : Nat, 1 ≤ q → q ≤ params.size →
        ((∀ k g, iteration_min ≤ k → k < it → vec_slice_impl out_indices k = some g → q ∉ g)
            ∧ st.out[q - 1]? = some c.vec_init)
        ∨ (∃ (k : Int) (g : List Nat) (a l : Int), iteration_min ≤ k ∧ k < it
            ∧ vec_slice_impl out_indices k = some g ∧ q ∈ g
            ∧ (∀ k1 g1, k < k1 → k1 < it → vec_slice_impl out_indices k1 = some g1 → q ∉ g1)
            ∧ Event.eval k a l (c.eval a l) ∈ st.trace
            ∧ st.out[q - 1]? = some (scattered c params (c.eval a l))))
    (fun _ => True)
    iteration_min iteration_max (initial_state c params)
    ⟨(by simp [initial_state]), (by
      intro q hq1 hq2
      left
      refine ⟨fun k g h1 h2 => by omega, ?_⟩
      simp only [initial_state]
      rw [List.getElem?_replicate, if_pos (by omega)])⟩
    (by
      intro it st h1 h2 ⟨hlen, hinv⟩
      refine ⟨?_, fun _ _ => trivial⟩
      intro s2 hb
      obtain ⟨locs, g, a, l, hl, hg, hq, hs, ht, ho⟩ :=
        iteration_body_ok_summary c params i starts stops out_indices ws we it st s2 hb
      refine ⟨by rw [ho, foldl_set_length, hlen], ?_⟩
      intro q hq1 hq2
      have hget : s2.out[q - 1]?
          = if q ∈ g then some (scattered c params (c.eval a l)) else st.out[q - 1]? := by
        rw [ho, foldl_set_getElem? _ g st.out (q - 1) (fun q1 h => (hq q1 h).1) (by omega)]
        have : q - 1 + 1 = q := by omega
        rw [this]
      by_cases hqg : q ∈ g
      · right
        rw [hget, if_pos hqg]
        refine ⟨it, g, a, l, h1, by omega, hg, hqg, fun k1 g1 h3 h4 => by omega, ?_, rfl⟩
        rw [ht]; simp
      · rw [hget, if_neg hqg]
        rcases hinv q hq1 hq2 with ⟨hno, hout⟩ | ⟨k, g0, a0, l0, e1, e2, e3, e4, e5, e6, e7⟩
        · left
          refine ⟨?_, hout⟩
          intro k g1 hk1 hk2 hg1
          by_cases hk : k = it
          · subst hk; rw [hg] at hg1; cases hg1; exact hqg
          · exact hno k g1 hk1 (by omega) hg1
        · right
          refine ⟨k, g0, a0, l0, e1, by omega, e3, e4, ?_, by rw [ht]; simp [e6], e7⟩
          intro k1 g1 hk1 hk2 hg1
          by_cases hk : k1 = it
          · subst hk; rw [hg] at hg1; cases hg1; exact hqg
          · exact e5 k1 g1 hk1 (by omega) hg1)).1 s1 h
  refine ⟨this.1, ?_⟩
  intro q hq1 hq2
  rcases this.2 q hq1 hq2 with ⟨hno, hout⟩ | ⟨k, g0, a0, l0, e1, e2, e3, e4, e5, e6, e7⟩
  · left
    exact ⟨fun k g h1 h2 => hno k g h1 (by omega), hout⟩
  · right
    exact ⟨k, g0, a0, l0, e1, by omega, e3, e4, fun k1 g1 h1 h2 => e5 k1 g1 h1 (by omega), e6, e7⟩

/-- A run that returns has gone through the whole loop. -/
theorem run_returned {V : Type} (c : Collaborators V) (i starts stops : List Int)
    (out_indices : List (List Nat)) (params : Params) (out : List V) (tr : List (Event V))
    (h : slide_index_core_impl c i starts stops out_indices params = .returned out tr) :
    ∃ lo hi ws we s, iteration_bounds params i starts stops = some (lo, hi)
      ∧ window_tables out_indices i.length = .ok (ws, we)
      ∧ slide_loop (iteration_body c params i starts stops out_indices ws we)
          (iterations lo hi) (initial_state c params) = .ok s
      ∧ out = s.out ∧ tr = s.trace := by
  rcases run_cases c i starts stops out_indices params with
    ⟨_, _, _, h4⟩ | ⟨_, ⟨_, h4⟩ | ⟨e, he, h4⟩ | ⟨lo, hi, ws, we, hib, hwt, h4⟩⟩
  · rw [h4] at h; cases h
  · rw [h4] at h; cases h
  · rw [h4] at h; cases h
  · rw [h4] at h
    cases hl : slide_loop (iteration_body c params i starts stops out_indices ws we)
        (iterations lo hi) (initial_state c params) with
    | error e => rw [hl] at h; cases h
    | ok s =>
      rw [hl] at h
      simp only [Outcome.returned.injEq] at h
      exact ⟨lo, hi, ws, we, s, hib, hwt, hl, h.1.symm, h.2.symm⟩

/-- C9. Unconstrained scatter, last writer wins: after a run that returns under the
unconstrained policy, whatever the output-index groups, an output position `q` that no
evaluated iteration names holds the initial value, and a position `q` named by the group
of the evaluated iteration `k` and by no later evaluated one holds the value `elt`
computed by the one evaluation of iteration `k`, as it was computed; every position named
by the group of an evaluated iteration was assigned that iteration's value. -/
theorem unconstrained_last_writer_wins {V : Type} (c : Collaborators V)
    (i starts stops : List Int) (out_indices : List (List Nat)) (params : Params)
    (out : List V) (tr : List (Event V)) (iteration_min iteration_max : Int)
    (hc : params.constrain = false)
    (hrun : slide_index_core_impl c i starts stops out_indices params = .returned out tr)
    (hib : iteration_bounds params i starts stops = some (iteration_min, iteration_max)) :
    out.length = params.size
    ∧ (∀ q : Nat, 1 ≤ q → q ≤ params.size →
        (∀ k g, iteration_min ≤ k → k ≤ iteration_max →
          vec_slice_impl out_indices k = some g → q ∉ g) →
        out[q - 1]? = some c.vec_init)
    ∧ (∀ (q : Nat) (k : Int) (g : List Nat), 1 ≤ q → q ≤ params.size →
        iteration_min ≤ k → k ≤ iteration_max → vec_slice_impl out_indices k = some g → q ∈ g →
        (∀ k1 g1, k < k1 → k1 ≤ iteration_max → vec_slice_impl out_indices k1 = some g1 →
          q ∉ g1) →
        ∃ (a l : Int) (elt : V), Event.eval k a l elt ∈ tr
          ∧ (∀ (a1 l1 : Int) (elt1 : V), Event.eval k a1 l1 elt1 ∈ tr → elt1 = elt)
          ∧ out[q - 1]? = some elt)
    ∧ (∀ (k : Int) (g : List Nat), iteration_min ≤ k → k ≤ iteration_max →
        vec_slice_impl out_indices k = some g →
        ∃ (a l : Int) (elt : V), Event.eval k a l elt ∈ tr
          ∧ ∀ q ∈ g, Event.assign k q elt ∈ tr) := by
  obtain ⟨lo, hi, ws, we, s, hib1, _, hl, rfl, rfl⟩ :=
    run_returned c i starts stops out_indices params out tr hrun
  rw [hib] at hib1
  cases hib1
  obtain ⟨hlen, hout⟩ :=
    slide_loop_out c params i starts stops out_indices ws we iteration_min iteration_max s hl
  obtain ⟨_, hall, huniq⟩ :=
    (slide_loop_trace c params i starts stops out_indices ws we iteration_min iteration_max).1
      s hl
  have hsc : ∀ elt : V, scattered c params elt = elt := by
    intro elt; simp [scattered, hc]
  refine ⟨hlen, ?_, ?_, ?_⟩
  · intro q hq1 hq2 hno
    rcases hout q hq1 hq2 with ⟨_, h⟩ | ⟨k, g, a, l, e1, e2, e3, e4, _⟩
    · exact h
    · exact absurd e4 (hno k g e1 e2 e3)
  · intro q k g hq1 hq2 hk1 hk2 hg hqg hlast
    rcases hout q hq1 hq2 with ⟨hno, _⟩ | ⟨k0, g0, a, l, e1, e2, e3, e4, e5, e6, e7⟩
    · exact absurd hqg (hno k g hk1 hk2 hg)
    · have hk : k0 = k := by
        by_contra hne
        rcases lt_or_gt_of_ne hne with hlt | hgt
        · exact e5 k g hlt hk2 hg hqg
        · exact hlast k0 g0 hgt e2 e3 e4
      subst hk
      refine ⟨a, l, c.eval a l, e6, ?_, by rw [e7, hsc]⟩
      intro a1 l1 elt1 hev
      exact (huniq _ _ _ _ _ _ _ hev e6).2.2
  · intro k g hk1 hk2 hg
    obtain ⟨a, l, hev, hw⟩ := hall k hk1 hk2
    refine ⟨a, l, c.eval a l, hev, ?_⟩
    intro q hq
    have := hw g hg q hq
    rw [hsc] at this
    exact this

/-- Groups that name no position twice are disjoint from one another. -/
theorem groups_disjoint (out_indices : List (List Nat)) (h : out_indices.flatten.Nodup) :
    ∀ (k1 k2 : Int) (g1 g2 : List Nat), vec_slice_impl out_indices k1 = some g1 →
      vec_slice_impl out_indices k2 = some g2 → k1 ≠ k2 → ∀ q, q ∈ g1 → q ∉ g2 := by
  intro k1 k2 g1 g2 h1 h2 hne q hq1 hq2
  obtain ⟨a1, a2, a3⟩ := vec_slice_impl_eq out_indices k1 g1 h1
  obtain ⟨b1, b2, b3⟩ := vec_slice_impl_eq out_indices k2 g2 h2
  have hpw := (List.nodup_flatten.1 h).2
  rw [List.pairwise_iff_getElem] at hpw
  obtain ⟨c1, c2⟩ := List.getElem?_eq_some_iff.1 a3
  obtain ⟨d1, d2⟩ := List.getElem?_eq_some_iff.1 b3
  rcases lt_or_gt_of_ne hne with hlt | hgt
  · have := hpw (k1 - 1).toNat (k2 - 1).toNat c1 d1 (by omega)
    rw [c2, d2] at this
    exact this hq1 hq2
  · have := hpw (k2 - 1).toNat (k1 - 1).toNat d1 c1 (by omega)
    rw [c2, d2] at this
    exact this hq2 hq1

/-- C8. Skipped iterations leave their output positions untouched: after a run that
returns, under either scatter policy, when the output-index groups are disjoint from one
another (no position is named twice) and name positions of the output only, every position named by the group of an
iteration `k` of `1 .. size_i` outside of the iteration range holds the value the output
container was initialized with, and the evaluator has not been invoked for `k`. -/
theorem skipped_iterations_untouched {V : Type} (c : Collaborators V)
    (i starts stops : List Int) (out_indices : List (List Nat)) (params : Params)
    (out : List V) (tr : List (Event V)) (iteration_min iteration_max : Int)
    (hrun : slide_index_core_impl c i starts stops out_indices params = .returned out tr)
    (hib : iteration_bounds params i starts stops = some (iteration_min, iteration_max))
    (hpart : out_indices.flatten.Nodup)
    (hin : ∀ g ∈ out_indices, ∀ q ∈ g, 1 ≤ q ∧ q ≤ params.size) :
    ∀ (k : Int) (g : List Nat), 1 ≤ k → k ≤ i.length →
      ¬ (iteration_min ≤ k ∧ k ≤ iteration_max) → vec_slice_impl out_indices k = some g →
      (∀ q ∈ g, out[q - 1]? = some c.vec_init)
      ∧ (∀ (a l : Int) (elt : V), Event.eval k a l elt ∉ tr) := by
  obtain ⟨lo, hi, ws, we, s, hib1, _, hl, rfl, rfl⟩ :=
    run_returned c i starts stops out_indices params out tr hrun
  rw [hib] at hib1
  cases hib1
  obtain ⟨hlen, hout⟩ :=
    slide_loop_out c params i starts stops out_indices ws we iteration_min iteration_max s hl
  obtain ⟨hrange, _, _⟩ :=
    (slide_loop_trace c params i starts stops out_indices ws we iteration_min iteration_max).1
      s hl
  have hdisj := groups_disjoint out_indices hpart
  intro k g hk1 hk2 hk hg
  constructor
  · intro q hq
    have hgm : g ∈ out_indices := by
      have := (vec_slice_impl_eq out_indices k g hg).2.2
      exact List.mem_iff_getElem?.2 ⟨_, this⟩
    obtain ⟨hq1, hq2⟩ := hin g hgm q hq
    rcases hout q hq1 hq2 with ⟨_, h⟩ | ⟨k0, g0, a, l, e1, e2, e3, e4, _⟩
    · exact h
    · have hne : k0 ≠ k := by
        intro h; subst h; exact hk ⟨e1, e2⟩
      exact absurd hq (hdisj k0 k g0 g e3 hg hne q e4)
  · intro a l elt hev
    have := hrange _ hev
    simp only [Event.iteration] at this
    exact hk this

/-- C9 with overlapping groups `[[1, 2], [2, 3], [3]]` on an expanding window: position 1
holds the value of iteration 1, position 2 that of iteration 2 and position 3 that of
iteration 3. -/
theorem unconstrained_last_writer_wins_witness :
    ∃ (out : List (List Int)) (tr : List (Event (List Int))),
      slide_index_core_impl example_collaborators [1, 2, 3] [1, 1, 1] [1, 2, 3]
          [[1, 2], [2, 3], [3]]
          { complete := false, before_unbounded := false, after_unbounded := false,
            constrain := false, size := 3 }
        = .returned out tr
      ∧ out = [[0, 1], [0, 1, 2, 3], [0, 1, 2, 3, 4]]
      ∧ out.length = 3
      ∧ (∀ (q : Nat) (k : Int) (g : List Nat), 1 ≤ q → q ≤ 3 →
          1 ≤ k → k ≤ 3 → vec_slice_impl [[1, 2], [2, 3], [3]] k = some g → q ∈ g →
          (∀ k1 g1, k < k1 → k1 ≤ 3 → vec_slice_impl [[1, 2], [2, 3], [3]] k1 = some g1 →
            q ∉ g1) →
          ∃ (a l : Int) (elt : List Int), Event.eval k a l elt ∈ tr
            ∧ (∀ (a1 l1 : Int) (elt1 : List Int), Event.eval k a1 l1 elt1 ∈ tr → elt1 = elt)
            ∧ out[q - 1]? = some elt) :=
  ⟨[[0, 1], [0, 1, 2, 3], [0, 1, 2, 3, 4]],
    (slide_index_core_impl example_collaborators [1, 2, 3] [1, 1, 1] [1, 2, 3]
      [[1, 2], [2, 3], [3]]
      { complete := false, before_unbounded := false, after_unbounded := false,
        constrain := false, size := 3 }).trace,
    by decide, rfl,
    (unconstrained_last_writer_wins example_collaborators [1, 2, 3] [1, 1, 1] [1, 2, 3]
      [[1, 2], [2, 3], [3]]
      { complete := false, before_unbounded := false, after_unbounded := false,
        constrain := false, size := 3 }
      [[0, 1], [0, 1, 2, 3], [0, 1, 2, 3, 4]]
      (slide_index_core_impl example_collaborators [1, 2, 3] [1, 1, 1] [1, 2, 3]
        [[1, 2], [2, 3], [3]]
        { complete := false, before_unbounded := false, after_unbounded := false,
          constrain := false, size := 3 }).trace
      1 3 rfl (by decide) (by decide)).1,
    (unconstrained_last_writer_wins example_collaborators [1, 2, 3] [1, 1, 1] [1, 2, 3]
      [[1, 2], [2, 3], [3]]
      { complete := false, before_unbounded := false, after_unbounded := false,
        constrain := false, size := 3 }
      [[0, 1], [0, 1, 2, 3], [0, 1, 2, 3, 4]]
      (slide_index_core_impl example_collaborators [1, 2, 3] [1, 1, 1] [1, 2, 3]
        [[1, 2], [2, 3], [3]]
        { complete := false, before_unbounded := false, after_unbounded := false,
          constrain := false, size := 3 }).trace
      1 3 rfl (by decide) (by decide)).2.2.1⟩

/-- C8 in complete mode at the keys `1 .. 5` with `starts = [-1, 1, 2, 3, 4]` and
`stops = [1, 2, 3, 4, 6]`: iterations 1 and 5 are skipped, and positions 1 and 5 hold the
initial value. -/
theorem skipped_iterations_untouched_witness :
    ∃ (out : List (List Int)) (tr : List (Event (List Int))),
      slide_index_core_impl example_collaborators [1, 2, 3, 4, 5] [-1, 1, 2, 3, 4]
          [1, 2, 3, 4, 6] [[1], [2], [3], [4], [5]]
          { complete := true, before_unbounded := false, after_unbounded := false,
            constrain := false, size := 5 }
        = .returned out tr
      ∧ out = [[], [0, 1], [1, 2], [2, 3], []]
      ∧ ∀ (k : Int) (g : List Nat), 1 ≤ k → k ≤ ([1, 2, 3, 4, 5] : List Int).length →
          ¬ (2 ≤ k ∧ k ≤ 4) → vec_slice_impl [[1], [2], [3], [4], [5]] k = some g →
          (∀ q ∈ g, out[q - 1]? = some example_collaborators.vec_init)
          ∧ (∀ (a l : Int) (elt : List Int), Event.eval k a l elt ∉ tr) :=
  ⟨[[], [0, 1], [1, 2], [2, 3], []],
    (slide_index_core_impl example_collaborators [1, 2, 3, 4, 5] [-1, 1, 2, 3, 4]
      [1, 2, 3, 4, 6] [[1], [2], [3], [4], [5]]
      { complete := true, before_unbounded := false, after_unbounded := false,
        constrain := false, size := 5 }).trace,
    by decide, rfl,
    skipped_iterations_untouched example_collaborators [1, 2, 3, 4, 5] [-1, 1, 2, 3, 4]
      [1, 2, 3, 4, 6] [[1], [2], [3], [4], [5]]
      { complete := true, before_unbounded := false, after_unbounded := false,
        constrain := false, size := 5 }
      [[], [0, 1], [1, 2], [2, 3], []]
      (slide_index_core_impl example_collaborators [1, 2, 3, 4, 5] [-1, 1, 2, 3, 4]
        [1, 2, 3, 4, 6] [[1], [2], [3], [4], [5]]
        { complete := true, before_unbounded := false, after_unbounded := false,
          constrain := false, size := 5 }).trace
      2 4 (by decide) (by decide) (by decide) (by decide)⟩

/-! ### Both sides unbounded -/

theorem iteration_body_unbounded {V : Type} (c : Collaborators V) (params : Params)
    (i starts stops : List Int) (out_indices : List (List Nat)) (ws we : List Int)
    (it : Int) (st : LoopState V) (hb : params.before_unbounded = true)
    (ha : params.after_unbounded = true) :
    iteration_body c params i starts stops out_indices ws we it st
      = scatter_stage c params out_indices it (evaluated c it st).1 (evaluated c it st).2 := by
  unfold iteration_body
  rw [window_start_stage_unbounded params i starts ws it st hb]
  simp only
  rw [window_stop_stage_unbounded params i stops we it st ha]
  rfl

theorem normalize_window_full {V : Type} (st : LoopState V) (size : Nat)
    (h1 : st.window_start = 0) (h2 : st.window_stop = (size : Int) - 1) :
    (normalize_window st).window_start = 0
      ∧ (normalize_window st).window_stop = (size : Int) - 1 := by
  unfold normalize_window
  split
  · next h =>
    rw [h1, h2] at h
    refine ⟨rfl, ?_⟩
    show (-1 : Int) = (size : Int) - 1
    omega
  · exact ⟨h1, h2⟩

/-- The loop when both sides are unbounded: no cursor is consulted and every evaluation is
on the full slice. -/
theorem slide_loop_unbounded {V : Type} (c : Collaborators V) (params : Params)
    (i starts stops : List Int) (out_indices : List (List Nat)) (ws we : List Int)
    (iteration_min iteration_max : Int) (hb : params.before_unbounded = true)
    (ha : params.after_unbounded = true) :
    (∀ s1, slide_loop (iteration_body c params i starts stops out_indices ws we)
        (iterations iteration_min iteration_max) (initial_state c params) = .ok s1 →
      ∀ ev ∈ s1.trace, (∀ k b, ev ≠ Event.locate_start k b) ∧ (∀ k b, ev ≠ Event.locate_stop k b)
        ∧ (∀ (k a l : Int) (elt : V), ev = Event.eval k a l elt →
            a = 0 ∧ l = params.size ∧ elt = c.eval 0 params.size))
    ∧ (∀ e, slide_loop (iteration_body c params i starts stops out_indices ws we)
        (iterations iteration_min iteration_max) (initial_state c params) = .error e →
      ∀ ev ∈ e.2, (∀ k b, ev ≠ Event.locate_start k b) ∧ (∀ k b, ev ≠ Event.locate_stop k b)
        ∧ (∀ (k a l : Int) (elt : V), ev = Event.eval k a l elt →
            a = 0 ∧ l = params.size ∧ elt = c.eval 0 params.size)) := by
  have := slide_loop_iterations (iteration_body c params i starts stops out_indices ws we)
    (fun _ st => st.window_start = 0 ∧ st.window_stop = (params.size : Int) - 1
      ∧ ∀ ev ∈ st.trace, (∀ k b, ev ≠ Event.locate_start k b)
        ∧ (∀ k b, ev ≠ Event.locate_stop k b)
        ∧ (∀ (k a l : Int) (elt : V), ev = Event.eval k a l elt →
            a = 0 ∧ l = params.size ∧ elt = c.eval 0 params.size))
    (fun e => ∀ ev ∈ e.2, (∀ k b, ev ≠ Event.locate_start k b)
        ∧ (∀ k b, ev ≠ Event.locate_stop k b)
        ∧ (∀ (k a l : Int) (elt : V), ev = Event.eval k a l elt →
            a = 0 ∧ l = params.size ∧ elt = c.eval 0 params.size))
    iteration_min iteration_max (initial_state c params)
    ⟨rfl, rfl, (by intro ev hev; cases hev)⟩
    (by
      intro it st _ _ ⟨hs, he, htr⟩
      obtain ⟨n1, n2⟩ := normalize_window_full st params.size hs he
      have hl : (normalize_window st).window_stop - (normalize_window st).window_start + 1
          = params.size := by rw [n1, n2]; omega
      have helt : (evaluated c it st).1 = c.eval 0 params.size := by
        rw [evaluated_elt, hl, n1]
      have htrace : (evaluated c it st).2.trace
          = st.trace ++ [Event.eval it 0 params.size (c.eval 0 params.size)] := by
        rw [evaluated_trace, helt, hl, n1]
      have hnew : ∀ ev ∈ (evaluated c it st).2.trace,
          (∀ k b, ev ≠ Event.locate_start k b) ∧ (∀ k b, ev ≠ Event.locate_stop k b)
          ∧ (∀ (k a l : Int) (elt : V), ev = Event.eval k a l elt →
              a = 0 ∧ l = params.size ∧ elt = c.eval 0 params.size) := by
        intro ev hev
        rw [htrace] at hev
        rcases List.mem_append.1 hev with hev | hev
        · exact htr ev hev
        · rw [List.mem_singleton] at hev
          subst hev
          refine ⟨fun k b h => (by cases h), fun k b h => (by cases h), ?_⟩
          intro k a l elt h
          cases h
          exact ⟨rfl, rfl, rfl⟩
      have hassign : ∀ (g : List Nat) (v : V),
          ∀ ev ∈ g.map (fun q => Event.assign it q v),
          (∀ k b, ev ≠ Event.locate_start k b) ∧ (∀ k b, ev ≠ Event.locate_stop k b)
          ∧ (∀ (k a l : Int) (elt : V), ev = Event.eval k a l elt →
              a = 0 ∧ l = params.size ∧ elt = c.eval 0 params.size) := by
        intro g v ev hev
        obtain ⟨q, _, rfl⟩ := List.mem_map.1 hev
        exact ⟨fun k b h => (by cases h), fun k b h => (by cases h),
          fun k a l elt h => (by cases h)⟩
      rw [iteration_body_unbounded c params i starts stops out_indices ws we it st hb ha]
      constructor
      · intro s1 hsc
        obtain ⟨g, _, _, hs1, _⟩ := scatter_stage_ok _ _ _ _ _ _ _ hsc
        rw [hs1]
        refine ⟨?_, ?_, ?_⟩
        · simp only [evaluated, eval_stage]; exact n1
        · simp only [evaluated, eval_stage]; exact n2
        · intro ev hev
          simp only at hev
          rcases List.mem_append.1 hev with hev | hev
          · exact hnew ev hev
          · exact hassign g _ ev hev
      · intro e hsc ev hev
        rcases scatter_stage_error _ _ _ _ _ _ _ hsc with ⟨_, h⟩ | ⟨_, _, h⟩
          | ⟨q, g0, _, _, h⟩
        · rw [h] at hev; exact hnew ev hev
        · rw [h] at hev; exact hnew ev hev
        · rw [h] at hev
          rcases List.mem_append.1 hev with hev | hev
          · exact hnew ev hev
          · exact hassign g0 _ ev hev)
  exact ⟨fun s1 h => (this.1 s1 h).2.2, this.2⟩

/-- C5. Both sides unbounded: for either value of `complete` and arbitrary `starts` and
`stops`, the iteration range is `1 .. size_i`, the run never fails with the range-ordering
error, its trace holds no cursor look-up, every evaluation of the run is of an iteration of
`1 .. size_i` on the full slice (start 0, length `size`), and a run that returns has
evaluated the full slice in every one of the `size_i` iterations. -/
theorem both_sides_unbounded {V : Type} (c : Collaborators V) (i starts stops : List Int)
    (out_indices : List (List Nat)) (params : Params)
    (hb : params.before_unbounded = true) (ha : params.after_unbounded = true) :
    iteration_bounds params i starts stops = some (1, (i.length : Int))
    ∧ (∀ tr, slide_index_core_impl c i starts stops out_indices params
        ≠ .failed .range_start_past_stop tr)
    ∧ (∀ ev ∈ (slide_index_core_impl c i starts stops out_indices params).trace,
        (∀ k b, ev ≠ Event.locate_start k b) ∧ (∀ k b, ev ≠ Event.locate_stop k b))
    ∧ (∀ (k a l : Int) (elt : V),
        Event.eval k a l elt ∈ (slide_index_core_impl c i starts stops out_indices params).trace →
        1 ≤ k ∧ k ≤ i.length ∧ a = 0 ∧ l = params.size ∧ elt = c.eval 0 params.size)
    ∧ (∀ out tr, slide_index_core_impl c i starts stops out_indices params = .returned out tr →
        ∀ k : Int, 1 ≤ k → k ≤ i.length →
          Event.eval k 0 params.size (c.eval 0 params.size) ∈ tr) := by
  have hib : iteration_bounds params i starts stops = some (1, (i.length : Int)) := by
    rw [iteration_bounds_eq]
    simp [hb, ha]
  have hview : ∀ ev ∈ (slide_index_core_impl c i starts stops out_indices params).trace,
      (1 ≤ ev.iteration ∧ ev.iteration ≤ i.length)
      ∧ (∀ k b, ev ≠ Event.locate_start k b) ∧ (∀ k b, ev ≠ Event.locate_stop k b)
      ∧ (∀ (k a l : Int) (elt : V), ev = Event.eval k a l elt →
          a = 0 ∧ l = params.size ∧ elt = c.eval 0 params.size) := by
    intro ev hev
    rcases run_cases c i starts stops out_indices params with
      ⟨_, _, _, h4⟩ | ⟨_, ⟨_, h4⟩ | ⟨e, he, h4⟩ | ⟨lo, hi, ws, we, hib1, hwt, h4⟩⟩
    · rw [h4] at hev; cases hev
    · rw [h4] at hev; cases hev
    · rw [h4] at hev; cases hev
    · rw [hib] at hib1; cases hib1
      have hu := slide_loop_unbounded c params i starts stops out_indices ws we 1 i.length hb ha
      have ht := slide_loop_trace c params i starts stops out_indices ws we 1 i.length
      rw [h4] at hev
      cases hl : slide_loop (iteration_body c params i starts stops out_indices ws we)
          (iterations 1 i.length) (initial_state c params) with
      | error e =>
        rw [hl] at hev
        exact ⟨ht.2 e hl ev hev, hu.2 e hl ev hev⟩
      | ok s =>
        rw [hl] at hev
        exact ⟨(ht.1 s hl).1 ev hev, hu.1 s hl ev hev⟩
  refine ⟨hib, ?_, ?_, ?_, ?_⟩
  · intro tr h
    have := (range_error_from_check c i starts stops out_indices params tr h).1
    rw [hb] at this; cases this
  · intro ev hev
    exact ⟨(hview ev hev).2.1, (hview ev hev).2.2.1⟩
  · intro k a l elt hev
    obtain ⟨h1, _, _, h2⟩ := hview _ hev
    obtain ⟨e1, e2, e3⟩ := h2 k a l elt rfl
    simp only [Event.iteration] at h1
    exact ⟨h1.1, h1.2, e1, e2, e3⟩
  · intro out tr hrun k hk1 hk2
    obtain ⟨lo, hi, ws, we, s, hib1, _, hl, rfl, rfl⟩ :=
      run_returned c i starts stops out_indices params out tr hrun
    rw [hib] at hib1; cases hib1
    obtain ⟨a, l, hev, _⟩ :=
      ((slide_loop_trace c params i starts stops out_indices ws we 1 i.length).1 s hl).2.1
        k hk1 hk2
    have hu := (slide_loop_unbounded c params i starts stops out_indices ws we 1 i.length
      hb ha).1 s hl _ hev
    obtain ⟨e1, e2, _⟩ := hu.2.2 k a l _ rfl
    rw [e1, e2] at hev
    exact hev

/-- C5 at the keys `[1, 2, 3]` with unsorted `starts` that are past the `stops`: the three
iterations are evaluated on the full slice. -/
theorem both_sides_unbounded_witness :
    (slide_index_core_impl example_collaborators [1, 2, 3] [5, 1, 9] [0, 0, 0]
        [[1], [2], [3]]
        { complete := true, before_unbounded := true, after_unbounded := true,
          constrain := false, size := 3 }).windows
      = [(1, 0, 3), (2, 0, 3), (3, 0, 3)]
    ∧ iteration_bounds
        { complete := true, before_unbounded := true, after_unbounded := true,
          constrain := false, size := 3 }
        [1, 2, 3] [5, 1, 9] [0, 0, 0] = some (1, 3)
    ∧ (∀ ev ∈ (slide_index_core_impl example_collaborators [1, 2, 3] [5, 1, 9] [0, 0, 0]
          [[1], [2], [3]]
          { complete := true, before_unbounded := true, after_unbounded := true,
            constrain := false, size := 3 }).trace,
        (∀ k b, ev ≠ Event.locate_start k b) ∧ (∀ k b, ev ≠ Event.locate_stop k b)) :=
  ⟨by decide,
    (both_sides_unbounded example_collaborators [1, 2, 3] [5, 1, 9] [0, 0, 0] [[1], [2], [3]]
      { complete := true, before_unbounded := true, after_unbounded := true,
        constrain := false, size := 3 } rfl rfl).1,
    (both_sides_unbounded example_collaborators [1, 2, 3] [5, 1, 9] [0, 0, 0] [[1], [2], [3]]
      { complete := true, before_unbounded := true, after_unbounded := true,
        constrain := false, size := 3 } rfl rfl).2.2.1⟩

/-! ### The iteration range -/

/-- The counting loop of `adjust_iteration_min` / `adjust_iteration_max`. -/
theorem count_loop_eq (P : Int → Prop) [DecidablePred P] (range : List Int) :
    ∀ (n : Nat) (a : Int), n ≤ range.length →
      (List.range n).foldlM
        (fun (adj : Int) k => (range[k]?).bind (fun r => some (if P r then adj + 1 else adj))) a
      = some (a + (((range.take n).countP (fun r => decide (P r)) : Nat) : Int)) := by
  intro n
  induction n with
  | zero => intro a _; simp
  | succ n ih =>
    intro a hn
    have hlt : n < range.length := by omega
    rw [List.range_succ, List.foldlM_append, ih a (by omega)]
    have e : List.take (n + 1) range = List.take n range ++ [range[n]] := by
      rw [List.take_succ, List.getElem?_eq_getElem hlt]; rfl
    simp only [Option.bind_eq_bind, Option.some_bind, List.foldlM_cons, List.foldlM_nil,
      List.getElem?_eq_getElem hlt, Option.pure_def, Option.bind_some, e, List.countP_append,
      List.countP_cons, List.countP_nil, Option.some.injEq]
    by_cases hp : P range[n]
    · simp only [hp, if_true, decide_True]
      push_cast
      omega
    · simp only [hp, if_false, decide_False]
      push_cast
      omega

theorem vec_slice_impl_getD (x : List Int) (pos : Nat) (h1 : 1 ≤ pos) (h2 : pos ≤ x.length) :
    vec_slice_impl x (pos : Int) = some (x.getD (pos - 1) 0) := by
  unfold vec_slice_impl
  rw [if_pos (by omega)]
  have e : ((pos : Int) - 1).toNat = pos - 1 := by omega
  rw [e, List.getElem?_eq_getElem (by omega), List.getD_eq_getElem _ _ (by omega)]

theorem adjust_iteration_min_eq (iteration_min : Int) (range i : List Int) (hM : 1 ≤ i.length)
    (hr : range.length = i.length) :
    adjust_iteration_min iteration_min range i i.length
      = some (if i.getD 0 0 > range.getD 0 0 then
          iteration_min + ((range.countP (fun r => decide (i.getD 0 0 > r)) : Nat) : Int)
        else iteration_min) := by
  unfold adjust_iteration_min
  have h1 := vec_slice_impl_getD i 1 (le_refl _) hM
  have h2 := vec_slice_impl_getD range 1 (le_refl _) (by omega)
  simp only [Nat.cast_one, Nat.sub_self] at h1 h2
  rw [h1, h2]
  simp only [Option.bind_eq_bind, Option.some_bind, Option.pure_def]
  split
  · rw [count_loop_eq (fun r => i.getD 0 0 > r) range i.length 0 (by omega)]
    simp only [Option.some_bind, zero_add]
    rw [← hr, List.take_length]
  · rfl

theorem adjust_iteration_max_eq (iteration_max : Int) (range i : List Int) (hM : 1 ≤ i.length)
    (hr : range.length = i.length) :
    adjust_iteration_max iteration_max range i i.length
      = some (if i.getD (i.length - 1) 0 < range.getD (i.length - 1) 0 then
          iteration_max - ((range.countP (fun r => decide (i.getD (i.length - 1) 0 < r)) : Nat) : Int)
        else iteration_max) := by
  unfold adjust_iteration_max
  have h1 := vec_slice_impl_getD i i.length hM (le_refl _)
  have h2 := vec_slice_impl_getD range i.length hM (by omega)
  rw [h1, h2]
  simp only [Option.bind_eq_bind, Option.some_bind, Option.pure_def]
  split
  · rw [count_loop_eq (fun r => i.getD (i.length - 1) 0 < r) range i.length 0 (by omega)]
    simp only [Option.some_bind, zero_add]
    rw [← hr, List.take_length]
  · rfl

/-- In a sorted list the elements that satisfy a downward closed property are the first
ones, as many as there are. -/
theorem sorted_countP (P : Int → Bool) (hP : ∀ a b, a ≤ b → P b = true → P a = true) :
    ∀ (l : List Int), l.Pairwise (fun a b => a ≤ b) →
      ∀ j, j < l.length → (P (l.getD j 0) = true ↔ j < l.countP P) := by
  intro l
  induction l with
  | nil => intro _ j hj; simp at hj
  | cons x l ih =>
    intro hs j hj
    rw [List.pairwise_cons] at hs
    by_cases hx : P x = true
    · rw [List.countP_cons_of_pos _ _ hx]
      cases j with
      | zero => simp [hx]
      | succ j =>
        simp only [List.getD_cons_succ]
        rw [ih hs.2 j (by simpa using hj)]
        omega
    · rw [List.countP_cons_of_neg _ _ hx]
      have hnone : ∀ y ∈ l, ¬ P y = true := fun y hy h => hx (hP x y (hs.1 y hy) h)
      have hzero : l.countP P = 0 := by
        rw [List.countP_eq_zero]
        exact hnone
      rw [hzero]
      cases j with
      | zero => simp [hx]
      | succ j =>
        simp only [List.getD_cons_succ]
        have hm : l.getD j 0 ∈ l := by
          rw [List.getD_eq_getElem _ _ (by simpa using hj)]
          exact List.getElem_mem _
        constructor
        · intro h; exact absurd h (hnone _ hm)
        · intro h; omega

/-- The lower bound of the iteration range, for a sorted boundary sequence: the iterations
from it on are those whose boundary is not before the first key. -/
theorem adjust_iteration_min_sorted (range i : List Int) (hM : 1 ≤ i.length)
    (hr : range.length = i.length) (hs : range.Pairwise (fun a b => a ≤ b)) :
    adjust_iteration_min 1 range i i.length
        = some ((1 : Int) + ((range.countP (fun r => decide (r < i.getD 0 0)) : Nat) : Int))
    ∧ ∀ j, j < range.length →
        ((1 : Int) + ((range.countP (fun r => decide (r < i.getD 0 0)) : Nat) : Int) ≤ (j : Int) + 1
          ↔ i.getD 0 0 ≤ range.getD j 0) := by
  have hcount := sorted_countP (fun r => decide (r < i.getD 0 0))
    (by intro a b hab hb; simp only [decide_eq_true_eq] at hb ⊢; omega) range hs
  constructor
  · rw [adjust_iteration_min_eq 1 range i hM hr]
    have e : (fun r => decide (i.getD 0 0 > r)) = (fun r => decide (r < i.getD 0 0)) := by
      funext r; simp
    rw [e]
    split
    · rfl
    · next h =>
      have := (hcount 0 (by omega)).not
      simp only [decide_eq_true_eq] at this
      have h0 : range.countP (fun r => decide (r < i.getD 0 0)) = 0 := by
        have := this.1 (by omega)
        omega
      rw [h0]
      rfl
  · intro j hj
    have := hcount j hj
    simp only [decide_eq_true_eq] at this
    omega

/-- The upper bound of the iteration range, for a sorted boundary sequence: the iterations
up to it are those whose boundary is not after the last key. -/
theorem adjust_iteration_max_sorted (range i : List Int) (hM : 1 ≤ i.length)
    (hr : range.length = i.length) (hs : range.Pairwise (fun a b => a ≤ b)) :
    adjust_iteration_max (i.length : Int) range i i.length
        = some ((i.length : Int)
            - ((range.countP (fun r => decide (r > i.getD (i.length - 1) 0)) : Nat) : Int))
    ∧ ∀ j, j < range.length →
        ((j : Int) + 1 ≤ (i.length : Int)
            - ((range.countP (fun r => decide (r > i.getD (i.length - 1) 0)) : Nat) : Int)
          ↔ range.getD j 0 ≤ i.getD (i.length - 1) 0) := by
  have hcount := sorted_countP (fun r => decide (r ≤ i.getD (i.length - 1) 0))
    (by intro a b hab hb; simp only [decide_eq_true_eq] at hb ⊢; omega) range hs
  have hsplit := List.length_eq_countP_add_countP
    (fun r => decide (r ≤ i.getD (i.length - 1) 0)) range
  have e : (fun r => decide (i.getD (i.length - 1) 0 < r))
      = (fun r => decide (r > i.getD (i.length - 1) 0)) := by
    funext r; simp
  have e2 : (fun a => decide ¬ (decide (a ≤ i.getD (i.length - 1) 0)) = true)
      = (fun r => decide (r > i.getD (i.length - 1) 0)) := by
    funext r; simp
  rw [e2] at hsplit
  constructor
  · rw [adjust_iteration_max_eq (i.length : Int) range i hM hr, e]
    split
    · rfl
    · next h =>
      have := hcount (i.length - 1) (by omega)
      simp only [decide_eq_true_eq] at this
      have h0 : range.countP (fun r => decide (r > i.getD (i.length - 1) 0)) = 0 := by
        have := this.1 (by omega)
        omega
      rw [h0]
      simp
  · intro j hj
    have := hcount j hj
    simp only [decide_eq_true_eq] at this
    omega

theorem vec_slice_impl_getD_eq (x : List Int) (pos a : Int)
    (h : vec_slice_impl x pos = some a) :
    1 ≤ pos ∧ (pos - 1).toNat < x.length ∧ x.getD (pos - 1).toNat 0 = a
      ∧ ((pos - 1).toNat : Int) + 1 = pos := by
  obtain ⟨h1, h2, h3⟩ := vec_slice_impl_eq x pos a h
  have hlt : (pos - 1).toNat < x.length := by omega
  refine ⟨h1, hlt, ?_, by omega⟩
  rw [List.getD_eq_getElem?_getD, h3]
  rfl

/-- In a run that returns, the evaluated iterations are those of the iteration range. -/
theorem evaluated_iff_in_range {V : Type} (c : Collaborators V) (i starts stops : List Int)
    (out_indices : List (List Nat)) (params : Params) (out : List V) (tr : List (Event V))
    (iteration_min iteration_max : Int)
    (hrun : slide_index_core_impl c i starts stops out_indices params = .returned out tr)
    (hib : iteration_bounds params i starts stops = some (iteration_min, iteration_max))
    (k : Int) :
    (∃ (a l : Int) (elt : V), Event.eval k a l elt ∈ tr)
      ↔ (iteration_min ≤ k ∧ k ≤ iteration_max) := by
  obtain ⟨lo, hi, ws, we, s, hib1, _, hl, rfl, rfl⟩ :=
    run_returned c i starts stops out_indices params out tr hrun
  rw [hib] at hib1
  cases hib1
  obtain ⟨hrange, hall, _⟩ :=
    (slide_loop_trace c params i starts stops out_indices ws we iteration_min iteration_max).1
      s hl
  constructor
  · rintro ⟨a, l, elt, hev⟩
    simpa [Event.iteration] using hrange _ hev
  · rintro ⟨h1, h2⟩
    obtain ⟨a, l, hev, _⟩ := hall k h1 h2
    exact ⟨a, l, _, hev⟩

/-- The iteration range in complete mode, for sorted boundary sequences. -/
theorem iteration_bounds_complete (params : Params) (i starts stops : List Int)
    (hM : 1 ≤ i.length) (hstarts : starts.length = i.length) (hstops : stops.length = i.length)
    (hs : starts.Pairwise (fun a b => a ≤ b)) (he : stops.Pairwise (fun a b => a ≤ b))
    (hc : params.complete = true) :
    iteration_bounds params i starts stops = some
      ((if params.before_unbounded then (1 : Int)
          else (1 : Int) + ((starts.countP (fun s => decide (s < i.getD 0 0)) : Nat) : Int)),
        (if params.after_unbounded then (i.length : Int)
          else (i.length : Int)
            - ((stops.countP (fun s => decide (s > i.getD (i.length - 1) 0)) : Nat) : Int)))
    ∧ ∀ (k a b : Int), vec_slice_impl starts k = some a → vec_slice_impl stops k = some b →
      (((if params.before_unbounded then (1 : Int)
            else (1 : Int) + ((starts.countP (fun s => decide (s < i.getD 0 0)) : Nat) : Int)) ≤ k
          ∧ k ≤ (if params.after_unbounded then (i.length : Int)
            else (i.length : Int)
              - ((stops.countP (fun s => decide (s > i.getD (i.length - 1) 0)) : Nat) : Int)))
        ↔ ((params.before_unbounded = true ∨ i.getD 0 0 ≤ a)
            ∧ (params.after_unbounded = true ∨ b ≤ i.getD (i.length - 1) 0))) := by
  obtain ⟨hmin, hmin2⟩ := adjust_iteration_min_sorted starts i hM hstarts hs
  obtain ⟨hmax, hmax2⟩ := adjust_iteration_max_sorted stops i hM hstops he
  constructor
  · rw [iteration_bounds_eq, if_pos hc]
    cases hb : params.before_unbounded <;> cases ha : params.after_unbounded
      <;> simp [hmin, hmax]
  · intro k a b hka hkb
    obtain ⟨a1, a2, a3, a4⟩ := vec_slice_impl_getD_eq starts k a hka
    obtain ⟨b1, b2, b3, b4⟩ := vec_slice_impl_getD_eq stops k b hkb
    have q1 := hmin2 _ a2
    have q2 := hmax2 _ b2
    rw [a3, a4] at q1
    rw [b3, b4] at q2
    cases hb : params.before_unbounded <;> cases ha : params.after_unbounded
      <;> simp only [Bool.false_eq_true, if_false, if_true, false_or, true_or, true_and, and_true]
    · rw [q1, q2]
    · rw [q1]; constructor
      · intro h; exact h.1
      · intro h; exact ⟨h, by omega⟩
    · rw [q2]; constructor
      · intro h; exact h.2
      · intro h; exact ⟨by omega, h⟩
    · constructor
      · intro _; trivial
      · intro _; exact ⟨by omega, by omega⟩

/-- The iteration range in non-complete mode, for sorted boundary sequences. -/
theorem iteration_bounds_non_complete (params : Params) (i starts stops : List Int)
    (hM : 1 ≤ i.length) (hstarts : starts.length = i.length) (hstops : stops.length = i.length)
    (hs : starts.Pairwise (fun a b => a ≤ b)) (he : stops.Pairwise (fun a b => a ≤ b))
    (hc : params.complete = false) :
    iteration_bounds params i starts stops = some
      ((if params.after_unbounded then (1 : Int)
          else (1 : Int) + ((stops.countP (fun s => decide (s < i.getD 0 0)) : Nat) : Int)),
        (if params.before_unbounded then (i.length : Int)
          else (i.length : Int)
            - ((starts.countP (fun s => decide (s > i.getD (i.length - 1) 0)) : Nat) : Int)))
    ∧ ∀ (k a b : Int), vec_slice_impl starts k = some a → vec_slice_impl stops k = some b →
      (((if params.after_unbounded then (1 : Int)
            else (1 : Int) + ((stops.countP (fun s => decide (s < i.getD 0 0)) : Nat) : Int)) ≤ k
          ∧ k ≤ (if params.before_unbounded then (i.length : Int)
            else (i.length : Int)
              - ((starts.countP (fun s => decide (s > i.getD (i.length - 1) 0)) : Nat) : Int)))
        ↔ ((params.after_unbounded = true ∨ i.getD 0 0 ≤ b)
            ∧ (params.before_unbounded = true ∨ a ≤ i.getD (i.length - 1) 0))) := by
  obtain ⟨hmin, hmin2⟩ := adjust_iteration_min_sorted stops i hM hstops he
  obtain ⟨hmax, hmax2⟩ := adjust_iteration_max_sorted starts i hM hstarts hs
  constructor
  · rw [iteration_bounds_eq, if_neg (by simp [hc])]
    cases hb : params.before_unbounded <;> cases ha : params.after_unbounded
      <;> simp [hmin, hmax]
  · intro k a b hka hkb
    obtain ⟨a1, a2, a3, a4⟩ := vec_slice_impl_getD_eq starts k a hka
    obtain ⟨b1, b2, b3, b4⟩ := vec_slice_impl_getD_eq stops k b hkb
    have q1 := hmin2 _ b2
    have q2 := hmax2 _ a2
    rw [b3, b4] at q1
    rw [a3, a4] at q2
    cases hb : params.before_unbounded <;> cases ha : params.after_unbounded
      <;> simp only [Bool.false_eq_true, if_false, if_true, false_or, true_or, true_and, and_true]
    · rw [q1, q2]
    · rw [q2]; constructor
      · intro h; exact h.2
      · intro h; exact ⟨by omega, h⟩
    · rw [q1]; constructor
      · intro h; exact h.1
      · intro h; exact ⟨h, by omega⟩
    · constructor
      · intro _; trivial
      · intro _; exact ⟨by omega, by omega⟩

/-- C3. Complete-mode trimming: with `complete` on, a key sequence of length at least one
and non-decreasing `starts` and `stops` of the same length, `iteration_min` is 1 plus the
number of `starts` before the first key when the before side is bounded (else 1),
`iteration_max` is `size_i` minus the number of `stops` after the last key when the after
side is bounded (else `size_i`); so an iteration `k` is in the iteration range, and is
evaluated by a run that returns, exactly when (the before side is unbounded or `starts[k]`
is not before the first key) and (the after side is unbounded or `stops[k]` is not after
the last key). -/
theorem complete_mode_trimming {V : Type} (c : Collaborators V) (i starts stops : List Int)
    (out_indices : List (List Nat)) (params : Params) (i_first i_last : Int)
    (hM : 1 ≤ i.length) (hstarts : starts.length = i.length) (hstops : stops.length = i.length)
    (hs : starts.Pairwise (fun a b => a ≤ b)) (he : stops.Pairwise (fun a b => a ≤ b))
    (hfirst : i[0]? = some i_first) (hlast : i[i.length - 1]? = some i_last)
    (hc : params.complete = true) :
    ∃ iteration_min iteration_max : Int,
      iteration_bounds params i starts stops = some (iteration_min, iteration_max)
      ∧ iteration_min = (if params.before_unbounded then (1 : Int)
          else (1 : Int) + ((starts.countP (fun s => decide (s < i_first)) : Nat) : Int))
      ∧ iteration_max = (if params.after_unbounded then (i.length : Int)
          else (i.length : Int) - ((stops.countP (fun s => decide (s > i_last)) : Nat) : Int))
      ∧ (∀ (k a b : Int), vec_slice_impl starts k = some a → vec_slice_impl stops k = some b →
          ((iteration_min ≤ k ∧ k ≤ iteration_max)
            ↔ ((params.before_unbounded = true ∨ i_first ≤ a)
                ∧ (params.after_unbounded = true ∨ b ≤ i_last))))
      ∧ (∀ (out : List V) (tr : List (Event V)),
          slide_index_core_impl c i starts stops out_indices params = .returned out tr →
          ∀ (k a b : Int), vec_slice_impl starts k = some a → vec_slice_impl stops k = some b →
            ((∃ (ws wl : Int) (elt : V), Event.eval k ws wl elt ∈ tr)
              ↔ ((params.before_unbounded = true ∨ i_first ≤ a)
                  ∧ (params.after_unbounded = true ∨ b ≤ i_last)))) := by
  have hf : i.getD 0 0 = i_first := by rw [List.getD_eq_getElem?_getD, hfirst]; rfl
  have hl : i.getD (i.length - 1) 0 = i_last := by rw [List.getD_eq_getElem?_getD, hlast]; rfl
  obtain ⟨hib, hiff⟩ := iteration_bounds_complete params i starts stops hM hstarts hstops hs he hc
  rw [hf, hl] at hib hiff
  refine ⟨_, _, hib, rfl, rfl, hiff, ?_⟩
  intro out tr hrun k a b hka hkb
  rw [evaluated_iff_in_range c i starts stops out_indices params out tr _ _ hrun hib k]
  exact hiff k a b hka hkb

/-- C4. Non-complete-mode trimming uses the opposite boundary sequence: with `complete`
off, a key sequence of length at least one and non-decreasing `starts` and `stops` of the
same length, `iteration_min` is 1 plus the number of `stops` before the first key when the
after side is bounded (else 1), `iteration_max` is `size_i` minus the number of `starts`
after the last key when the before side is bounded (else `size_i`); so an iteration `k` is
in the iteration range, and is evaluated by a run that returns, exactly when (the after
side is unbounded or `stops[k]` is not before the first key) and (the before side is
unbounded or `starts[k]` is not after the last key). -/
theorem opposite_sequence_trimming {V : Type} (c : Collaborators V)
    (i starts stops : List Int) (out_indices : List (List Nat)) (params : Params)
    (i_first i_last : Int)
    (hM : 1 ≤ i.length) (hstarts : starts.length = i.length) (hstops : stops.length = i.length)
    (hs : starts.Pairwise (fun a b => a ≤ b)) (he : stops.Pairwise (fun a b => a ≤ b))
    (hfirst : i[0]? = some i_first) (hlast : i[i.length - 1]? = some i_last)
    (hc : params.complete = false) :
    ∃ iteration_min iteration_max : Int,
      iteration_bounds params i starts stops = some (iteration_min, iteration_max)
      ∧ iteration_min = (if params.after_unbounded then (1 : Int)
          else (1 : Int) + ((stops.countP (fun s => decide (s < i_first)) : Nat) : Int))
      ∧ iteration_max = (if params.before_unbounded then (i.length : Int)
          else (i.length : Int) - ((starts.countP (fun s => decide (s > i_last)) : Nat) : Int))
      ∧ (∀ (k a b : Int), vec_slice_impl starts k = some a → vec_slice_impl stops k = some b →
          ((iteration_min ≤ k ∧ k ≤ iteration_max)
            ↔ ((params.after_unbounded = true ∨ i_first ≤ b)
                ∧ (params.before_unbounded = true ∨ a ≤ i_last))))
      ∧ (∀ (out : List V) (tr : List (Event V)),
          slide_index_core_impl c i starts stops out_indices params = .returned out tr →
          ∀ (k a b : Int), vec_slice_impl starts k = some a → vec_slice_impl stops k = some b →
            ((∃ (ws wl : Int) (elt : V), Event.eval k ws wl elt ∈ tr)
              ↔ ((params.after_unbounded = true ∨ i_first ≤ b)
                  ∧ (params.before_unbounded = true ∨ a ≤ i_last)))) := by
  have hf : i.getD 0 0 = i_first := by rw [List.getD_eq_getElem?_getD, hfirst]; rfl
  have hl : i.getD (i.length - 1) 0 = i_last := by rw [List.getD_eq_getElem?_getD, hlast]; rfl
  obtain ⟨hib, hiff⟩ :=
    iteration_bounds_non_complete params i starts stops hM hstarts hstops hs he hc
  rw [hf, hl] at hib hiff
  refine ⟨_, _, hib, rfl, rfl, hiff, ?_⟩
  intro out tr hrun k a b hka hkb
  rw [evaluated_iff_in_range c i starts stops out_indices params out tr _ _ hrun hib k]
  exact hiff k a b hka hkb

/-- C3 at the keys `1 .. 5` with `starts = [-1, 1, 2, 3, 4]` and `stops = [1, 2, 3, 4, 6]`:
iterations 2 to 4 are evaluated. -/
theorem complete_mode_trimming_witness :
    (slide_index_core_impl example_collaborators [1, 2, 3, 4, 5] [-1, 1, 2, 3, 4]
        [1, 2, 3, 4, 6] [[1], [2], [3], [4], [5]]
        { complete := true, before_unbounded := false, after_unbounded := false,
          constrain := false, size := 5 }).windows
      = [(2, 0, 2), (3, 1, 2), (4, 2, 2)]
    ∧ ∃ iteration_min iteration_max : Int,
      iteration_bounds
          { complete := true, before_unbounded := false, after_unbounded := false,
            constrain := false, size := 5 }
          [1, 2, 3, 4, 5] [-1, 1, 2, 3, 4] [1, 2, 3, 4, 6]
        = some (iteration_min, iteration_max)
      ∧ iteration_min = 2 ∧ iteration_max = 4
      ∧ (∀ (k a b : Int), vec_slice_impl [-1, 1, 2, 3, 4] k = some a →
          vec_slice_impl [1, 2, 3, 4, 6] k = some b →
          ((iteration_min ≤ k ∧ k ≤ iteration_max) ↔ (1 ≤ a ∧ b ≤ 5))) :=
  ⟨by decide,
    match complete_mode_trimming example_collaborators [1, 2, 3, 4, 5] [-1, 1, 2, 3, 4]
        [1, 2, 3, 4, 6] [[1], [2], [3], [4], [5]]
        { complete := true, before_unbounded := false, after_unbounded := false,
          constrain := false, size := 5 }
        1 5 (by decide) (by decide) (by decide) (by decide) (by decide) rfl rfl rfl with
    | ⟨lo, hi, h1, h2, h3, h4, _⟩ =>
      ⟨lo, hi, h1, h2.trans (by decide), h3.trans (by decide),
        fun k a b ha hb => (h4 k a b ha hb).trans (by simp)⟩⟩

/-- C4 at the keys `1 .. 5` with `starts = [-3, -2, 4, 6, 7]` and
`stops = [-1, 0, 5, 8, 9]`: the windows of iterations 1 and 2 end before the first key,
those of iterations 4 and 5 start after the last key, and iteration 3 alone is
evaluated. -/
theorem opposite_sequence_trimming_witness :
    (slide_index_core_impl example_collaborators [1, 2, 3, 4, 5] [-3, -2, 4, 6, 7]
        [-1, 0, 5, 8, 9] [[1], [2], [3], [4], [5]]
        { complete := false, before_unbounded := false, after_unbounded := false,
          constrain := false, size := 5 }).windows
      = [(3, 3, 2)]
    ∧ ∃ iteration_min iteration_max : Int,
      iteration_bounds
          { complete := false, before_unbounded := false, after_unbounded := false,
            constrain := false, size := 5 }
          [1, 2, 3, 4, 5] [-3, -2, 4, 6, 7] [-1, 0, 5, 8, 9]
        = some (iteration_min, iteration_max)
      ∧ iteration_min = 3 ∧ iteration_max = 3
      ∧ (∀ (k a b : Int), vec_slice_impl [-3, -2, 4, 6, 7] k = some a →
          vec_slice_impl [-1, 0, 5, 8, 9] k = some b →
          ((iteration_min ≤ k ∧ k ≤ iteration_max) ↔ (1 ≤ b ∧ a ≤ 5))) :=
  ⟨by decide,
    match opposite_sequence_trimming example_collaborators [1, 2, 3, 4, 5] [-3, -2, 4, 6, 7]
        [-1, 0, 5, 8, 9] [[1], [2], [3], [4], [5]]
        { complete := false, before_unbounded := false, after_unbounded := false,
          constrain := false, size := 5 }
        1 5 (by decide) (by decide) (by decide) (by decide) (by decide) rfl rfl rfl with
    | ⟨lo, hi, h1, h2, h3, h4, _⟩ =>
      ⟨lo, hi, h1, h2.trans (by decide), h3.trans (by decide),
        fun k a b ha hb => (h4 k a b ha hb).trans (by simp)⟩⟩

/-! ### The groups and the data positions -/

theorem span_start_zero (x : List (List Nat)) : span_start x 0 = 0 := by
  simp [span_start]

theorem span_start_cons (g : List Nat) (x : List (List Nat)) (k : Nat) :
    span_start (g :: x) (k + 1) = (g.length : Int) + span_start x k := by
  simp [span_start]

theorem span_start_mono (x : List (List Nat)) :
    ∀ (a b : Nat), a ≤ b → span_start x a ≤ span_start x b := by
  induction x with
  | nil => intro a b _; simp [span_start]
  | cons g x ih =>
    intro a b hab
    cases a with
    | zero =>
      rw [span_start_zero]
      unfold span_start
      exact Int.natCast_nonneg _
    | succ a =>
      cases b with
      | zero => omega
      | succ b =>
        rw [span_start_cons, span_start_cons]
        have := ih a b (by omega)
        omega

theorem span_start_nonneg (x : List (List Nat)) (a : Nat) : 0 ≤ span_start x a := by
  unfold span_start
  exact Int.natCast_nonneg _

theorem span_start_strict (x : List (List Nat)) (hpos : ∀ g ∈ x, 0 < g.length) :
    ∀ (a b : Nat), a < b → b ≤ x.length → span_start x a < span_start x b := by
  intro a b hab hb
  have h1 := span_start_succ x a (by omega)
  have h2 := span_start_mono x (a + 1) b (by omega)
  have ha : a < x.length := by omega
  have h3 : 0 < (x[a]).length := hpos _ (List.getElem_mem _)
  omega

theorem span_start_length (x : List (List Nat)) :
    span_start x x.length = ((x.map List.length).sum : Nat) := by
  simp [span_start]

/-- The group of a data position: `group_key` finds the key of the group whose span holds
the position. -/
theorem group_key_iff :
    ∀ (x : List (List Nat)) (i : List Int) (p : Nat) (key : Int), x.length = i.length →
      (group_key (x.map List.length) i p = some key
        ↔ ∃ g, g < i.length ∧ span_start x g ≤ p ∧ (p : Int) < span_start x (g + 1)
            ∧ i.getD g 0 = key) := by
  intro x
  induction x with
  | nil =>
    intro i p key hlen
    have : i = [] := List.length_eq_zero.1 hlen.symm
    subst this
    simp [group_key]
  | cons grp x ih =>
    intro i p key hlen
    cases i with
    | nil => simp at hlen
    | cons k0 i =>
      simp only [List.map_cons, group_key]
      have hlen1 : x.length = i.length := by simpa using hlen
      by_cases hp : p < grp.length
      · rw [if_pos hp]
        constructor
        · intro h
          cases h
          refine ⟨0, by simp, by rw [span_start_zero]; omega, ?_, by simp⟩
          rw [span_start_cons, span_start_zero]
          omega
        · rintro ⟨g, hg, h1, h2, h3⟩
          cases g with
          | zero => simp at h3; rw [h3]
          | succ g =>
            rw [span_start_cons] at h1
            have := span_start_nonneg x g
            omega
      · rw [if_neg hp, ih i (p - grp.length) key hlen1]
        constructor
        · rintro ⟨g, hg, h1, h2, h3⟩
          refine ⟨g + 1, by simpa using hg, ?_, ?_, by simpa using h3⟩
          · rw [span_start_cons]; omega
          · rw [span_start_cons]; omega
        · rintro ⟨g, hg, h1, h2, h3⟩
          cases g with
          | zero =>
            rw [span_start_cons, span_start_zero] at h2
            omega
          | succ g =>
            rw [span_start_cons] at h1 h2
            exact ⟨g, by simpa using hg, by omega, by omega, by simpa using h3⟩

/-- The slice a resolved window stands for: with the start group `s` the first group that
satisfies `lower` and the stop group `t` the last one that satisfies `upper`, the window
from the span table, once normalized, holds the positions whose group key satisfies both. -/
theorem window_positions (x : List (List Nat)) (i : List Int) (hlen : x.length = i.length)
    (lower upper : Int → Prop) (s : Nat) (t : Int)
    (ht1 : -1 ≤ t) (ht2 : t ≤ (i.length : Int) - 1)
    (hlow : ∀ g, g < i.length → (lower (i.getD g 0) ↔ s ≤ g))
    (hup : ∀ g, g < i.length → (upper (i.getD g 0) ↔ (g : Int) ≤ t))
    {V : Type} (st : LoopState V) (h1 : st.window_start = span_start x s)
    (h2 : st.window_stop = span_start x (t + 1).toNat - 1) :
    0 ≤ (normalize_window st).window_start
    ∧ 0 ≤ (normalize_window st).window_stop - (normalize_window st).window_start + 1
    ∧ ∀ p : Nat, ((normalize_window st).window_start ≤ p
          ∧ (p : Int) < (normalize_window st).window_start
              + ((normalize_window st).window_stop - (normalize_window st).window_start + 1))
        ↔ ∃ key, group_key (x.map List.length) i p = some key ∧ lower key ∧ upper key := by
  have key_iff : ∀ p : Nat,
      (∃ key, group_key (x.map List.length) i p = some key ∧ lower key ∧ upper key)
        ↔ (span_start x s ≤ p ∧ (p : Int) < span_start x (t + 1).toNat) := by
    intro p
    constructor
    · rintro ⟨key, hk, hl, hu⟩
      obtain ⟨g, hg, e1, e2, e3⟩ := (group_key_iff x i p key hlen).1 hk
      rw [← e3] at hl hu
      have hsg := (hlow g hg).1 hl
      have hgt := (hup g hg).1 hu
      have m1 := span_start_mono x s g hsg
      have m2 := span_start_mono x (g + 1) (t + 1).toNat (by omega)
      omega
    · rintro ⟨e1, e2⟩
      -- the group of `p`
      have hex : ∃ g, g < i.length ∧ span_start x g ≤ p ∧ (p : Int) < span_start x (g + 1) := by
        have hgen : ∀ n : Nat, n ≤ i.length → (p : Int) < span_start x n →
            ∃ g, g < i.length ∧ span_start x g ≤ p ∧ (p : Int) < span_start x (g + 1) := by
          intro n
          induction n with
          | zero => intro _ h; rw [span_start_zero] at h; omega
          | succ n ih =>
            intro hn h
            by_cases hp : (p : Int) < span_start x n
            · exact ih (by omega) hp
            · exact ⟨n, by omega, by omega, h⟩
        exact hgen (t + 1).toNat (by omega) e2
      obtain ⟨g, hg, g1, g2⟩ := hex
      refine ⟨i.getD g 0, (group_key_iff x i p _ hlen).2 ⟨g, hg, g1, g2, rfl⟩, ?_, ?_⟩
      · rw [hlow g hg]
        by_contra hlt
        have := span_start_mono x (g + 1) s (by omega)
        omega
      · rw [hup g hg]
        by_contra hlt
        have := span_start_mono x (t + 1).toNat g (by omega)
        omega
  have hnn := span_start_nonneg x s
  unfold normalize_window
  split
  · next hlt =>
    simp only
    refine ⟨le_refl _, by omega, ?_⟩
    intro p
    rw [key_iff p]
    rw [h1, h2] at hlt
    constructor
    · intro h; omega
    · intro h; omega
  · next hge =>
    rw [h1, h2] at hge
    rw [h1, h2]
    refine ⟨hnn, by omega, ?_⟩
    intro p
    rw [key_iff p]
    constructor
    · intro h; constructor <;> omega
    · intro h; constructor <;> omega

/-! ### The windows the loop resolves -/

theorem sorted_getD (i : List Int) (hi : i.Pairwise (fun a b => a ≤ b)) (a b : Nat)
    (hab : a ≤ b) (hb : b < i.length) : i.getD a 0 ≤ i.getD b 0 := by
  rw [List.getD_eq_getElem _ _ (by omega), List.getD_eq_getElem _ _ hb]
  rcases Nat.eq_or_lt_of_le hab with rfl | hlt
  · exact le_refl _
  · exact (List.pairwise_iff_getElem.1 hi) a b (by omega) hb hlt

theorem vec_slice_impl_sorted (x : List Int) (hx : x.Pairwise (fun a b => a ≤ b))
    (k k1 b b1 : Int) (hk : k ≤ k1) (h1 : vec_slice_impl x k = some b)
    (h2 : vec_slice_impl x k1 = some b1) : b ≤ b1 := by
  obtain ⟨a1, a2, a3, a4⟩ := vec_slice_impl_getD_eq x k b h1
  obtain ⟨b1', b2, b3, b4⟩ := vec_slice_impl_getD_eq x k1 b1 h2
  rw [← a3, ← b3]
  exact sorted_getD x hx _ _ (by omega) b2

theorem array_get_span (ws : List Int) (x : List (List Nat)) (n : Nat)
    (hws : ∀ k, k < n → ws[k]? = some (span_start x k)) (k : Nat) (hk : k < n) :
    array_get ws (k : Int) = some (span_start x k) := by
  unfold array_get
  rw [if_pos (by omega)]
  simpa using hws k hk

/-- The start stage of an iteration whose start boundary is not after the last key. -/
theorem start_stage_resolved {V : Type} (params : Params) (i starts ws : List Int)
    (x : List (List Nat)) (it : Int) (st : LoopState V)
    (hi : i.Pairwise (fun a b => a ≤ b))
    (hws : ∀ k, k < i.length → ws[k]? = some (span_start x k))
    (hss : starts.Pairwise (fun a b => a ≤ b))
    (hb : params.before_unbounded = false) (b : Int)
    (hslice : vec_slice_impl starts it = some b) (hex : b ≤ i.getD (i.length - 1) 0)
    (hp1 : 1 ≤ st.last_start_position) (hp2 : st.last_start_position ≤ i.length)
    (hcur : ∀ q, 1 ≤ q → q < st.last_start_position → ∀ k b1, it ≤ k →
      vec_slice_impl starts k = some b1 → i.getD (q - 1) 0 < b1) :
    ∃ (p1 : Nat),
      window_start_stage params i starts ws it st
        = .ok { st with
                window_start := span_start x (p1 - 1)
                last_start_position := p1
                trace := st.trace ++ [Event.locate_start it b] }
      ∧ 1 ≤ p1 ∧ p1 ≤ i.length
      ∧ (∀ g, g < i.length → (b ≤ i.getD g 0 ↔ p1 - 1 ≤ g))
      ∧ (∀ q, 1 ≤ q → q < p1 → ∀ k b1, it + 1 ≤ k →
          vec_slice_impl starts k = some b1 → i.getD (q - 1) 0 < b1) := by
  obtain ⟨p1, h1, h2, h3, h4, h5⟩ := locate_start_spec i b st.last_start_position hp1 hp2
  have hbelow : ∀ q, 1 ≤ q → q < p1 → i.getD (q - 1) 0 < b := by
    intro q hq1 hq2
    by_cases hq : q < st.last_start_position
    · exact hcur q hq1 hq it b (le_refl _) hslice
    · exact h4 q (by omega) hq2
  have hat : b ≤ i.getD (p1 - 1) 0 := by
    rcases h5 with h5 | ⟨h5, h6⟩
    · exact h5
    · rw [h5] at h6; omega
  have hidx : ((p1 : Int) - 1) = ((p1 - 1 : Nat) : Int) := by omega
  refine ⟨p1, ?_, by omega, h3, ?_, ?_⟩
  · rw [hidx] at h1
    exact window_start_stage_eq params i starts ws it st hb b _ _ p1 hslice h1
      (array_get_span ws x i.length hws (p1 - 1) (by omega))
  · intro g hg
    constructor
    · intro hbg
      by_contra hlt
      have := hbelow (g + 1) (by omega) (by omega)
      simp only [Nat.add_sub_cancel] at this
      omega
    · intro hge
      have := sorted_getD i hi (p1 - 1) g hge hg
      omega
  · intro q hq1 hq2 k b1 hk hb1
    have := hbelow q hq1 hq2
    have := vec_slice_impl_sorted starts hss it k b b1 (by omega) hslice hb1
    omega

/-- The stop stage of an iteration whose stop boundary is not before the first key. -/
theorem stop_stage_resolved {V : Type} (params : Params) (i stops we : List Int)
    (x : List (List Nat)) (it : Int) (st : LoopState V)
    (hi : i.Pairwise (fun a b => a ≤ b))
    (hwe : ∀ k, k < i.length → we[k]? = some (span_start x (k + 1) - 1))
    (hss : stops.Pairwise (fun a b => a ≤ b))
    (ha : params.after_unbounded = false) (b : Int)
    (hslice : vec_slice_impl stops it = some b) (hex : i.getD 0 0 ≤ b)
    (hp1 : 1 ≤ st.last_stop_position) (hp2 : st.last_stop_position ≤ i.length)
    (hcur : ∀ q, 1 ≤ q → q < st.last_stop_position → ∀ k b1, it ≤ k →
      vec_slice_impl stops k = some b1 → i.getD (q - 1) 0 ≤ b1) :
    ∃ (t p1 : Nat),
      window_stop_stage params i stops we it st
        = .ok { st with
                window_stop := span_start x (t + 1) - 1
                last_stop_position := p1
                trace := st.trace ++ [Event.locate_stop it b] }
      ∧ 1 ≤ p1 ∧ p1 ≤ i.length ∧ t < i.length
      ∧ (∀ g, g < i.length → (i.getD g 0 ≤ b ↔ g ≤ t))
      ∧ (∀ q, 1 ≤ q → q < p1 → ∀ k b1, it + 1 ≤ k →
          vec_slice_impl stops k = some b1 → i.getD (q - 1) 0 ≤ b1) := by
  obtain ⟨idx, p1, h1, h2, h3, h4, h5⟩ := locate_stop_spec i b st.last_stop_position hp1 hp2
  have hbelow : ∀ q, 1 ≤ q → q < p1 → i.getD (q - 1) 0 ≤ b := by
    intro q hq1 hq2
    by_cases hq : q < st.last_stop_position
    · exact hcur q hq1 hq it b (le_refl _) hslice
    · exact h4 q (by omega) hq2
  have hfut : ∀ q, 1 ≤ q → q < p1 → ∀ k b1, it + 1 ≤ k →
      vec_slice_impl stops k = some b1 → i.getD (q - 1) 0 ≤ b1 := by
    intro q hq1 hq2 k b1 hk hb1
    have := hbelow q hq1 hq2
    have := vec_slice_impl_sorted stops hss it k b b1 (by omega) hslice hb1
    omega
  have hget : ∀ t : Nat, t < i.length → array_get we (t : Int) = some (span_start x (t + 1) - 1) := by
    intro t ht
    unfold array_get
    rw [if_pos (by omega)]
    simpa using hwe t ht
  rcases h5 with ⟨h5, h6⟩ | ⟨h5, h6, h7⟩
  · have hp : 2 ≤ p1 := by
      by_contra hlt
      have : p1 = 1 := by omega
      rw [this] at h5
      simp only [Nat.sub_self] at h5
      omega
    have hidx : idx = ((p1 - 2 : Nat) : Int) := by omega
    refine ⟨p1 - 2, p1, ?_, by omega, h3, by omega, ?_, hfut⟩
    · rw [hidx] at h1
      exact window_stop_stage_eq params i stops we it st ha b _ _ p1 hslice h1
        (hget (p1 - 2) (by omega))
    · intro g hg
      constructor
      · intro hgb
        by_contra hlt
        have := sorted_getD i hi (p1 - 1) g (by omega) hg
        omega
      · intro hge
        have := hbelow (g + 1) (by omega) (by omega)
        simpa using this
  · have hidx : idx = ((i.length - 1 : Nat) : Int) := by omega
    refine ⟨i.length - 1, p1, ?_, by omega, h3, by omega, ?_, hfut⟩
    · rw [hidx] at h1
      exact window_stop_stage_eq params i stops we it st ha b _ _ p1 hslice h1
        (hget (i.length - 1) (by omega))
    · intro g hg
      constructor
      · intro _; omega
      · intro _
        have := sorted_getD i hi g (i.length - 1) (by omega) (by omega)
        rw [h5] at h6
        omega

theorem normalize_window_of_le {V : Type} (st : LoopState V)
    (h : st.window_start ≤ st.window_stop) : normalize_window st = st := by
  unfold normalize_window
  rw [if_neg (by omega)]

theorem normalize_window_start_zero {V : Type} (st : LoopState V)
    (h : st.window_start = 0) : (normalize_window st).window_start = 0 := by
  unfold normalize_window
  split
  · rfl
  · exact h

/-- The windows of the loop. When every evaluated iteration has a key not before its start
boundary (or an unbounded before side) and a key not after its stop boundary (or an
unbounded after side), every slice handed to the evaluator is exact and anchored at the
unbounded sides, and the loop fails in the scatter only. -/
theorem slide_loop_windows {V : Type} (c : Collaborators V) (params : Params)
    (i starts stops : List Int) (out_indices : List (List Nat)) (ws we : List Int)
    (iteration_min iteration_max : Int)
    (hM : 1 ≤ i.length) (hi : i.Pairwise (fun a b => a ≤ b))
    (hx : out_indices.length = i.length) (hpos : ∀ g ∈ out_indices, 0 < g.length)
    (hsize : (out_indices.map List.length).sum = params.size)
    (hstarts : params.before_unbounded = false →
      starts.length = i.length ∧ starts.Pairwise (fun a b => a ≤ b))
    (hstops : params.after_unbounded = false →
      stops.length = i.length ∧ stops.Pairwise (fun a b => a ≤ b))
    (hws : ∀ k, k < i.length → ws[k]? = some (span_start out_indices k))
    (hwe : ∀ k, k < i.length → we[k]? = some (span_start out_indices (k + 1) - 1))
    (hlo1 : 1 ≤ iteration_min) (hhi1 : iteration_max ≤ i.length)
    (hlo : params.before_unbounded = false → ∀ k b, iteration_min ≤ k → k ≤ iteration_max →
      vec_slice_impl starts k = some b → b ≤ i.getD (i.length - 1) 0)
    (hhi : params.after_unbounded = false → ∀ k b, iteration_min ≤ k → k ≤ iteration_max →
      vec_slice_impl stops k = some b → i.getD 0 0 ≤ b) :
    (∀ s1, slide_loop (iteration_body c params i starts stops out_indices ws we)
        (iterations iteration_min iteration_max) (initial_state c params) = .ok s1 →
      ∀ (k a l : Int) (elt : V), Event.eval k a l elt ∈ s1.trace →
        resolved_window params i starts stops out_indices k a l)
    ∧ (∀ e, slide_loop (iteration_body c params i starts stops out_indices ws we)
        (iterations iteration_min iteration_max) (initial_state c params) = .error e →
      ((∃ k n, e.1 = .not_all_size_one k n) ∨ ∃ q, e.1 = .assign_out_of_bounds q)
      ∧ ∀ (k a l : Int) (elt : V), Event.eval k a l elt ∈ e.2 →
          resolved_window params i starts stops out_indices k a l) := by
  have htotal : span_start out_indices i.length = (params.size : Int) := by
    rw [← hx, span_start_length, hsize]
  have := slide_loop_iterations (iteration_body c params i starts stops out_indices ws we)
    (fun it st =>
      (params.before_unbounded = true → st.window_start = 0)
      ∧ (params.after_unbounded = true → st.window_stop = (params.size : Int) - 1)
      ∧ (params.before_unbounded = false →
          1 ≤ st.last_start_position ∧ st.last_start_position ≤ i.length
          ∧ ∀ q, 1 ≤ q → q < st.last_start_position → ∀ k b1, it ≤ k →
              vec_slice_impl starts k = some b1 → i.getD (q - 1) 0 < b1)
      ∧ (params.after_unbounded = false →
          1 ≤ st.last_stop_position ∧ st.last_stop_position ≤ i.length
          ∧ ∀ q, 1 ≤ q → q < st.last_stop_position → ∀ k b1, it ≤ k →
              vec_slice_impl stops k = some b1 → i.getD (q - 1) 0 ≤ b1)
      ∧ ∀ (k a l : Int) (elt : V), Event.eval k a l elt ∈ st.trace →
          resolved_window params i starts stops out_indices k a l)
    (fun e => ((∃ k n, e.1 = .not_all_size_one k n) ∨ ∃ q, e.1 = .assign_out_of_bounds q)
      ∧ ∀ (k a l : Int) (elt : V), Event.eval k a l elt ∈ e.2 →
          resolved_window params i starts stops out_indices k a l)
    iteration_min iteration_max (initial_state c params)
    ⟨fun _ => rfl, fun _ => rfl,
      fun _ => ⟨le_refl _, hM, fun q h1 h2 => (by simp [initial_state] at h2; omega)⟩,
      fun _ => ⟨le_refl _, hM, fun q h1 h2 => (by simp [initial_state] at h2; omega)⟩,
      fun k a l elt h => (by simp [initial_state] at h)⟩
    (by
      intro it st hit1 hit2 ⟨hw0, hw1, hcs, hce, htr⟩
      -- the start stage
      have hstart : ∃ (s1 : LoopState V) (s : Nat) (locs : List (Event V)),
          window_start_stage params i starts ws it st = .ok s1
          ∧ s1.out = st.out ∧ s1.window_stop = st.window_stop
          ∧ s1.last_stop_position = st.last_stop_position
          ∧ s1.trace = st.trace ++ locs ∧ locate_events params it locs
          ∧ s1.window_start = span_start out_indices s ∧ s < i.length
          ∧ (∀ g, g < i.length →
              ((params.before_unbounded = true
                  ∨ ∃ b, vec_slice_impl starts it = some b ∧ b ≤ i.getD g 0) ↔ s ≤ g))
          ∧ (params.before_unbounded = true → s1.window_start = 0)
          ∧ (params.before_unbounded = false →
              1 ≤ s1.last_start_position ∧ s1.last_start_position ≤ i.length
              ∧ ∀ q, 1 ≤ q → q < s1.last_start_position → ∀ k b1, it + 1 ≤ k →
                  vec_slice_impl starts k = some b1 → i.getD (q - 1) 0 < b1) := by
        cases hb : params.before_unbounded with
        | true =>
          refine ⟨st, 0, [], window_start_stage_unbounded params i starts ws it st hb,
            rfl, rfl, rfl, (by simp), (by intro ev hev; cases hev), ?_, (by omega), ?_,
            fun _ => hw0 hb, fun h => (by cases h)⟩
          · rw [hw0 hb, span_start_zero]
          · intro g _; simp
        | false =>
          obtain ⟨hlen, hsorted⟩ := hstarts hb
          obtain ⟨b, hslice⟩ := vec_slice_impl_some starts it (by omega) (by omega)
          obtain ⟨hp1, hp2, hcur⟩ := hcs hb
          obtain ⟨p1, e1, e2, e3, e4, e5⟩ := start_stage_resolved params i starts ws out_indices
            it st hi hws hsorted hb b hslice (hlo hb it b hit1 hit2 hslice) hp1 hp2 hcur
          refine ⟨_, p1 - 1, [Event.locate_start it b], e1, rfl, rfl, rfl, rfl, ?_, rfl,
            (by omega), ?_, fun h => (by cases h), fun _ => ⟨e2, e3, e5⟩⟩
          · intro ev hev
            rw [List.mem_singleton] at hev
            exact Or.inl ⟨hb, b, hev⟩
          · intro g hg
            rw [← e4 g hg]
            constructor
            · rintro (h | ⟨b1, h1, h2⟩)
              · cases h
              · rw [hslice] at h1; cases h1; exact h2
            · intro h; exact Or.inr ⟨b, hslice, h⟩
      obtain ⟨s1, s, locs1, hst1, ho1, hwstop1, hpe1, htr1, hl1, hws1, hs, hlow, hz1, hc1⟩ := hstart
      -- the stop stage
      have hstop : ∃ (s2 : LoopState V) (t : Nat) (locs : List (Event V)),
          window_stop_stage params i stops we it s1 = .ok s2
          ∧ s2.out = s1.out ∧ s2.window_start = s1.window_start
          ∧ s2.last_start_position = s1.last_start_position
          ∧ s2.trace = s1.trace ++ locs ∧ locate_events params it locs
          ∧ s2.window_stop = span_start out_indices (t + 1) - 1 ∧ t < i.length
          ∧ (∀ g, g < i.length →
              ((params.after_unbounded = true
                  ∨ ∃ b, vec_slice_impl stops it = some b ∧ i.getD g 0 ≤ b) ↔ g ≤ t))
          ∧ (params.after_unbounded = true → s2.window_stop = (params.size : Int) - 1)
          ∧ (params.after_unbounded = false →
              1 ≤ s2.last_stop_position ∧ s2.last_stop_position ≤ i.length
              ∧ ∀ q, 1 ≤ q → q < s2.last_stop_position → ∀ k b1, it + 1 ≤ k →
                  vec_slice_impl stops k = some b1 → i.getD (q - 1) 0 ≤ b1) := by
        cases ha : params.after_unbounded with
        | true =>
          have hfull : s1.window_stop = (params.size : Int) - 1 := by rw [hwstop1]; exact hw1 ha
          refine ⟨s1, i.length - 1, [], window_stop_stage_unbounded params i stops we it s1 ha,
            rfl, rfl, rfl, (by simp), (by intro ev hev; cases hev), ?_, (by omega), ?_,
            fun _ => hfull, fun h => (by cases h)⟩
          · have : i.length - 1 + 1 = i.length := by omega
            rw [hfull, this, htotal]
          · intro g hg; simp; omega
        | false =>
          obtain ⟨hlen, hsorted⟩ := hstops ha
          obtain ⟨b, hslice⟩ := vec_slice_impl_some stops it (by omega) (by omega)
          obtain ⟨hp1, hp2, hcur⟩ := hce ha
          rw [← hpe1] at hp1 hp2 hcur
          obtain ⟨t, p1, e1, e2, e3, e4, e5, e6⟩ := stop_stage_resolved params i stops we
            out_indices it s1 hi hwe hsorted ha b hslice (hhi ha it b hit1 hit2 hslice)
            hp1 hp2 hcur
          refine ⟨_, t, [Event.locate_stop it b], e1, rfl, rfl, rfl, rfl, ?_, rfl,
            e4, ?_, fun h => (by cases h), fun _ => ⟨e2, e3, e6⟩⟩
          · intro ev hev
            rw [List.mem_singleton] at hev
            exact Or.inr ⟨ha, b, hev⟩
          · intro g hg
            rw [← e5 g hg]
            constructor
            · rintro (h | ⟨b1, h1, h2⟩)
              · cases h
              · rw [hslice] at h1; cases h1; exact h2
            · intro h; exact Or.inr ⟨b, hslice, h⟩
      obtain ⟨s2, t, locs2, hst2, ho2, hwstart2, hps2, htr2, hl2, hwe2, ht, hup, hz2, hc2⟩ := hstop
      -- the window
      have hwin := window_positions out_indices i hx
        (fun key => params.before_unbounded = true
          ∨ ∃ b, vec_slice_impl starts it = some b ∧ b ≤ key)
        (fun key => params.after_unbounded = true
          ∨ ∃ b, vec_slice_impl stops it = some b ∧ key ≤ b)
        s (t : Int) (by omega) (by omega) hlow
        (fun g hg => (hup g hg).trans Int.ofNat_le.symm)
        s2 (by rw [hwstart2, hws1])
        (by rw [hwe2]; congr 2)
      have hfull : params.after_unbounded = true → normalize_window s2 = s2 := by
        intro ha
        have hle : s2.window_start ≤ s2.window_stop := by
          rw [hwstart2, hws1, hz2 ha]
          have := span_start_strict out_indices hpos s i.length hs (by omega)
          omega
        exact normalize_window_of_le s2 hle
      have hexact : resolved_window params i starts stops out_indices it
          (normalize_window s2).window_start
          ((normalize_window s2).window_stop - (normalize_window s2).window_start + 1) := by
        refine ⟨hwin, ?_, ?_⟩
        · intro hb
          exact normalize_window_start_zero s2 (by rw [hwstart2]; exact hz1 hb)
        · intro ha
          rw [hfull ha, hz2 ha]
          omega
      have hbody : iteration_body c params i starts stops out_indices ws we it st
          = scatter_stage c params out_indices it (evaluated c it s2).1 (evaluated c it s2).2 := by
        unfold iteration_body
        rw [hst1]; simp only; rw [hst2]; rfl
      have hnew : ∀ (k a l : Int) (elt : V), Event.eval k a l elt ∈ (evaluated c it s2).2.trace →
          resolved_window params i starts stops out_indices k a l := by
        intro k a l elt hev
        rw [evaluated_trace, htr2, htr1] at hev
        simp only [List.mem_append, List.mem_singleton] at hev
        rcases hev with ((hev | hev) | hev) | hev
        · exact htr k a l elt hev
        · exact absurd hev (locate_events_not_eval params it locs1 hl1 k a l elt)
        · exact absurd hev (locate_events_not_eval params it locs2 hl2 k a l elt)
        · cases hev; exact hexact
      rw [hbody]
      constructor
      · intro s3 hsc
        obtain ⟨g, _, _, hs3, _⟩ := scatter_stage_ok _ _ _ _ _ _ _ hsc
        rw [hs3]
        refine ⟨?_, ?_, ?_, ?_, ?_⟩
        · intro hb
          simp only [evaluated, eval_stage]
          exact normalize_window_start_zero s2 (by rw [hwstart2]; exact hz1 hb)
        · intro ha
          simp only [evaluated, eval_stage]
          rw [hfull ha]
          exact hz2 ha
        · intro hb
          simp only [evaluated, eval_stage, normalize_window_last_start_position]
          rw [hps2]
          exact hc1 hb
        · intro ha
          simp only [evaluated, eval_stage, normalize_window_last_stop_position]
          exact hc2 ha
        · intro k a l elt hev
          simp only at hev
          rcases List.mem_append.1 hev with hev | hev
          · exact hnew k a l elt hev
          · obtain ⟨q, _, hq⟩ := List.mem_map.1 hev
            cases hq
      · intro e hsc
        rcases scatter_stage_error _ _ _ _ _ _ _ hsc with ⟨hg, h⟩ | ⟨_, _, h⟩
          | ⟨q, g0, h1, _, h2⟩
        · obtain ⟨g, hg1⟩ := vec_slice_impl_some out_indices it (by omega) (by omega)
          rw [hg1] at hg; cases hg
        · rw [h]
          exact ⟨Or.inl ⟨_, _, rfl⟩, hnew⟩
        · refine ⟨Or.inr ⟨q, h1⟩, ?_⟩
          intro k a l elt hev
          rw [h2] at hev
          rcases List.mem_append.1 hev with hev | hev
          · exact hnew k a l elt hev
          · obtain ⟨q, _, hq⟩ := List.mem_map.1 hev
            cases hq)
  exact ⟨fun s1 h => (this.1 s1 h).2.2.2.2, this.2⟩

/-- The iteration range keeps the iterations whose window can be resolved: on a bounded
before side the start boundary of an evaluated iteration is not after the last key, and on a
bounded after side its stop boundary is not before the first key. This holds when both
sides are bounded and no start is past its stop, when both sides are unbounded, and in
non-complete mode when one side is unbounded. -/
theorem iteration_bounds_resolvable (params : Params) (i starts stops : List Int)
    (hM : 1 ≤ i.length)
    (hstarts : params.before_unbounded = false →
      starts.length = i.length ∧ starts.Pairwise (fun a b => a ≤ b))
    (hstops : params.after_unbounded = false →
      stops.length = i.length ∧ stops.Pairwise (fun a b => a ≤ b))
    (hle : params.before_unbounded = false → params.after_unbounded = false →
      ∀ (k a b : Int), vec_slice_impl starts k = some a → vec_slice_impl stops k = some b → a ≤ b)
    (hmode : params.complete = true → params.before_unbounded = params.after_unbounded) :
    ∃ iteration_min iteration_max : Int,
      iteration_bounds params i starts stops = some (iteration_min, iteration_max)
      ∧ (params.before_unbounded = false → ∀ k b, iteration_min ≤ k → k ≤ iteration_max →
          vec_slice_impl starts k = some b → b ≤ i.getD (i.length - 1) 0)
      ∧ (params.after_unbounded = false → ∀ k b, iteration_min ≤ k → k ≤ iteration_max →
          vec_slice_impl stops k = some b → i.getD 0 0 ≤ b) := by
  cases hb : params.before_unbounded <;> cases ha : params.after_unbounded
  · -- both sides bounded
    obtain ⟨hl1, hs1⟩ := hstarts hb
    obtain ⟨hl2, hs2⟩ := hstops ha
    have hboth : ∀ (k : Int), 1 ≤ k → k ≤ i.length →
        ∃ a b, vec_slice_impl starts k = some a ∧ vec_slice_impl stops k = some b ∧ a ≤ b := by
      intro k h1 h2
      obtain ⟨a, h3⟩ := vec_slice_impl_some starts k h1 (by omega)
      obtain ⟨b, h4⟩ := vec_slice_impl_some stops k h1 (by omega)
      exact ⟨a, b, h3, h4, hle hb ha k a b h3 h4⟩
    cases hc : params.complete
    · obtain ⟨hib, hiff⟩ :=
        iteration_bounds_non_complete params i starts stops hM hl1 hl2 hs1 hs2 hc
      have hr := iteration_bounds_range params i starts stops _ _ hib
      refine ⟨_, _, hib, fun _ k b h1 h2 h3 => ?_, fun _ k b h1 h2 h3 => ?_⟩
      · obtain ⟨a1, b1, e1, e2, _⟩ := hboth k (by omega) (by omega)
        rw [e1] at h3; cases h3
        have := (hiff k _ _ e1 e2).1 ⟨h1, h2⟩
        simpa [hb, ha] using this.2
      · obtain ⟨a1, b1, e1, e2, _⟩ := hboth k (by omega) (by omega)
        rw [e2] at h3; cases h3
        have := (hiff k _ _ e1 e2).1 ⟨h1, h2⟩
        simpa [hb, ha] using this.1
    · obtain ⟨hib, hiff⟩ :=
        iteration_bounds_complete params i starts stops hM hl1 hl2 hs1 hs2 hc
      have hr := iteration_bounds_range params i starts stops _ _ hib
      refine ⟨_, _, hib, fun _ k b h1 h2 h3 => ?_, fun _ k b h1 h2 h3 => ?_⟩
      · obtain ⟨a1, b1, e1, e2, e3⟩ := hboth k (by omega) (by omega)
        rw [e1] at h3; cases h3
        have := (hiff k _ _ e1 e2).1 ⟨h1, h2⟩
        have h4 : b1 ≤ i.getD (i.length - 1) 0 := by simpa [hb, ha] using this.2
        omega
      · obtain ⟨a1, b1, e1, e2, e3⟩ := hboth k (by omega) (by omega)
        rw [e2] at h3; cases h3
        have := (hiff k _ _ e1 e2).1 ⟨h1, h2⟩
        have h4 : i.getD 0 0 ≤ a1 := by simpa [hb, ha] using this.1
        omega
  · -- the after side only is unbounded
    obtain ⟨hl1, hs1⟩ := hstarts hb
    have hc : params.complete = false := by
      cases hc : params.complete
      · rfl
      · have := hmode hc; rw [hb, ha] at this; cases this
    obtain ⟨hmax, hmax2⟩ := adjust_iteration_max_sorted starts i hM hl1 hs1
    refine ⟨1, (i.length : Int)
      - ((starts.countP (fun r => decide (r > i.getD (i.length - 1) 0)) : Nat) : Int),
      ?_, fun _ k b h1 h2 h3 => ?_, fun h => (by cases h)⟩
    · rw [iteration_bounds_eq, if_neg (by simp [hc]), hb, ha]
      simp only [Bool.false_eq_true, if_false, if_true, Option.some_bind, hmax]
    · obtain ⟨a1, a2, a3, a4⟩ := vec_slice_impl_getD_eq starts k b h3
      have := hmax2 _ a2
      rw [a3, a4] at this
      exact this.1 h2
  · -- the before side only is unbounded
    obtain ⟨hl2, hs2⟩ := hstops ha
    have hc : params.complete = false := by
      cases hc : params.complete
      · rfl
      · have := hmode hc; rw [hb, ha] at this; cases this
    obtain ⟨hmin, hmin2⟩ := adjust_iteration_min_sorted stops i hM hl2 hs2
    refine ⟨(1 : Int) + ((stops.countP (fun r => decide (r < i.getD 0 0)) : Nat) : Int),
      (i.length : Int), ?_, fun h => (by cases h), fun _ k b h1 h2 h3 => ?_⟩
    · rw [iteration_bounds_eq, if_neg (by simp [hc]), hb, ha]
      simp only [Bool.false_eq_true, if_false, if_true, Option.some_bind, hmin]
    · obtain ⟨a1, a2, a3, a4⟩ := vec_slice_impl_getD_eq stops k b h3
      have := hmin2 _ a2
      rw [a3, a4] at this
      exact this.1 h1
  · -- both sides unbounded
    refine ⟨1, (i.length : Int), ?_, fun h => (by cases h), fun h => (by cases h)⟩
    rw [iteration_bounds_eq, hb, ha]
    simp

/-- The windows of a run: under the conditions of `iteration_bounds_resolvable`, for groups
of positive sizes that sum to `size`, every slice handed to the evaluator is exact for its
iteration, which is in the iteration range, and anchored at the unbounded sides; the run fails in the scatter only; and a run
that returns has evaluated every iteration of the range. -/
theorem run_windows {V : Type} (c : Collaborators V) (i starts stops : List Int)
    (out_indices : List (List Nat)) (params : Params)
    (hM : 1 ≤ i.length) (hi : i.Pairwise (fun a b => a ≤ b))
    (hx : out_indices.length = i.length) (hpos : ∀ g ∈ out_indices, 0 < g.length)
    (hsize : (out_indices.map List.length).sum = params.size)
    (hstarts : params.before_unbounded = false →
      starts.length = i.length ∧ starts.Pairwise (fun a b => a ≤ b))
    (hstops : params.after_unbounded = false →
      stops.length = i.length ∧ stops.Pairwise (fun a b => a ≤ b))
    (hle : params.before_unbounded = false → params.after_unbounded = false →
      ∀ (k a b : Int), vec_slice_impl starts k = some a → vec_slice_impl stops k = some b → a ≤ b)
    (hmode : params.complete = true → params.before_unbounded = params.after_unbounded) :
    ∃ iteration_min iteration_max : Int,
      iteration_bounds params i starts stops = some (iteration_min, iteration_max)
      ∧ (∀ (k a l : Int) (elt : V),
          Event.eval k a l elt ∈ (slide_index_core_impl c i starts stops out_indices params).trace →
          iteration_min ≤ k ∧ k ≤ iteration_max ∧ 1 ≤ k ∧ k ≤ i.length
            ∧ resolved_window params i starts stops out_indices k a l)
      ∧ (∀ e tr, slide_index_core_impl c i starts stops out_indices params = .failed e tr →
          (∃ k n, e = .not_all_size_one k n) ∨ ∃ q, e = .assign_out_of_bounds q)
      ∧ (∀ out tr, slide_index_core_impl c i starts stops out_indices params = .returned out tr →
          ∀ k, iteration_min ≤ k → k ≤ iteration_max →
            ∃ (a l : Int) (elt : V), Event.eval k a l elt ∈ tr) := by
  obtain ⟨lo, hi1, hib, hlo, hhi⟩ :=
    iteration_bounds_resolvable params i starts stops hM hstarts hstops hle hmode
  obtain ⟨ws, we, hwt, _, _, hws, hwe⟩ := window_tables_eq out_indices i.length hM (by omega)
  have hr := iteration_bounds_range params i starts stops lo hi1 hib
  have hcheck : ¬ (params.before_unbounded = false ∧ params.after_unbounded = false
      ∧ vec_any_gt starts stops = true) := by
    rintro ⟨hb, ha, hgt⟩
    obtain ⟨k, a, b, h1, h2, h3⟩ := (vec_any_gt_iff starts stops).1 hgt
    have e1 : vec_slice_impl starts ((k : Int) + 1) = some a := by
      unfold vec_slice_impl
      rw [if_pos (by omega)]
      simpa using h1
    have e2 : vec_slice_impl stops ((k : Int) + 1) = some b := by
      unfold vec_slice_impl
      rw [if_pos (by omega)]
      simpa using h2
    have := hle hb ha _ a b e1 e2
    omega
  have hrun : slide_index_core_impl c i starts stops out_indices params =
      match slide_loop (iteration_body c params i starts stops out_indices ws we)
          (iterations lo hi1) (initial_state c params) with
      | .error e => .failed e.1 e.2
      | .ok st => .returned st.out st.trace := by
    rcases run_cases c i starts stops out_indices params with
      ⟨h1, h2, h3, _⟩ | ⟨_, ⟨h4, _⟩ | ⟨e, he, _⟩ | ⟨lo1, hi2, ws1, we1, hib1, hwt1, h4⟩⟩
    · exact absurd ⟨h1, h2, h3⟩ hcheck
    · rw [hib] at h4; cases h4
    · rw [hwt] at he; cases he
    · rw [hib] at hib1; cases hib1
      rw [hwt] at hwt1; cases hwt1
      exact h4
  have hwin := slide_loop_windows c params i starts stops out_indices ws we lo hi1 hM hi hx hpos
    hsize hstarts hstops hws hwe hr.1 hr.2 hlo hhi
  have htrace := slide_loop_trace c params i starts stops out_indices ws we lo hi1
  refine ⟨lo, hi1, hib, ?_, ?_, ?_⟩
  · intro k a l elt hev
    rw [hrun] at hev
    cases hl : slide_loop (iteration_body c params i starts stops out_indices ws we)
        (iterations lo hi1) (initial_state c params) with
    | error e =>
      rw [hl] at hev
      have h1 := htrace.2 e hl _ hev
      simp only [Event.iteration] at h1
      exact ⟨h1.1, h1.2, by omega, by omega, (hwin.2 e hl).2 k a l elt hev⟩
    | ok s =>
      rw [hl] at hev
      have h1 := (htrace.1 s hl).1 _ hev
      simp only [Event.iteration] at h1
      exact ⟨h1.1, h1.2, by omega, by omega, hwin.1 s hl k a l elt hev⟩
  · intro e tr hf
    rw [hrun] at hf
    cases hl : slide_loop (iteration_body c params i starts stops out_indices ws we)
        (iterations lo hi1) (initial_state c params) with
    | error e1 =>
      rw [hl] at hf
      simp only [Outcome.failed.injEq] at hf
      rw [← hf.1]
      exact (hwin.2 e1 hl).1
    | ok s => rw [hl] at hf; cases hf
  · intro out tr hret k h1 h2
    rw [hrun] at hret
    cases hl : slide_loop (iteration_body c params i starts stops out_indices ws we)
        (iterations lo hi1) (initial_state c params) with
    | error e1 => rw [hl] at hret; cases hret
    | ok s =>
      rw [hl] at hret
      simp only [Outcome.returned.injEq] at hret
      obtain ⟨a, l, hev, _⟩ := (htrace.1 s hl).2.1 k h1 h2
      exact ⟨a, l, _, by rw [← hret.2]; exact hev⟩

theorem group_key_mem (x : List (List Nat)) (i : List Int) (p : Nat) (key : Int)
    (hx : x.length = i.length) (h : group_key (x.map List.length) i p = some key) :
    key ∈ i := by
  obtain ⟨g, hg, _, _, e⟩ := (group_key_iff x i p key hx).1 h
  rw [← e, List.getD_eq_getElem _ _ hg]
  exact List.getElem_mem _

/-- C1. Window exactness with both sides bounded: for a non-decreasing key sequence of
length at least one, groups of positive sizes that sum to `size`, non-decreasing `starts`
and `stops` of the same length with no start past its stop, and either value of
`complete`, every slice `(window_start, window_size)` handed to the evaluator is handed in
an iteration `k` of the iteration range and holds exactly the 0-based data positions whose
group has its key in `[starts[k], stops[k]]`; its size is 0 when no key is in that range.
The run fails in the scatter only, and a run that returns has evaluated every iteration of
the range. -/
theorem window_exact_both_bounded {V : Type} (c : Collaborators V)
    (i starts stops : List Int) (out_indices : List (List Nat)) (params : Params)
    (hM : 1 ≤ i.length) (hi : i.Pairwise (fun a b => a ≤ b))
    (hx : out_indices.length = i.length) (hpos : ∀ g ∈ out_indices, 0 < g.length)
    (hsize : (out_indices.map List.length).sum = params.size)
    (hstarts : starts.length = i.length) (hstops : stops.length = i.length)
    (hss : starts.Pairwise (fun a b => a ≤ b)) (hes : stops.Pairwise (fun a b => a ≤ b))
    (hle : ∀ ab ∈ List.zip starts stops, ab.1 ≤ ab.2)
    (hb : params.before_unbounded = false) (ha : params.after_unbounded = false) :
    ∃ iteration_min iteration_max : Int,
      iteration_bounds params i starts stops = some (iteration_min, iteration_max)
      ∧ (∀ (k window_start window_size : Int) (elt : V),
          Event.eval k window_start window_size elt
            ∈ (slide_index_core_impl c i starts stops out_indices params).trace →
          iteration_min ≤ k ∧ k ≤ iteration_max ∧ 0 ≤ window_start ∧ 0 ≤ window_size
          ∧ ∃ a b, vec_slice_impl starts k = some a ∧ vec_slice_impl stops k = some b
            ∧ (∀ p : Nat, (window_start ≤ p ∧ (p : Int) < window_start + window_size)
                ↔ ∃ key, group_key (out_indices.map List.length) i p = some key
                    ∧ a ≤ key ∧ key ≤ b)
            ∧ ((∀ key ∈ i, ¬ (a ≤ key ∧ key ≤ b)) → window_size = 0))
      ∧ (∀ e tr, slide_index_core_impl c i starts stops out_indices params = .failed e tr →
          (∃ k n, e = .not_all_size_one k n) ∨ ∃ q, e = .assign_out_of_bounds q)
      ∧ (∀ out tr, slide_index_core_impl c i starts stops out_indices params = .returned out tr →
          ∀ k, iteration_min ≤ k → k ≤ iteration_max →
            ∃ (window_start window_size : Int) (elt : V),
              Event.eval k window_start window_size elt ∈ tr) := by
  obtain ⟨lo, hi1, hib, hev, hfail, hret⟩ := run_windows c i starts stops out_indices params
    hM hi hx hpos hsize (fun _ => ⟨hstarts, hss⟩) (fun _ => ⟨hstops, hes⟩)
    (by
      intro _ _ k a b h1 h2
      obtain ⟨_, _, e1⟩ := vec_slice_impl_eq starts k a h1
      obtain ⟨_, _, e2⟩ := vec_slice_impl_eq stops k b h2
      exact hle (a, b) (List.mem_iff_getElem?.2
        ⟨(k - 1).toNat, by rw [List.getElem?_zip_eq_some]; exact ⟨e1, e2⟩⟩))
    (by intro _; rw [hb, ha])
  refine ⟨lo, hi1, hib, ?_, hfail, hret⟩
  intro k a l elt h
  obtain ⟨h1, h2, h3, h4, ⟨h5, h6, h7⟩, _, _⟩ := hev k a l elt h
  obtain ⟨s, hs⟩ := vec_slice_impl_some starts k h3 (by omega)
  obtain ⟨e, he⟩ := vec_slice_impl_some stops k h3 (by omega)
  have hexact : ∀ p : Nat, (a ≤ p ∧ (p : Int) < a + l)
      ↔ ∃ key, group_key (out_indices.map List.length) i p = some key ∧ s ≤ key ∧ key ≤ e := by
    intro p
    rw [h7 p]
    constructor
    · rintro ⟨key, hk, hl, hu⟩
      refine ⟨key, hk, ?_, ?_⟩
      · rcases hl with hl | ⟨b1, hb1, hl⟩
        · rw [hb] at hl; cases hl
        · rw [hs] at hb1; cases hb1; exact hl
      · rcases hu with hu | ⟨b1, hb1, hu⟩
        · rw [ha] at hu; cases hu
        · rw [he] at hb1; cases hb1; exact hu
    · rintro ⟨key, hk, hl, hu⟩
      exact ⟨key, hk, Or.inr ⟨s, hs, hl⟩, Or.inr ⟨e, he, hu⟩⟩
  refine ⟨h1, h2, h5, h6, s, e, hs, he, hexact, ?_⟩
  intro hnone
  by_contra hne
  have hp := (hexact a.toNat).1 ⟨by omega, by omega⟩
  obtain ⟨key, hk, hl, hu⟩ := hp
  exact hnone key (group_key_mem out_indices i _ key hx hk) ⟨hl, hu⟩

/-- The claim C2 restricted to non-complete mode: with exactly one unbounded side and
`complete` off, every slice handed to the evaluator starts at position 0 and holds the
positions whose group key is not after `stops[k]` (before side unbounded), or ends at
position `size - 1` and holds the positions whose group key is not before `starts[k]`
(after side unbounded). -/
theorem one_side_unbounded_non_complete {V : Type} (c : Collaborators V)
    (i starts stops : List Int) (out_indices : List (List Nat)) (params : Params)
    (hM : 1 ≤ i.length) (hi : i.Pairwise (fun a b => a ≤ b))
    (hx : out_indices.length = i.length) (hpos : ∀ g ∈ out_indices, 0 < g.length)
    (hsize : (out_indices.map List.length).sum = params.size)
    (hstarts : params.before_unbounded = false →
      starts.length = i.length ∧ starts.Pairwise (fun a b => a ≤ b))
    (hstops : params.after_unbounded = false →
      stops.length = i.length ∧ stops.Pairwise (fun a b => a ≤ b))
    (hone : params.before_unbounded ≠ params.after_unbounded)
    (hc : params.complete = false) :
    ∃ iteration_min iteration_max : Int,
      iteration_bounds params i starts stops = some (iteration_min, iteration_max)
      ∧ (∀ (k window_start window_size : Int) (elt : V),
          Event.eval k window_start window_size elt
            ∈ (slide_index_core_impl c i starts stops out_indices params).trace →
          iteration_min ≤ k ∧ k ≤ iteration_max ∧ 0 ≤ window_size
          ∧ (params.before_unbounded = true → window_start = 0
              ∧ ∃ b, vec_slice_impl stops k = some b
                ∧ ∀ p : Nat, (window_start ≤ p ∧ (p : Int) < window_start + window_size)
                    ↔ ∃ key, group_key (out_indices.map List.length) i p = some key ∧ key ≤ b)
          ∧ (params.after_unbounded = true → window_start + window_size = params.size
              ∧ ∃ a, vec_slice_impl starts k = some a
                ∧ ∀ p : Nat, (window_start ≤ p ∧ (p : Int) < window_start + window_size)
                    ↔ ∃ key, group_key (out_indices.map List.length) i p = some key ∧ a ≤ key))
      ∧ (∀ e tr, slide_index_core_impl c i starts stops out_indices params = .failed e tr →
          (∃ k n, e = .not_all_size_one k n) ∨ ∃ q, e = .assign_out_of_bounds q)
      ∧ (∀ out tr, slide_index_core_impl c i starts stops out_indices params = .returned out tr →
          ∀ k, iteration_min ≤ k → k ≤ iteration_max →
            ∃ (window_start window_size : Int) (elt : V),
              Event.eval k window_start window_size elt ∈ tr) := by
  obtain ⟨lo, hi1, hib, hev, hfail, hret⟩ := run_windows c i starts stops out_indices params
    hM hi hx hpos hsize hstarts hstops
    (by intro hb ha; rw [hb, ha] at hone; exact absurd rfl hone)
    (by intro h; rw [hc] at h; cases h)
  refine ⟨lo, hi1, hib, ?_, hfail, hret⟩
  intro k a l elt h
  obtain ⟨h1, h2, h3, h4, ⟨h5, h6, h7⟩, h8, h9⟩ := hev k a l elt h
  refine ⟨h1, h2, h6, ?_, ?_⟩
  · intro hb
    have ha : params.after_unbounded = false := by
      cases ha : params.after_unbounded
      · rfl
      · rw [hb, ha] at hone; exact absurd rfl hone
    obtain ⟨e, he⟩ := vec_slice_impl_some stops k h3 (by rw [(hstops ha).1]; omega)
    refine ⟨h8 hb, e, he, ?_⟩
    intro p
    rw [h7 p]
    constructor
    · rintro ⟨key, hk, _, hu⟩
      refine ⟨key, hk, ?_⟩
      rcases hu with hu | ⟨b1, hb1, hu⟩
      · rw [ha] at hu; cases hu
      · rw [he] at hb1; cases hb1; exact hu
    · rintro ⟨key, hk, hu⟩
      exact ⟨key, hk, Or.inl hb, Or.inr ⟨e, he, hu⟩⟩
  · intro ha
    have hb : params.before_unbounded = false := by
      cases hb : params.before_unbounded
      · rfl
      · rw [hb, ha] at hone; exact absurd rfl hone
    obtain ⟨s, hs⟩ := vec_slice_impl_some starts k h3 (by rw [(hstarts hb).1]; omega)
    refine ⟨h9 ha, s, hs, ?_⟩
    intro p
    rw [h7 p]
    constructor
    · rintro ⟨key, hk, hl, _⟩
      refine ⟨key, hk, ?_⟩
      rcases hl with hl | ⟨b1, hb1, hl⟩
      · rw [hb] at hl; cases hl
      · rw [hs] at hb1; cases hb1; exact hl
    · rintro ⟨key, hk, hl⟩
      exact ⟨key, hk, Or.inr ⟨s, hs, hl⟩, Or.inl ha⟩

/-- C1 at the keys `1 .. 5` with groups of one row, `starts` all 1 and `stops = 1 .. 5`:
the window of iteration `k` is `[0, k - 1]`, an expanding window. -/
theorem window_exact_both_bounded_witness :
    (slide_index_core_impl example_collaborators [1, 2, 3, 4, 5] [1, 1, 1, 1, 1]
        [1, 2, 3, 4, 5] [[1], [2], [3], [4], [5]]
        { complete := false, before_unbounded := false, after_unbounded := false,
          constrain := false, size := 5 }).windows
      = [(1, 0, 1), (2, 0, 2), (3, 0, 3), (4, 0, 4), (5, 0, 5)]
    ∧ ∃ iteration_min iteration_max : Int,
      iteration_bounds
          { complete := false, before_unbounded := false, after_unbounded := false,
            constrain := false, size := 5 }
          [1, 2, 3, 4, 5] [1, 1, 1, 1, 1] [1, 2, 3, 4, 5]
        = some (iteration_min, iteration_max)
      ∧ (∀ (k window_start window_size : Int) (elt : List Int),
          Event.eval k window_start window_size elt
            ∈ (slide_index_core_impl example_collaborators [1, 2, 3, 4, 5] [1, 1, 1, 1, 1]
                [1, 2, 3, 4, 5] [[1], [2], [3], [4], [5]]
                { complete := false, before_unbounded := false, after_unbounded := false,
                  constrain := false, size := 5 }).trace →
          iteration_min ≤ k ∧ k ≤ iteration_max ∧ 0 ≤ window_start ∧ 0 ≤ window_size
          ∧ ∃ a b, vec_slice_impl [1, 1, 1, 1, 1] k = some a
            ∧ vec_slice_impl [1, 2, 3, 4, 5] k = some b
            ∧ (∀ p : Nat, (window_start ≤ p ∧ (p : Int) < window_start + window_size)
                ↔ ∃ key, group_key ([[1], [2], [3], [4], [5]].map List.length)
                      [1, 2, 3, 4, 5] p = some key
                    ∧ a ≤ key ∧ key ≤ b)
            ∧ ((∀ key ∈ ([1, 2, 3, 4, 5] : List Int), ¬ (a ≤ key ∧ key ≤ b)) →
                window_size = 0)) :=
  ⟨by decide,
    match window_exact_both_bounded example_collaborators [1, 2, 3, 4, 5] [1, 1, 1, 1, 1]
        [1, 2, 3, 4, 5] [[1], [2], [3], [4], [5]]
        { complete := false, before_unbounded := false, after_unbounded := false,
          constrain := false, size := 5 }
        (by decide) (by decide) (by decide) (by decide) (by decide) (by decide) (by decide)
        (by decide) (by decide) (by decide) rfl rfl with
    | ⟨lo, hi, h1, h2, _, _⟩ => ⟨lo, hi, h1, h2⟩⟩

/-- C2 is violated in complete mode. With the before side unbounded, the keys `[1, 2, 3]`
and `stops = [0, 1, 2]`, iteration 1 is evaluated although no key is at or before its stop
boundary 0: `locate_window_stop_index` returns -1 and `window_stops[-1]` is read, outside
of the array, where an empty slice is due. With the after side unbounded, the keys
`[1, 2, 3]` and `starts = [1, 2, 4]`, iteration 3 is evaluated on the last position
although its key 3 is before the start boundary 4. -/
theorem one_side_unbounded_complete_mode :
    slide_index_core_impl example_collaborators [1, 2, 3] [1, 2, 3] [0, 1, 2]
        [[1], [2], [3]]
        { complete := true, before_unbounded := true, after_unbounded := false,
          constrain := false, size := 3 }
      = .failed (.span_index_out_of_bounds (-1)) [Event.locate_stop 1 0]
    ∧ iteration_bounds
        { complete := true, before_unbounded := true, after_unbounded := false,
          constrain := false, size := 3 }
        [1, 2, 3] [1, 2, 3] [0, 1, 2] = some (1, 3)
    ∧ locate_window_stop_index [1, 2, 3] 0 3 1 = some (-1, 1)
    ∧ (slide_index_core_impl example_collaborators [1, 2, 3] [1, 2, 4] [1, 2, 3]
        [[1], [2], [3]]
        { complete := true, before_unbounded := false, after_unbounded := true,
          constrain := false, size := 3 }).windows
      = [(1, 0, 3), (2, 1, 2), (3, 2, 1)]
    ∧ group_key ([[1], [2], [3]].map List.length) [1, 2, 3] 2 = some 3 := by
  decide

/-! ## The two cursors, one call at a time -/

theorem getD_mem_take (i : List Int) (n g : Nat) (hg : g < n) (hl : g < i.length) :
    i.getD g 0 ∈ i.take n := by
  rw [List.getD_eq_getElem _ _ hl]
  have h1 : g < (i.take n).length := by simp; omega
  have h2 : (i.take n)[g] = i[g] := by simp
  rw [← h2]
  exact List.getElem_mem h1

theorem getD_mem (i : List Int) (g : Nat) (hl : g < i.length) : i.getD g 0 ∈ i := by
  rw [List.getD_eq_getElem _ _ hl]
  exact List.getElem_mem hl

theorem getElem?_getD (i : List Int) (g : Nat) (hl : g < i.length) :
    i[g]? = some (i.getD g 0) := by
  rw [List.getD_eq_getElem _ _ hl, List.getElem?_eq_getElem hl]

theorem getD_of_getElem? (i : List Int) (g : Nat) (key : Int) (h : i[g]? = some key) :
    i.getD g 0 = key := by
  simp [List.getD_eq_getElem?_getD, h]

theorem mem_getD (i : List Int) (key : Int) (h : key ∈ i) :
    ∃ g, g < i.length ∧ i.getD g 0 = key := by
  obtain ⟨g, hg, he⟩ := List.getElem_of_mem h
  exact ⟨g, hg, by rw [List.getD_eq_getElem _ _ hg, he]⟩

/-- C13. From a cursor `p0` in `1 .. M` with every key before it below the boundary `b`
(in particular from the initial cursor 1), `locate_window_start_index` returns the 0-based
index `r` of the first group whose key is `≥ b` when there is one, and `M - 1` when every
key is below `b`; in both cases `r` is the cursor it leaves behind minus 1. -/
theorem start_cursor_result (i : List Int) (b : Int) (p0 : Nat)
    (hp1 : 1 ≤ p0) (hp2 : p0 ≤ i.length)
    (hbefore : ∀ key ∈ i.take (p0 - 1), key < b) :
    ∃ (r p1 : Nat), locate_window_start_index i b i.length p0 = some ((r : Int), p1)
      ∧ r + 1 = p1 ∧ p0 ≤ p1 ∧ p1 ≤ i.length
      ∧ ((∃ key ∈ i, b ≤ key) →
          (∃ key, i[r]? = some key ∧ b ≤ key) ∧ ∀ g key, g < r → i[g]? = some key → key < b)
      ∧ ((∀ key ∈ i, key < b) → r = i.length - 1) := by
  obtain ⟨p1, h1, h2, h3, h4, h5⟩ := locate_start_spec i b p0 hp1 hp2
  have hlow : ∀ q, 1 ≤ q → q < p1 → i.getD (q - 1) 0 < b := by
    intro q hq1 hq2
    by_cases hq : q < p0
    · exact hbefore _ (getD_mem_take i (p0 - 1) (q - 1) (by omega) (by omega))
    · exact h4 q (by omega) hq2
  have hcast : (((p1 - 1 : Nat) : Int)) = (p1 : Int) - 1 := by omega
  refine ⟨p1 - 1, p1, by rw [h1, hcast], by omega, h2, h3, ?_, ?_⟩
  · rintro ⟨key, hkey, hb⟩
    have hhit : b ≤ i.getD (p1 - 1) 0 := by
      rcases h5 with h5 | ⟨h5, h6⟩
      · exact h5
      · exfalso
        obtain ⟨g, hg, he⟩ := mem_getD i key hkey
        by_cases hgl : g + 1 < p1
        · have := hlow (g + 1) (by omega) hgl
          simp only [Nat.add_sub_cancel] at this
          omega
        · have hg1 : g = p1 - 1 := by omega
          subst hg1
          omega
    refine ⟨⟨_, getElem?_getD i (p1 - 1) (by omega), hhit⟩, ?_⟩
    intro g k hg hk
    have := hlow (g + 1) (by omega) (by omega)
    simp only [Nat.add_sub_cancel] at this
    rw [getD_of_getElem? i g k hk] at this
    exact this
  · intro hall
    rcases h5 with h5 | ⟨h5, _⟩
    · have := hall _ (getD_mem i (p1 - 1) (by omega))
      omega
    · omega

theorem start_cursor_result_witness :
    locate_window_start_index [1, 3, 3, 7] 3 4 2 = some (1, 2) ∧
    ∃ (r p1 : Nat), locate_window_start_index [1, 3, 3, 7] 3 4 2 = some ((r : Int), p1)
      ∧ r + 1 = p1 ∧ 2 ≤ p1 ∧ p1 ≤ 4
      ∧ ((∃ key ∈ [1, 3, 3, 7], (3 : Int) ≤ key) →
          (∃ key, ([1, 3, 3, 7] : List Int)[r]? = some key ∧ 3 ≤ key)
            ∧ ∀ g key, g < r → ([1, 3, 3, 7] : List Int)[g]? = some key → key < 3)
      ∧ ((∀ key ∈ [1, 3, 3, 7], key < (3 : Int)) → r = 4 - 1) :=
  ⟨by decide, start_cursor_result [1, 3, 3, 7] 3 2 (by decide) (by decide) (by decide)⟩

/-- C14. For non-decreasing keys with at least one key `≤ b`, from a cursor `p0` in `1 .. M`
with every key before it `≤ b` (in particular from the initial cursor 1),
`locate_window_stop_index` returns the 0-based index `r` of the last group whose key is
`≤ b`: `i[r] ≤ b`, and `r = M - 1` or `i[r + 1] > b`, and every later key is above `b`.
When every key is `≤ b` it returns `M - 1` with the cursor at `M`; otherwise it returns the
cursor it leaves behind minus 2. -/
theorem stop_cursor_result (i : List Int) (b : Int) (p0 : Nat)
    (hi : i.Pairwise (fun a c => a ≤ c))
    (hp1 : 1 ≤ p0) (hp2 : p0 ≤ i.length)
    (hsome : ∃ key ∈ i, key ≤ b)
    (hbefore : ∀ key ∈ i.take (p0 - 1), key ≤ b) :
    ∃ (r p1 : Nat), locate_window_stop_index i b i.length p0 = some ((r : Int), p1)
      ∧ p0 ≤ p1 ∧ p1 ≤ i.length ∧ r < i.length
      ∧ (∃ key, i[r]? = some key ∧ key ≤ b)
      ∧ (r = i.length - 1 ∨ ∃ key, i[r + 1]? = some key ∧ b < key)
      ∧ (∀ g key, r < g → i[g]? = some key → b < key)
      ∧ ((∀ key ∈ i, key ≤ b) → r = i.length - 1 ∧ p1 = i.length)
      ∧ ((∃ key ∈ i, b < key) → r + 2 = p1) := by
  obtain ⟨idx, p1, h1, h2, h3, h4, h5⟩ := locate_stop_spec i b p0 hp1 hp2
  have hlow : ∀ q, 1 ≤ q → q < p1 → i.getD (q - 1) 0 ≤ b := by
    intro q hq1 hq2
    by_cases hq : q < p0
    · exact hbefore _ (getD_mem_take i (p0 - 1) (q - 1) (by omega) (by omega))
    · exact h4 q (by omega) hq2
  have hfirst : i.getD 0 0 ≤ b := by
    obtain ⟨key, hkey, hb⟩ := hsome
    obtain ⟨g, hg, he⟩ := mem_getD i key hkey
    have := sorted_getD i hi 0 g (by omega) hg
    omega
  rcases h5 with ⟨h5, h6⟩ | ⟨h5, h6, h7⟩
  · have hp : 2 ≤ p1 := by
      by_contra hcon
      have hp : p1 = 1 := by omega
      subst hp
      simp only [Nat.sub_self] at h5
      omega
    have hcast : (((p1 - 2 : Nat) : Int)) = (p1 : Int) - 2 := by omega
    have hr := hlow (p1 - 1) (by omega) (by omega)
    have hr2 : p1 - 1 - 1 = p1 - 2 := by omega
    rw [hr2] at hr
    have hnext : i[p1 - 2 + 1]? = some (i.getD (p1 - 1) 0) := by
      have : p1 - 2 + 1 = p1 - 1 := by omega
      rw [this]
      exact getElem?_getD i (p1 - 1) (by omega)
    refine ⟨p1 - 2, p1, by rw [h1, h6, hcast], h2, h3, by omega,
      ⟨_, getElem?_getD i (p1 - 2) (by omega), hr⟩, Or.inr ⟨_, hnext, h5⟩, ?_, ?_,
      fun _ => by omega⟩
    · intro g key hg hk
      have hgl : g < i.length := by
        by_contra hcon
        rw [List.getElem?_eq_none (by omega)] at hk
        cases hk
      have := sorted_getD i hi (p1 - 1) g (by omega) hgl
      rw [getD_of_getElem? i g key hk] at this
      omega
    · intro hall
      have := hall _ (getD_mem i (p1 - 1) (by omega))
      omega
  · have hcast : (((i.length - 1 : Nat) : Int)) = (i.length : Int) - 1 := by omega
    refine ⟨i.length - 1, p1, by rw [h1, h7, hcast], h2, h3, by omega,
      ⟨_, getElem?_getD i (i.length - 1) (by omega), by rw [← h5]; exact h6⟩, Or.inl rfl,
      ?_, fun _ => ⟨rfl, h5⟩, ?_⟩
    · intro g key hg hk
      exfalso
      rw [List.getElem?_eq_none (by omega)] at hk
      cases hk
    · rintro ⟨key, hkey, hb⟩
      exfalso
      obtain ⟨g, hg, he⟩ := mem_getD i key hkey
      have := sorted_getD i hi g (p1 - 1) (by omega) (by omega)
      omega

theorem stop_cursor_result_witness :
    locate_window_stop_index [1, 3, 3, 7] 3 4 2 = some (2, 4) ∧
    ∃ (r p1 : Nat), locate_window_stop_index [1, 3, 3, 7] 3 4 2 = some ((r : Int), p1)
      ∧ 2 ≤ p1 ∧ p1 ≤ 4 ∧ r < 4
      ∧ (∃ key, ([1, 3, 3, 7] : List Int)[r]? = some key ∧ key ≤ 3)
      ∧ (r = 4 - 1 ∨ ∃ key, ([1, 3, 3, 7] : List Int)[r + 1]? = some key ∧ 3 < key)
      ∧ (∀ g key, r < g → ([1, 3, 3, 7] : List Int)[g]? = some key → 3 < key)
      ∧ ((∀ key ∈ [1, 3, 3, 7], key ≤ (3 : Int)) → r = 4 - 1 ∧ p1 = 4)
      ∧ ((∃ key ∈ [1, 3, 3, 7], (3 : Int) < key) → r + 2 = p1) :=
  ⟨by decide, stop_cursor_result [1, 3, 3, 7] 3 2 (by decide) (by decide) (by decide)
    (by decide) (by decide)⟩

/-! ## The cursors over a whole run -/

theorem start_advances_spec (start : Int) (size : Nat) :
    ∀ (l : List Int) (p : Nat) (idx : Int) (p1 : Nat),
      locate_window_start_scan start size l p = some (idx, p1) →
      locate_window_start_advances start size l p + p = p1 := by
  intro l
  induction l with
  | nil => intro p idx p1 h; cases h
  | cons a rest ih =>
    intro p idx p1 h
    simp only [locate_window_start_scan] at h
    simp only [locate_window_start_advances]
    split at h
    · next hlt =>
      rw [if_pos hlt]
      split at h
      · next hp =>
        rw [if_pos hp]
        simp only [Option.some.injEq, Prod.mk.injEq] at h
        omega
      · next hp =>
        rw [if_neg hp]
        have := ih (p + 1) idx p1 h
        omega
    · next hlt =>
      rw [if_neg hlt]
      simp only [Option.some.injEq, Prod.mk.injEq] at h
      omega

theorem stop_advances_spec (stop : Int) (size : Nat) :
    ∀ (l : List Int) (p : Nat) (idx : Int) (p1 : Nat),
      locate_window_stop_scan stop size l p = some (idx, p1) →
      locate_window_stop_advances stop size l p + p = p1 := by
  intro l
  induction l with
  | nil => intro p idx p1 h; cases h
  | cons a rest ih =>
    intro p idx p1 h
    simp only [locate_window_stop_scan] at h
    simp only [locate_window_stop_advances]
    split at h
    · next hlt =>
      rw [if_pos hlt]
      split at h
      · next hp =>
        rw [if_pos hp]
        simp only [Option.some.injEq, Prod.mk.injEq] at h
        omega
      · next hp =>
        rw [if_neg hp]
        have := ih (p + 1) idx p1 h
        omega
    · next hlt =>
      rw [if_neg hlt]
      simp only [Option.some.injEq, Prod.mk.injEq] at h
      omega

/-- One call of `locate_window_start_index` from a cursor inside `1 .. M`: it returns, the
cursor does not move back and stays inside `1 .. M`, and the number of advances is the
distance it moved. -/
theorem start_call_spec (i : List Int) (b : Int) (p : Nat) (hp1 : 1 ≤ p) (hp2 : p ≤ i.length) :
    ∃ (idx : Int) (p1 : Nat), locate_window_start_index i b i.length p = some (idx, p1)
      ∧ p ≤ p1 ∧ p1 ≤ i.length ∧ 0 ≤ idx ∧ idx ≤ (i.length : Int) - 1
      ∧ locate_window_start_advances b i.length (i.drop (p - 1)) p + p = p1 := by
  obtain ⟨p1, h1, h2, h3, _, _⟩ := locate_start_spec i b p hp1 hp2
  refine ⟨_, p1, h1, h2, h3, by omega, by omega, ?_⟩
  unfold locate_window_start_index at h1
  rw [if_neg (by omega)] at h1
  exact start_advances_spec b i.length _ p _ p1 h1

/-- One call of `locate_window_stop_index` from a cursor inside `1 .. M`: it returns, the
cursor does not move back and stays inside `1 .. M`, and the number of advances is the
distance it moved. -/
theorem stop_call_spec (i : List Int) (b : Int) (p : Nat) (hp1 : 1 ≤ p) (hp2 : p ≤ i.length) :
    ∃ (idx : Int) (p1 : Nat), locate_window_stop_index i b i.length p = some (idx, p1)
      ∧ p ≤ p1 ∧ p1 ≤ i.length ∧ -1 ≤ idx ∧ idx ≤ (i.length : Int) - 1
      ∧ locate_window_stop_advances b i.length (i.drop (p - 1)) p + p = p1 := by
  obtain ⟨idx, p1, h1, h2, h3, _, h5⟩ := locate_stop_spec i b p hp1 hp2
  refine ⟨idx, p1, h1, h2, h3, by omega, by omega, ?_⟩
  unfold locate_window_stop_index at h1
  rw [if_neg (by omega)] at h1
  exact stop_advances_spec b i.length _ p _ p1 h1

theorem start_cursor_run_spec (i : List Int) :
    ∀ (bs : List Int) (p : Nat), 1 ≤ p → p ≤ i.length →
      ∃ (ps : List Nat) (n : Nat), start_cursor_run i i.length bs p = some (ps, n)
        ∧ ps.length = bs.length ∧ List.Chain (fun a b => a ≤ b) p ps
        ∧ (∀ q ∈ ps, q ≤ i.length) ∧ n + p ≤ i.length := by
  intro bs
  induction bs with
  | nil =>
    intro p _ hp2
    exact ⟨[], 0, rfl, rfl, List.Chain.nil, fun q hq => (by cases hq), by omega⟩
  | cons b bs ih =>
    intro p hp1 hp2
    obtain ⟨idx, p1, h1, h2, h3, _, _, h6⟩ := start_call_spec i b p hp1 hp2
    obtain ⟨ps, n, e1, e2, e3, e4, e5⟩ := ih p1 (by omega) h3
    refine ⟨p1 :: ps, locate_window_start_advances b i.length (i.drop (p - 1)) p + n, ?_,
      by simp [e2], List.Chain.cons h2 e3, ?_, by omega⟩
    · simp only [start_cursor_run, h1, e1]
    · intro q hq
      rcases List.mem_cons.1 hq with rfl | hq
      · exact h3
      · exact e4 q hq

theorem stop_cursor_run_spec (i : List Int) :
    ∀ (bs : List Int) (p : Nat), 1 ≤ p → p ≤ i.length →
      ∃ (ps : List Nat) (n : Nat), stop_cursor_run i i.length bs p = some (ps, n)
        ∧ ps.length = bs.length ∧ List.Chain (fun a b => a ≤ b) p ps
        ∧ (∀ q ∈ ps, q ≤ i.length) ∧ n + p ≤ i.length := by
  intro bs
  induction bs with
  | nil =>
    intro p _ hp2
    exact ⟨[], 0, rfl, rfl, List.Chain.nil, fun q hq => (by cases hq), by omega⟩
  | cons b bs ih =>
    intro p hp1 hp2
    obtain ⟨idx, p1, h1, h2, h3, _, _, h6⟩ := stop_call_spec i b p hp1 hp2
    obtain ⟨ps, n, e1, e2, e3, e4, e5⟩ := ih p1 (by omega) h3
    refine ⟨p1 :: ps, locate_window_stop_advances b i.length (i.drop (p - 1)) p + n, ?_,
      by simp [e2], List.Chain.cons h2 e3, ?_, by omega⟩
    · simp only [stop_cursor_run, h1, e1]
    · intro q hq
      rcases List.mem_cons.1 hq with rfl | hq
      · exact h3
      · exact e4 q hq

theorem start_stage_cursors {V : Type} (params : Params) (i starts ws : List Int)
    (it : Int) (st s1 : LoopState V)
    (hp1 : 1 ≤ st.last_start_position) (hp2 : st.last_start_position ≤ i.length)
    (h : window_start_stage params i starts ws it st = .ok s1) :
    st.last_start_position ≤ s1.last_start_position ∧ s1.last_start_position ≤ i.length
      ∧ s1.last_stop_position = st.last_stop_position := by
  rcases window_start_stage_ok _ _ _ _ _ _ _ h with ⟨_, rfl⟩ | ⟨_, b, idx, v, p1, _, h2, _, rfl⟩
  · exact ⟨le_refl _, hp2, rfl⟩
  · obtain ⟨idx1, p2, e1, e2, e3, _⟩ := start_call_spec i b st.last_start_position hp1 hp2
    rw [e1] at h2
    simp only [Option.some.injEq, Prod.mk.injEq] at h2
    exact ⟨by simp only; omega, by simp only; omega, rfl⟩

theorem stop_stage_cursors {V : Type} (params : Params) (i stops we : List Int)
    (it : Int) (st s1 : LoopState V)
    (hp1 : 1 ≤ st.last_stop_position) (hp2 : st.last_stop_position ≤ i.length)
    (h : window_stop_stage params i stops we it st = .ok s1) :
    st.last_stop_position ≤ s1.last_stop_position ∧ s1.last_stop_position ≤ i.length
      ∧ s1.last_start_position = st.last_start_position := by
  rcases window_stop_stage_ok _ _ _ _ _ _ _ h with ⟨_, rfl⟩ | ⟨_, b, idx, v, p1, _, h2, _, rfl⟩
  · exact ⟨le_refl _, hp2, rfl⟩
  · obtain ⟨idx1, p2, e1, e2, e3, _⟩ := stop_call_spec i b st.last_stop_position hp1 hp2
    rw [e1] at h2
    simp only [Option.some.injEq, Prod.mk.injEq] at h2
    exact ⟨by simp only; omega, by simp only; omega, rfl⟩

/-- The state one iteration leaves: the cursors and the window are those of the state after
the two look-ups, adjusted for an empty window. -/
theorem iteration_body_state {V : Type} (c : Collaborators V) (params : Params)
    (i starts stops : List Int) (out_indices : List (List Nat)) (ws we : List Int)
    (it : Int) (st s3 : LoopState V)
    (h : iteration_body c params i starts stops out_indices ws we it st = .ok s3) :
    ∃ s1 s2, window_start_stage params i starts ws it st = .ok s1
      ∧ window_stop_stage params i stops we it s1 = .ok s2
      ∧ s3.last_start_position = s2.last_start_position
      ∧ s3.last_stop_position = s2.last_stop_position
      ∧ s3.window_start = (normalize_window s2).window_start
      ∧ s3.window_stop = (normalize_window s2).window_stop := by
  rcases iteration_body_cases c params i starts stops out_indices ws we it st with
    ⟨e1, locs, hb, _, hk⟩ | ⟨s1, s2, locs, h1, h2, _, ht, hl, ⟨_, hb⟩ | ⟨_, _, hb⟩
      | ⟨q, g0, _, hb⟩ | ⟨g, hg, hs, hq, hb⟩⟩
  · rw [hb] at h; cases h
  · rw [hb] at h; cases h
  · rw [hb] at h; cases h
  · rw [hb] at h; cases h
  · rw [hb] at h
    cases h
    exact ⟨s1, s2, h1, h2, by simp [evaluated, eval_stage], by simp [evaluated, eval_stage],
      by simp [evaluated, eval_stage], by simp [evaluated, eval_stage]⟩

theorem iteration_body_cursors {V : Type} (c : Collaborators V) (params : Params)
    (i starts stops : List Int) (out_indices : List (List Nat)) (ws we : List Int)
    (it : Int) (st s3 : LoopState V)
    (hp1 : 1 ≤ st.last_start_position) (hp2 : st.last_start_position ≤ i.length)
    (hq1 : 1 ≤ st.last_stop_position) (hq2 : st.last_stop_position ≤ i.length)
    (h : iteration_body c params i starts stops out_indices ws we it st = .ok s3) :
    st.last_start_position ≤ s3.last_start_position ∧ s3.last_start_position ≤ i.length
      ∧ st.last_stop_position ≤ s3.last_stop_position
      ∧ s3.last_stop_position ≤ i.length := by
  obtain ⟨s1, s2, h1, h2, e1, e2, _, _⟩ :=
    iteration_body_state c params i starts stops out_indices ws we it st s3 h
  obtain ⟨a1, a2, a3⟩ := start_stage_cursors params i starts ws it st s1 hp1 hp2 h1
  obtain ⟨b1, b2, b3⟩ := stop_stage_cursors params i stops we it s1 s2
    (by omega) (by omega) h2
  omega

/-- The cursors of every state the loop reaches are inside `1 .. M`. -/
theorem slide_loop_cursor_range {V : Type} (c : Collaborators V) (params : Params)
    (i starts stops : List Int) (out_indices : List (List Nat)) (ws we : List Int)
    (iteration_min iteration_max : Int) (hM : 1 ≤ i.length) (s1 : LoopState V)
    (h : slide_loop (iteration_body c params i starts stops out_indices ws we)
        (iterations iteration_min iteration_max) (initial_state c params) = .ok s1) :
    1 ≤ s1.last_start_position ∧ s1.last_start_position ≤ i.length
      ∧ 1 ≤ s1.last_stop_position ∧ s1.last_stop_position ≤ i.length := by
  have := slide_loop_iterations (iteration_body c params i starts stops out_indices ws we)
    (fun _ st => 1 ≤ st.last_start_position ∧ st.last_start_position ≤ i.length
      ∧ 1 ≤ st.last_stop_position ∧ st.last_stop_position ≤ i.length)
    (fun _ => True) iteration_min iteration_max (initial_state c params)
    ⟨le_refl _, hM, le_refl _, hM⟩
    (by
      intro it st _ _ ⟨a1, a2, a3, a4⟩
      refine ⟨fun s3 hs3 => ?_, fun _ _ => trivial⟩
      have := iteration_body_cursors c params i starts stops out_indices ws we it st s3
        a1 a2 a3 a4 hs3
      omega)
  exact this.1 s1 h

/-- C15. For keys of length `M ≥ 1` and any boundary values, sorted or not: every call of
`locate_window_start_index` / `locate_window_stop_index` from a cursor inside `1 .. M`
returns, leaves the cursor not before where it was and inside `1 .. M`, and advances it as
many times as the distance moved; over any sequence of calls on a carried cursor that
starts at 1 the positions never decrease, stay inside `1 .. M`, and the advances total at
most `M - 1` on each side; and in a run, every state in which the loop enters an iteration
has both cursors inside `1 .. M`, and the iteration does not move either of them back. -/
theorem cursors_monotone_linear_work {V : Type} (c : Collaborators V) (params : Params)
    (i starts stops : List Int) (out_indices : List (List Nat)) (ws we : List Int)
    (iteration_min : Int) (hM : 1 ≤ i.length) :
    (∀ (b : Int) (p : Nat), 1 ≤ p → p ≤ i.length →
      ∃ (idx : Int) (p1 : Nat), locate_window_start_index i b i.length p = some (idx, p1)
        ∧ p ≤ p1 ∧ p1 ≤ i.length
        ∧ locate_window_start_advances b i.length (i.drop (p - 1)) p + p = p1)
    ∧ (∀ (b : Int) (p : Nat), 1 ≤ p → p ≤ i.length →
      ∃ (idx : Int) (p1 : Nat), locate_window_stop_index i b i.length p = some (idx, p1)
        ∧ p ≤ p1 ∧ p1 ≤ i.length
        ∧ locate_window_stop_advances b i.length (i.drop (p - 1)) p + p = p1)
    ∧ (∃ (ps : List Nat) (n : Nat), start_cursor_run i i.length starts 1 = some (ps, n)
        ∧ ps.length = starts.length ∧ List.Chain (fun a b => a ≤ b) 1 ps
        ∧ (∀ q ∈ ps, q ≤ i.length) ∧ n ≤ i.length - 1)
    ∧ (∃ (ps : List Nat) (n : Nat), stop_cursor_run i i.length stops 1 = some (ps, n)
        ∧ ps.length = stops.length ∧ List.Chain (fun a b => a ≤ b) 1 ps
        ∧ (∀ q ∈ ps, q ≤ i.length) ∧ n ≤ i.length - 1)
    ∧ (∀ (k : Int) (st : LoopState V),
        state_entering c params i starts stops out_indices ws we iteration_min k = .ok st →
        1 ≤ st.last_start_position ∧ st.last_start_position ≤ i.length
        ∧ 1 ≤ st.last_stop_position ∧ st.last_stop_position ≤ i.length
        ∧ ∀ s3, iteration_body c params i starts stops out_indices ws we k st = .ok s3 →
            st.last_start_position ≤ s3.last_start_position
            ∧ s3.last_start_position ≤ i.length
            ∧ st.last_stop_position ≤ s3.last_stop_position
            ∧ s3.last_stop_position ≤ i.length) := by
  refine ⟨?_, ?_, ?_, ?_, ?_⟩
  · intro b p hp1 hp2
    obtain ⟨idx, p1, h1, h2, h3, _, _, h6⟩ := start_call_spec i b p hp1 hp2
    exact ⟨idx, p1, h1, h2, h3, h6⟩
  · intro b p hp1 hp2
    obtain ⟨idx, p1, h1, h2, h3, _, _, h6⟩ := stop_call_spec i b p hp1 hp2
    exact ⟨idx, p1, h1, h2, h3, h6⟩
  · obtain ⟨ps, n, h1, h2, h3, h4, h5⟩ := start_cursor_run_spec i starts 1 (le_refl _) hM
    exact ⟨ps, n, h1, h2, h3, h4, by omega⟩
  · obtain ⟨ps, n, h1, h2, h3, h4, h5⟩ := stop_cursor_run_spec i stops 1 (le_refl _) hM
    exact ⟨ps, n, h1, h2, h3, h4, by omega⟩
  · intro k st hst
    obtain ⟨a1, a2, a3, a4⟩ := slide_loop_cursor_range c params i starts stops out_indices
      ws we iteration_min (k - 1) hM st hst
    exact ⟨a1, a2, a3, a4, fun s3 hs3 =>
      iteration_body_cursors c params i starts stops out_indices ws we k st s3 a1 a2 a3 a4 hs3⟩

/-- C15 on the keys `[1, 3, 5]` with the unsorted boundaries `[4, 0, 9]` and `[9, 2, 5]`:
the start cursor goes 1, 3, 3, 3 in two advances and the stop cursor 1, 3, 3, 3 in two
advances. -/
theorem cursors_monotone_linear_work_witness :
    start_cursor_run [1, 3, 5] 3 [4, 0, 9] 1 = some ([3, 3, 3], 2)
    ∧ stop_cursor_run [1, 3, 5] 3 [9, 2, 5] 1 = some ([3, 3, 3], 2)
    ∧ state_entering example_collaborators
        { complete := false, before_unbounded := false, after_unbounded := false,
          constrain := false, size := 3 }
        [1, 3, 5] [0, 0, 4] [1, 4, 9] [[1], [2], [3]] [0, 1, 2] [0, 1, 2] 1 3
      = .ok { out := [[0], [0, 1], []]
              window_start := 0
              window_stop := 1
              last_start_position := 1
              last_stop_position := 3
              trace := [Event.locate_start 1 0, Event.locate_stop 1 1, Event.eval 1 0 1 [0],
                Event.assign 1 1 [0], Event.locate_start 2 0, Event.locate_stop 2 4,
                Event.eval 2 0 2 [0, 1], Event.assign 2 2 [0, 1]] }
    ∧ (∃ (ps : List Nat) (n : Nat), start_cursor_run [1, 3, 5] 3 [4, 0, 9] 1 = some (ps, n)
        ∧ ps.length = 3 ∧ List.Chain (fun a b => a ≤ b) 1 ps
        ∧ (∀ q ∈ ps, q ≤ 3) ∧ n ≤ 3 - 1) :=
  ⟨by decide, by decide, rfl,
    (cursors_monotone_linear_work example_collaborators
      { complete := false, before_unbounded := false, after_unbounded := false,
        constrain := false, size := 3 }
      [1, 3, 5] [4, 0, 9] [9, 2, 5] [[1], [2], [3]] [0, 1, 2] [0, 1, 2] 1
      (by decide)).2.2.1⟩

/-! ## The span table from arrays of any initial content -/

/-- The array `window_starts` after the first `m` rounds of the loop of
`compute_window_starts`, whatever the array held before. -/
theorem compute_window_starts_rounds_any (sizes rest : List Int) :
    ∀ (m : Nat), m ≤ rest.length → m ≤ sizes.length →
      (List.range' 1 m).foldlM
        (fun (acc : Int × List Int) k => do
          let s ← sizes[k - 1]?
          let sum := acc.1 + s
          let ws ← array_set acc.2 k sum
          pure (sum, ws))
        ((0 : Int), (0 : Int) :: rest)
      = some ((sizes.take m).sum,
          (List.range (m + 1)).map (fun k => (sizes.take k).sum) ++ rest.drop m) := by
  intro m
  induction m with
  | zero =>
    intro _ _
    simp [List.range_succ]
  | succ m ih =>
    intro hr hs
    rw [List.range'_1_concat, List.foldlM_append, ih (by omega) (by omega)]
    have hsm : m < sizes.length := by omega
    have hrm : m < rest.length := by omega
    have hlen : ((List.range (m + 1)).map (fun k => (sizes.take k).sum)).length = 1 + m := by
      simp; omega
    have hset := array_set_append ((List.range (m + 1)).map (fun k => (sizes.take k).sum))
      (rest.drop (m + 1)) rest[m] ((sizes.take m).sum + sizes[m])
    rw [hlen] at hset
    have hidx : 1 + m - 1 = m := by omega
    simp only [Option.bind_eq_bind, Option.some_bind, List.foldlM_cons, List.foldlM_nil, hidx,
      List.getElem?_eq_getElem hsm, Option.pure_def, Option.bind_some,
      List.drop_eq_getElem_cons hrm, hset, Option.some.injEq, Prod.mk.injEq]
    have hsum : (sizes.take (m + 1)).sum = (sizes.take m).sum + sizes[m] :=
      List.sum_take_succ sizes m hsm
    refine ⟨hsum.symm, ?_⟩
    rw [List.range_succ (n := m + 1), List.map_append, List.append_assoc, ← hsum]
    rfl

/-- On arrays of `n ≥ 1` entries `compute_window_starts` and `compute_window_stops` return,
and what they return does not depend on what the arrays held before. -/
theorem span_table_any (sizes b0 c0 : List Int) (n : Nat) (hn : 1 ≤ n)
    (hs : sizes.length = n) (hb : b0.length = n) (hc : c0.length = n) :
    compute_window_starts b0 sizes n = some ((List.range n).map (fun k => (sizes.take k).sum))
    ∧ compute_window_stops c0 sizes ((List.range n).map (fun k => (sizes.take k).sum)) n
      = some ((List.range n).map (fun k => (sizes.take k).sum + sizes.getD k 0 - 1)) := by
  constructor
  · cases b0 with
    | nil => simp at hb; omega
    | cons a rest =>
      simp only [List.length_cons] at hb
      unfold compute_window_starts
      have h0 : array_set (a :: rest) 0 0 = some ((0 : Int) :: rest) := by
        unfold array_set
        rw [if_pos (by simp)]
        simp
      rw [h0]
      have hp := compute_window_starts_rounds_any sizes rest (n - 1) (by omega) (by omega)
      have h1 : n - 1 + 1 = n := by omega
      rw [h1] at hp
      simp only [Option.bind_eq_bind, Option.some_bind, Option.pure_def] at hp ⊢
      rw [hp]
      have : rest.drop (n - 1) = [] := List.drop_eq_nil_of_le (by omega)
      simp [this]
  · unfold compute_window_stops
    rw [compute_window_stops_rounds sizes _ n c0 (by omega) (by simp) (by omega)]
    have : c0.drop n = [] := List.drop_eq_nil_of_le (by omega)
    rw [this, List.append_nil]
    congr 1
    apply List.map_congr_left
    intro k hk
    have hk1 : k < n := List.mem_range.1 hk
    have : ((List.range n).map (fun k => (sizes.take k).sum)).getD k 0 = (sizes.take k).sum := by
      rw [List.getD_eq_getElem?_getD, List.getElem?_map, List.getElem?_range hk1]
      rfl
    rw [this]

theorem take_sum_succ (sizes : List Int) (k : Nat) (hk : k < sizes.length) :
    (sizes.take (k + 1)).sum = (sizes.take k).sum + sizes.getD k 0 := by
  rw [List.sum_take_succ sizes k hk, List.getD_eq_getElem _ _ hk]

theorem take_sum_mono (sizes : List Int) (hpos : ∀ s ∈ sizes, 0 < s) (j : Nat) :
    ∀ d, j + d ≤ sizes.length → (sizes.take j).sum + d ≤ (sizes.take (j + d)).sum := by
  intro d
  induction d with
  | zero => intro _; simp
  | succ d ih =>
    intro h
    have h1 := ih (by omega)
    have h2 := take_sum_succ sizes (j + d) (by omega)
    have h3 := hpos _ (getD_mem sizes (j + d) (by omega))
    rw [← Nat.add_assoc, h2]
    push_cast
    omega

theorem take_sum_le (sizes : List Int) (hpos : ∀ s ∈ sizes, 0 < s) (j k : Nat) (hjk : j ≤ k)
    (hk : k ≤ sizes.length) : (sizes.take j).sum + ((k - j : Nat) : Int) ≤ (sizes.take k).sum := by
  have := take_sum_mono sizes hpos j (k - j) (by omega)
  have e : j + (k - j) = k := by omega
  rw [e] at this
  exact this

/-- The table `window_tables` builds for `M ≥ 1` groups, in terms of the group sizes. -/
theorem window_tables_spans (out_indices : List (List Nat)) (n : Nat) (hn : 1 ≤ n)
    (hx : out_indices.length = n) :
    window_tables out_indices n
      = .ok ((List.range n).map
            (fun k => ((out_indices.map (fun g => (g.length : Int))).take k).sum),
          (List.range n).map
            (fun k => ((out_indices.map (fun g => (g.length : Int))).take k).sum
              + (out_indices.map (fun g => (g.length : Int))).getD k 0 - 1)) := by
  have hsz := compute_window_sizes_eq out_indices n (by omega)
  have ht : out_indices.take n = out_indices := List.take_of_length_le (by omega)
  rw [ht] at hsz
  obtain ⟨h1, h2⟩ := span_table_any (out_indices.map (fun g => (g.length : Int)))
    (List.replicate n 0) (List.replicate n 0) n hn (by simp [hx]) (by simp) (by simp)
  unfold window_tables
  rw [hsz]
  simp only
  rw [h1]
  simp only
  rw [h2]

theorem map_range_getElem? (f : Nat → Int) (n k : Nat) (hk : k < n) :
    ((List.range n).map f)[k]? = some (f k) := by
  rw [List.getElem?_map, List.getElem?_range hk]
  rfl

theorem map_range_getD (f : Nat → Int) (n k : Nat) (hk : k < n) :
    ((List.range n).map f).getD k 0 = f k := by
  rw [List.getD_eq_getElem?_getD, map_range_getElem? f n k hk]
  rfl

/-- The entries of the span table of `M ≥ 1` groups of the given sizes. -/
theorem span_table_entries (sizes b0 c0 : List Int) (M : Nat) (hM : 1 ≤ M)
    (hs : sizes.length = M) (hb : b0.length = M) (hc : c0.length = M) :
    ∃ group_start group_stop,
      compute_window_starts b0 sizes M = some group_start
      ∧ compute_window_stops c0 sizes group_start M = some group_stop
      ∧ group_start.length = M ∧ group_stop.length = M
      ∧ group_start[0]? = some 0
      ∧ (∀ k, k < M → group_start[k]? = some (sizes.take k).sum)
      ∧ (∀ k, k < M → ∃ a s, group_start[k]? = some a ∧ sizes[k]? = some s
          ∧ group_stop[k]? = some (a + s - 1)) := by
  obtain ⟨h1, h2⟩ := span_table_any sizes b0 c0 M hM hs hb hc
  refine ⟨_, _, h1, h2, by simp, by simp, ?_, ?_, ?_⟩
  · rw [map_range_getElem? _ M 0 (by omega)]
    simp
  · intro k hk
    exact map_range_getElem? _ M k hk
  · intro k hk
    refine ⟨_, _, map_range_getElem? _ M k hk, getElem?_getD sizes k (by omega), ?_⟩
    exact map_range_getElem? _ M k hk

/-- C12. The span table is the prefix sum of the group sizes. For `M ≥ 1` row counts
`sizes`, and arrays of `M` entries of any initial content, `compute_window_starts` and
`compute_window_stops` return tables of `M` entries with `group_start[0] = 0`,
`group_start[k] = sizes[0] + .. + sizes[k - 1]` and
`group_stop[k] = group_start[k] + sizes[k] - 1` for every `k < M`; and the table of a run
is the one of the sizes `compute_window_sizes` stores, the lengths of the output-index
groups. -/
theorem span_table_is_prefix_sum (out_indices : List (List Nat)) (sizes b0 c0 : List Int)
    (M : Nat) (hM : 1 ≤ M) (hx : out_indices.length = M) (hs : sizes.length = M)
    (hb : b0.length = M) (hc : c0.length = M) :
    (∃ group_start group_stop,
      compute_window_starts b0 sizes M = some group_start
      ∧ compute_window_stops c0 sizes group_start M = some group_stop
      ∧ group_start.length = M ∧ group_stop.length = M
      ∧ group_start[0]? = some 0
      ∧ (∀ k, k < M → group_start[k]? = some (sizes.take k).sum)
      ∧ (∀ k, k < M → ∃ a s, group_start[k]? = some a ∧ sizes[k]? = some s
          ∧ group_stop[k]? = some (a + s - 1)))
    ∧ (∃ window_sizes window_starts window_stops,
        compute_window_sizes (List.replicate M 0) out_indices M = some window_sizes
        ∧ window_sizes = out_indices.map (fun g => (g.length : Int))
        ∧ window_tables out_indices M = .ok (window_starts, window_stops)
        ∧ window_starts.length = M ∧ window_stops.length = M
        ∧ window_starts[0]? = some 0
        ∧ (∀ k, k < M → window_starts[k]? = some (window_sizes.take k).sum)
        ∧ (∀ k, k < M → ∃ a s, window_starts[k]? = some a ∧ window_sizes[k]? = some s
            ∧ window_stops[k]? = some (a + s - 1))) := by
  refine ⟨span_table_entries sizes b0 c0 M hM hs hb hc, ?_⟩
  have hsz := compute_window_sizes_eq out_indices M (by omega)
  have ht : out_indices.take M = out_indices := List.take_of_length_le (by omega)
  rw [ht] at hsz
  have hl : (out_indices.map (fun g => (g.length : Int))).length = M := by simp [hx]
  refine ⟨_, _, _, hsz, rfl, window_tables_spans out_indices M hM hx, by simp, by simp,
    ?_, ?_, ?_⟩
  · rw [map_range_getElem? _ M 0 (by omega)]
    simp
  · intro k hk
    exact map_range_getElem? _ M k hk
  · intro k hk
    refine ⟨_, _, map_range_getElem? _ M k hk, getElem?_getD _ k (by omega), ?_⟩
    exact map_range_getElem? _ M k hk

/-- C12 on the groups `[[1, 2], [3], [4, 5, 6]]`, with arrays that hold other values at
first: the spans are `0 .. 1`, `2 .. 2` and `3 .. 5`. -/
theorem span_table_is_prefix_sum_witness :
    compute_window_starts [7, 7, 7] [2, 1, 3] 3 = some [0, 2, 3]
    ∧ compute_window_stops [9, 9, 9] [2, 1, 3] [0, 2, 3] 3 = some [1, 2, 5]
    ∧ window_tables [[1, 2], [3], [4, 5, 6]] 3 = .ok ([0, 2, 3], [1, 2, 5])
    ∧ ∃ group_start group_stop,
      compute_window_starts [7, 7, 7] [2, 1, 3] 3 = some group_start
      ∧ compute_window_stops [9, 9, 9] [2, 1, 3] group_start 3 = some group_stop
      ∧ group_start.length = 3 ∧ group_stop.length = 3
      ∧ group_start[0]? = some 0
      ∧ (∀ k, k < 3 → group_start[k]? = some (([2, 1, 3] : List Int).take k).sum)
      ∧ (∀ k, k < 3 → ∃ a s, group_start[k]? = some a ∧ ([2, 1, 3] : List Int)[k]? = some s
          ∧ group_stop[k]? = some (a + s - 1)) :=
  ⟨by decide, by decide, rfl,
    (span_table_is_prefix_sum [[1, 2], [3], [4, 5, 6]] [2, 1, 3] [7, 7, 7] [9, 9, 9] 3
      (by decide) (by decide) (by decide) (by decide) (by decide)).1⟩

theorem take_sum_find (sizes : List Int) (p : Int) (hp : 0 ≤ p) :
    ∀ m, m ≤ sizes.length → p < (sizes.take m).sum →
      ∃ k, k < m ∧ (sizes.take k).sum ≤ p ∧ p < (sizes.take (k + 1)).sum := by
  intro m
  induction m with
  | zero =>
    intro _ h
    simp at h
    omega
  | succ m ih =>
    intro hm h
    by_cases hlt : p < (sizes.take m).sum
    · obtain ⟨k, h1, h2, h3⟩ := ih (by omega) hlt
      exact ⟨k, by omega, h2, h3⟩
    · exact ⟨m, by omega, by omega, h⟩

/-- C17. The spans of `M ≥ 1` groups of positive sizes that sum to `size` tile the data
positions: in the table `compute_window_starts` and `compute_window_stops` build, every
span is non-empty (`group_stop[k] ≥ group_start[k]`), each span starts right after the one
before (`group_start[k + 1] = group_stop[k] + 1`), the first one starts at 0 and the last
one stops at `size - 1`; so the spans are in increasing order and disjoint, and a position
is inside `0 .. size - 1` exactly when it is in one of the spans. When the sizes are the
lengths of the output-index groups, this table is the one of the run. -/
theorem spans_tile_positions (out_indices : List (List Nat)) (sizes b0 c0 : List Int)
    (M : Nat) (size : Int) (hM : 1 ≤ M)
    (hs : sizes.length = M) (hb : b0.length = M) (hc : c0.length = M)
    (hpos : ∀ s ∈ sizes, 0 < s) (hsum : sizes.sum = size) :
    ∃ group_start group_stop,
      compute_window_starts b0 sizes M = some group_start
      ∧ compute_window_stops c0 sizes group_start M = some group_stop
      ∧ group_start.length = M ∧ group_stop.length = M
      ∧ (∀ k, k < M → group_start.getD k 0 ≤ group_stop.getD k 0)
      ∧ (∀ k, k + 1 < M → group_start.getD (k + 1) 0 = group_stop.getD k 0 + 1)
      ∧ group_start.getD 0 0 = 0 ∧ group_stop.getD (M - 1) 0 = size - 1
      ∧ (∀ j k, j < k → k < M → group_stop.getD j 0 < group_start.getD k 0)
      ∧ (∀ p : Int, (0 ≤ p ∧ p < size)
          ↔ ∃ k, k < M ∧ group_start.getD k 0 ≤ p ∧ p ≤ group_stop.getD k 0)
      ∧ (sizes = out_indices.map (fun g => (g.length : Int)) →
          window_tables out_indices M = .ok (group_start, group_stop)) := by
  obtain ⟨h1, h2⟩ := span_table_any sizes b0 c0 M hM hs hb hc
  have hgs : ∀ k, k < M →
      ((List.range M).map (fun k => (sizes.take k).sum)).getD k 0 = (sizes.take k).sum :=
    fun k hk => map_range_getD _ M k hk
  have hge : ∀ k, k < M →
      ((List.range M).map (fun k => (sizes.take k).sum + sizes.getD k 0 - 1)).getD k 0
        = (sizes.take (k + 1)).sum - 1 := by
    intro k hk
    rw [map_range_getD _ M k hk, take_sum_succ sizes k (by omega)]
  have hall : (sizes.take M).sum = size := by
    rw [List.take_of_length_le (by omega), hsum]
  have h0 : (sizes.take 0).sum = 0 := by simp
  refine ⟨_, _, h1, h2, by simp, by simp, ?_, ?_, ?_, ?_, ?_, ?_, ?_⟩
  · intro k hk
    rw [hgs k hk, hge k hk]
    have := take_sum_le sizes hpos k (k + 1) (by omega) (by omega)
    have e : ((k + 1 - k : Nat) : Int) = 1 := by omega
    rw [e] at this
    omega
  · intro k hk
    rw [hgs (k + 1) hk, hge k (by omega)]
    omega
  · rw [hgs 0 (by omega), h0]
  · rw [hge (M - 1) (by omega)]
    have e : M - 1 + 1 = M := by omega
    rw [e, hall]
  · intro j k hjk hk
    rw [hgs k hk, hge j (by omega)]
    have := take_sum_le sizes hpos (j + 1) k (by omega) (by omega)
    omega
  · intro p
    constructor
    · rintro ⟨hp0, hp1⟩
      obtain ⟨k, e1, e2, e3⟩ := take_sum_find sizes p hp0 M (by omega) (by rw [hall]; exact hp1)
      refine ⟨k, e1, ?_, ?_⟩
      · rw [hgs k e1]; exact e2
      · rw [hge k e1]; omega
    · rintro ⟨k, hk, e1, e2⟩
      rw [hgs k hk] at e1
      rw [hge k hk] at e2
      have a1 := take_sum_le sizes hpos 0 k (by omega) (by omega)
      have a2 := take_sum_le sizes hpos (k + 1) M (by omega) (by omega)
      rw [h0] at a1
      rw [hall] at a2
      constructor
      · omega
      · omega
  · intro he
    rw [he]
    have hx : out_indices.length = M := by
      rw [he] at hs
      simpa using hs
    exact window_tables_spans out_indices M hM hx

/-- C17 on the groups `[[1, 2], [3], [4, 5, 6]]` of a run on 6 rows: the spans `0 .. 1`,
`2 .. 2`, `3 .. 5` tile the positions `0 .. 5`. -/
theorem spans_tile_positions_witness :
    compute_window_starts [0, 0, 0] [2, 1, 3] 3 = some [0, 2, 3]
    ∧ compute_window_stops [0, 0, 0] [2, 1, 3] [0, 2, 3] 3 = some [1, 2, 5]
    ∧ ∃ group_start group_stop,
      compute_window_starts [0, 0, 0] [2, 1, 3] 3 = some group_start
      ∧ compute_window_stops [0, 0, 0] [2, 1, 3] group_start 3 = some group_stop
      ∧ group_start.length = 3 ∧ group_stop.length = 3
      ∧ (∀ k, k < 3 → group_start.getD k 0 ≤ group_stop.getD k 0)
      ∧ (∀ k, k + 1 < 3 → group_start.getD (k + 1) 0 = group_stop.getD k 0 + 1)
      ∧ group_start.getD 0 0 = 0 ∧ group_stop.getD (3 - 1) 0 = 6 - 1
      ∧ (∀ j k, j < k → k < 3 → group_stop.getD j 0 < group_start.getD k 0)
      ∧ (∀ p : Int, (0 ≤ p ∧ p < 6)
          ↔ ∃ k, k < 3 ∧ group_start.getD k 0 ≤ p ∧ p ≤ group_stop.getD k 0)
      ∧ (([2, 1, 3] : List Int) = [[1, 2], [3], [4, 5, 6]].map (fun g => (g.length : Int)) →
          window_tables [[1, 2], [3], [4, 5, 6]] 3 = .ok (group_start, group_stop)) :=
  ⟨by decide, by decide,
    spans_tile_positions [[1, 2], [3], [4, 5, 6]] [2, 1, 3] [0, 0, 0] [0, 0, 0] 3 6
      (by decide) (by decide) (by decide) (by decide) (by decide) (by decide)⟩

/-- C20 is violated for `M = 0`. On arrays of no entries `compute_window_sizes` and
`compute_window_stops` write nothing, but `compute_window_starts` writes
`window_starts[0] = 0` before its loop, outside of the array, whatever the sizes are: the
span table of no groups is not built, and a run on no keys with both sides unbounded stops
there. -/
theorem span_table_of_no_groups :
    (∀ sizes : List Int, compute_window_starts [] sizes 0 = none)
    ∧ array_set [] 0 0 = none
    ∧ (∀ x : List (List Nat), compute_window_sizes [] x 0 = some [])
    ∧ (∀ sizes starts : List Int, compute_window_stops [] sizes starts 0 = some [])
    ∧ (∀ out_indices : List (List Nat),
        window_tables out_indices 0 = .error (.span_index_out_of_bounds 0))
    ∧ slide_index_core_impl example_collaborators [] [] [] []
        { complete := false, before_unbounded := true, after_unbounded := true,
          constrain := false, size := 0 }
      = .failed (.span_index_out_of_bounds 0) [] := by
  refine ⟨fun _ => rfl, rfl, fun _ => rfl, fun _ _ => rfl, fun _ => rfl, by decide⟩

/-! ## What the evaluator is handed, iteration by iteration -/

theorem iteration_body_resolved {V : Type} (c : Collaborators V) (params : Params)
    (i starts stops : List Int) (out_indices : List (List Nat)) (ws we : List Int)
    (it : Int) (st : LoopState V) :
    (∀ s2, resolve_window params i starts stops ws we it st = .ok s2 →
      iteration_body c params i starts stops out_indices ws we it st
        = scatter_stage c params out_indices it (evaluated c it s2).1 (evaluated c it s2).2)
    ∧ (∀ e, resolve_window params i starts stops ws we it st = .error e →
      iteration_body c params i starts stops out_indices ws we it st = .error e) := by
  unfold resolve_window iteration_body
  cases h1 : window_start_stage params i starts ws it st with
  | error e1 =>
    exact ⟨fun s2 h => (by cases h), fun e h => (by cases h; rfl)⟩
  | ok s1 =>
    simp only
    cases h2 : window_stop_stage params i stops we it s1 with
    | error e2 => exact ⟨fun s2 h => (by cases h), fun e h => (by cases h; rfl)⟩
    | ok s2 => exact ⟨fun s h => (by cases h; rfl), fun e h => (by cases h)⟩

theorem resolve_window_ok {V : Type} (params : Params) (i starts stops ws we : List Int)
    (it : Int) (st s1 s2 : LoopState V)
    (h1 : window_start_stage params i starts ws it st = .ok s1)
    (h2 : window_stop_stage params i stops we it s1 = .ok s2) :
    resolve_window params i starts stops ws we it st = .ok s2 := by
  unfold resolve_window
  rw [h1]
  exact h2

theorem resolve_window_stages {V : Type} (params : Params) (i starts stops ws we : List Int)
    (it : Int) (st s2 : LoopState V)
    (h : resolve_window params i starts stops ws we it st = .ok s2) :
    ∃ s1, window_start_stage params i starts ws it st = .ok s1
      ∧ window_stop_stage params i stops we it s1 = .ok s2 := by
  unfold resolve_window at h
  cases h1 : window_start_stage params i starts ws it st with
  | error e1 => rw [h1] at h; cases h
  | ok s1 => rw [h1] at h; exact ⟨s1, rfl, h⟩

/-- The evaluator invocations of one iteration: the ones logged before it, and one on the
window the two look-ups resolved, adjusted for an empty window. -/
theorem iteration_body_evaluations {V : Type} (c : Collaborators V) (params : Params)
    (i starts stops : List Int) (out_indices : List (List Nat)) (ws we : List Int)
    (it : Int) (st : LoopState V) (P : Int → Int → Int → V → Prop)
    (hold : ∀ (k a l : Int) (elt : V), Event.eval k a l elt ∈ st.trace → P k a l elt)
    (hnew : ∀ s2, resolve_window params i starts stops ws we it st = .ok s2 →
      P it (normalize_window s2).window_start
        ((normalize_window s2).window_stop - (normalize_window s2).window_start + 1)
        (evaluated c it s2).1) :
    (∀ s3, iteration_body c params i starts stops out_indices ws we it st = .ok s3 →
      ∀ (k a l : Int) (elt : V), Event.eval k a l elt ∈ s3.trace → P k a l elt)
    ∧ (∀ e, iteration_body c params i starts stops out_indices ws we it st = .error e →
      ∀ (k a l : Int) (elt : V), Event.eval k a l elt ∈ e.2 → P k a l elt) := by
  rcases iteration_body_cases c params i starts stops out_indices ws we it st with
    ⟨e1, locs, hb, hl, _⟩ | ⟨s1, s2, locs, h1, h2, _, ht, hl, hrest⟩
  · rw [hb]
    refine ⟨fun s3 h => (by cases h), fun e h => ?_⟩
    cases h
    intro k a l elt hev
    rcases List.mem_append.1 hev with hev | hev
    · exact hold k a l elt hev
    · exact absurd hev (locate_events_not_eval params it locs hl k a l elt)
  · have hP := hnew s2 (resolve_window_ok params i starts stops ws we it st s1 s2 h1 h2)
    have hev2 : ∀ (k a l : Int) (elt : V), Event.eval k a l elt ∈ (evaluated c it s2).2.trace →
        P k a l elt := by
      intro k a l elt hev
      rw [evaluated_trace, ht] at hev
      simp only [List.mem_append, List.mem_singleton] at hev
      rcases hev with (hev | hev) | hev
      · exact hold k a l elt hev
      · exact absurd hev (locate_events_not_eval params it locs hl k a l elt)
      · cases hev; exact hP
    have hev3 : ∀ (g : List Nat) (w : V) (k a l : Int) (elt : V),
        Event.eval k a l elt ∈ (evaluated c it s2).2.trace
          ++ g.map (fun q => Event.assign it q w) → P k a l elt := by
      intro g w k a l elt hev
      rcases List.mem_append.1 hev with hev | hev
      · exact hev2 k a l elt hev
      · obtain ⟨q, _, hq⟩ := List.mem_map.1 hev
        cases hq
    rcases hrest with ⟨_, hb⟩ | ⟨_, _, hb⟩ | ⟨q, g0, _, hb⟩ | ⟨g, _, _, _, hb⟩
    · rw [hb]
      exact ⟨fun s3 h => (by cases h), fun e h => (by cases h; exact hev2)⟩
    · rw [hb]
      exact ⟨fun s3 h => (by cases h), fun e h => (by cases h; exact hev2)⟩
    · rw [hb]
      exact ⟨fun s3 h => (by cases h), fun e h => (by cases h; exact hev3 g0 _)⟩
    · rw [hb]
      exact ⟨fun s3 h => (by cases h; exact hev3 g _), fun e h => (by cases h)⟩

/-- An invariant of the loop states gives a property of every evaluator invocation of the
loop, when the window resolved from a state that has the invariant gives that property. -/
theorem slide_loop_evaluations {V : Type} (c : Collaborators V) (params : Params)
    (i starts stops : List Int) (out_indices : List (List Nat)) (ws we : List Int)
    (Inv : Int → LoopState V → Prop) (P : Int → Int → Int → V → Prop)
    (iteration_min iteration_max : Int)
    (h0 : Inv iteration_min (initial_state c params))
    (hstep : ∀ it st, iteration_min ≤ it → it ≤ iteration_max → Inv it st →
      (∀ s3, iteration_body c params i starts stops out_indices ws we it st = .ok s3 →
        Inv (it + 1) s3)
      ∧ (∀ s2, resolve_window params i starts stops ws we it st = .ok s2 →
        P it (normalize_window s2).window_start
          ((normalize_window s2).window_stop - (normalize_window s2).window_start + 1)
          (evaluated c it s2).1)) :
    (∀ s1, slide_loop (iteration_body c params i starts stops out_indices ws we)
        (iterations iteration_min iteration_max) (initial_state c params) = .ok s1 →
      Inv (max iteration_min (iteration_max + 1)) s1
      ∧ ∀ (k a l : Int) (elt : V), Event.eval k a l elt ∈ s1.trace → P k a l elt)
    ∧ (∀ e, slide_loop (iteration_body c params i starts stops out_indices ws we)
        (iterations iteration_min iteration_max) (initial_state c params) = .error e →
      ∀ (k a l : Int) (elt : V), Event.eval k a l elt ∈ e.2 → P k a l elt) := by
  exact slide_loop_iterations (iteration_body c params i starts stops out_indices ws we)
    (fun it st => Inv it st
      ∧ ∀ (k a l : Int) (elt : V), Event.eval k a l elt ∈ st.trace → P k a l elt)
    (fun e => ∀ (k a l : Int) (elt : V), Event.eval k a l elt ∈ e.2 → P k a l elt)
    iteration_min iteration_max (initial_state c params)
    ⟨h0, fun k a l elt h => (by simp [initial_state] at h)⟩
    (by
      intro it st h1 h2 ⟨hinv, hold⟩
      obtain ⟨a1, a2⟩ := hstep it st h1 h2 hinv
      obtain ⟨b1, b2⟩ := iteration_body_evaluations c params i starts stops out_indices ws we
        it st P hold a2
      exact ⟨fun s3 h => ⟨a1 s3 h, b1 s3 h⟩, b2⟩)

/-- The trace of a run is empty or the trace of its loop. -/
theorem run_trace_cases {V : Type} (c : Collaborators V) (i starts stops : List Int)
    (out_indices : List (List Nat)) (params : Params) :
    (slide_index_core_impl c i starts stops out_indices params).trace = []
    ∨ ∃ iteration_min iteration_max ws we,
        iteration_bounds params i starts stops = some (iteration_min, iteration_max)
        ∧ window_tables out_indices i.length = .ok (ws, we)
        ∧ ((∃ s1, slide_loop (iteration_body c params i starts stops out_indices ws we)
                (iterations iteration_min iteration_max) (initial_state c params) = .ok s1
              ∧ slide_index_core_impl c i starts stops out_indices params
                = .returned s1.out s1.trace)
          ∨ (∃ e, slide_loop (iteration_body c params i starts stops out_indices ws we)
                (iterations iteration_min iteration_max) (initial_state c params) = .error e
              ∧ slide_index_core_impl c i starts stops out_indices params
                = .failed e.1 e.2)) := by
  rcases run_cases c i starts stops out_indices params with
    ⟨_, _, _, h⟩ | ⟨_, ⟨_, h⟩ | ⟨e, _, h⟩ | ⟨lo, hi, ws, we, hib, hwt, h⟩⟩
  · left; rw [h]; rfl
  · left; rw [h]; rfl
  · left; rw [h]; rfl
  · right
    refine ⟨lo, hi, ws, we, hib, hwt, ?_⟩
    cases hl : slide_loop (iteration_body c params i starts stops out_indices ws we)
        (iterations lo hi) (initial_state c params) with
    | error e => right; rw [hl] at h; exact ⟨e, rfl, h⟩
    | ok s1 => left; rw [hl] at h; exact ⟨s1, rfl, h⟩

theorem normalize_window_empty {V : Type} (st : LoopState V)
    (h : st.window_stop < st.window_start) :
    (normalize_window st).window_start = 0 ∧ (normalize_window st).window_stop = -1 := by
  unfold normalize_window
  rw [if_pos h]
  exact ⟨rfl, rfl⟩

/-- The slice of any window after the empty-window adjustment: its length is not negative,
and a slice of length 0 starts at 0. -/
theorem normalize_window_slice {V : Type} (st : LoopState V) :
    0 ≤ (normalize_window st).window_stop - (normalize_window st).window_start + 1
    ∧ ((normalize_window st).window_stop - (normalize_window st).window_start + 1 = 0 →
        (normalize_window st).window_start = 0) := by
  by_cases h : st.window_stop < st.window_start
  · obtain ⟨h1, h2⟩ := normalize_window_empty st h
    rw [h1, h2]
    exact ⟨by omega, fun _ => rfl⟩
  · rw [normalize_window_of_le st (by omega)]
    exact ⟨by omega, fun h0 => by omega⟩

/-- C11. Empty-window normalization. In an iteration whose look-ups resolve the window
`(window_start, window_stop)`, whatever the two values are, the evaluator is invoked once,
before the scatter: on the slice `(0, 0)` when `window_stop < window_start`, and on the
slice `(window_start, window_stop - window_start + 1)`, of positive length, otherwise. So
in every run, on any input, every slice handed to the evaluator has a length that is not
negative, and a slice of length 0 starts at 0. -/
theorem empty_window_normalization {V : Type} (c : Collaborators V) (params : Params)
    (i starts stops : List Int) (out_indices : List (List Nat)) (ws we : List Int) :
    (∀ (it : Int) (st s2 : LoopState V),
      resolve_window params i starts stops ws we it st = .ok s2 →
      iteration_body c params i starts stops out_indices ws we it st
        = scatter_stage c params out_indices it (evaluated c it s2).1 (evaluated c it s2).2
      ∧ (s2.window_stop < s2.window_start →
          (evaluated c it s2).1 = c.eval 0 0
          ∧ (evaluated c it s2).2.trace = s2.trace ++ [Event.eval it 0 0 (c.eval 0 0)])
      ∧ (¬ s2.window_stop < s2.window_start →
          (evaluated c it s2).1
            = c.eval s2.window_start (s2.window_stop - s2.window_start + 1)
          ∧ (evaluated c it s2).2.trace = s2.trace
              ++ [Event.eval it s2.window_start (s2.window_stop - s2.window_start + 1)
                  (c.eval s2.window_start (s2.window_stop - s2.window_start + 1))]
          ∧ 0 < s2.window_stop - s2.window_start + 1))
    ∧ (∀ (k a l : Int) (elt : V),
        Event.eval k a l elt ∈ (slide_index_core_impl c i starts stops out_indices params).trace →
        0 ≤ l ∧ (l = 0 → a = 0) ∧ elt = c.eval a l) := by
  constructor
  · intro it st s2 hres
    refine ⟨(iteration_body_resolved c params i starts stops out_indices ws we it st).1 s2 hres,
      ?_, ?_⟩
    · intro hlt
      obtain ⟨h1, h2⟩ := normalize_window_empty s2 hlt
      have he : (evaluated c it s2).1 = c.eval 0 0 := by
        rw [evaluated_elt, h1, h2]; rfl
      refine ⟨he, ?_⟩
      rw [evaluated_trace, he, h1, h2]
      rfl
    · intro hge
      have hn := normalize_window_of_le s2 (by omega)
      have he : (evaluated c it s2).1
          = c.eval s2.window_start (s2.window_stop - s2.window_start + 1) := by
        rw [evaluated_elt, hn]
      refine ⟨he, ?_, by omega⟩
      rw [evaluated_trace, he, hn]
  · intro k a l elt hev
    rcases run_trace_cases c i starts stops out_indices params with
      h | ⟨lo, hi, ws1, we1, _, _, h⟩
    · rw [h] at hev; cases hev
    · have hloop := slide_loop_evaluations c params i starts stops out_indices ws1 we1
        (fun _ _ => True) (fun _ a l elt => 0 ≤ l ∧ (l = 0 → a = 0) ∧ elt = c.eval a l)
        lo hi trivial
        (by
          intro it st _ _ _
          refine ⟨fun _ _ => trivial, fun s2 _ => ?_⟩
          obtain ⟨h1, h2⟩ := normalize_window_slice s2
          exact ⟨h1, h2, evaluated_elt c it s2⟩)
      rcases h with ⟨s1, hl, hr⟩ | ⟨e, hl, hr⟩
      · rw [hr] at hev
        exact (hloop.1 s1 hl).2 k a l elt hev
      · rw [hr] at hev
        exact hloop.2 e hl k a l elt hev

/-- C11 on the keys `[1, 3, 5]` with unit groups and the boundaries `start = 2`, `stop = 2`
at every iteration: the start look-up returns group 1, the stop look-up group 0, and the
evaluator is invoked on the slice `(0, 0)`. -/
theorem empty_window_normalization_witness :
    locate_window_start_index [1, 3, 5] 2 3 1 = some (1, 2)
    ∧ locate_window_stop_index [1, 3, 5] 2 3 1 = some (0, 2)
    ∧ (slide_index_core_impl example_collaborators [1, 3, 5] [2, 2, 2] [2, 2, 2]
        [[1], [2], [3]]
        { complete := false, before_unbounded := false, after_unbounded := false,
          constrain := false, size := 3 }).windows = [(1, 0, 0), (2, 0, 0), (3, 0, 0)]
    ∧ (∀ (k a l : Int) (elt : List Int),
        Event.eval k a l elt
          ∈ (slide_index_core_impl example_collaborators [1, 3, 5] [2, 2, 2] [2, 2, 2]
              [[1], [2], [3]]
              { complete := false, before_unbounded := false, after_unbounded := false,
                constrain := false, size := 3 }).trace →
        0 ≤ l ∧ (l = 0 → a = 0) ∧ elt = example_collaborators.eval a l) :=
  ⟨by decide, by decide, by decide,
    (empty_window_normalization example_collaborators
      { complete := false, before_unbounded := false, after_unbounded := false,
        constrain := false, size := 3 }
      [1, 3, 5] [2, 2, 2] [2, 2, 2] [[1], [2], [3]] [0, 1, 2] [0, 1, 2]).2⟩

/-! ## The slice stays inside of the data -/

theorem array_get_some (a : List Int) (idx v : Int) (h : array_get a idx = some v) :
    ∃ k : Nat, idx = (k : Int) ∧ k < a.length ∧ a[k]? = some v := by
  unfold array_get at h
  split at h
  · next h0 =>
    refine ⟨idx.toNat, by omega, ?_, h⟩
    by_contra hlt
    rw [List.getElem?_eq_none (by omega)] at h
    cases h
  · cases h

/-- The window the two look-ups resolve, from a state whose unbounded sides hold their
initial values: both ends are data positions, and the unbounded sides are unchanged. -/
theorem resolve_window_inside {V : Type} (params : Params) (i starts stops : List Int)
    (out_indices : List (List Nat)) (ws we : List Int) (it : Int) (st s2 : LoopState V)
    (hM : 1 ≤ i.length) (hx : out_indices.length = i.length)
    (hpos : ∀ g ∈ out_indices, 0 < g.length)
    (hsize : (out_indices.map List.length).sum = params.size)
    (hwl : ws.length = i.length) (hwel : we.length = i.length)
    (hws : ∀ k, k < i.length → ws[k]? = some (span_start out_indices k))
    (hwe : ∀ k, k < i.length → we[k]? = some (span_start out_indices (k + 1) - 1))
    (hz : params.before_unbounded = true → st.window_start = 0)
    (hf : params.after_unbounded = true → st.window_stop = (params.size : Int) - 1)
    (h : resolve_window params i starts stops ws we it st = .ok s2) :
    (params.before_unbounded = true → s2.window_start = 0)
    ∧ (params.after_unbounded = true → s2.window_stop = (params.size : Int) - 1)
    ∧ 0 ≤ s2.window_start ∧ s2.window_start ≤ (params.size : Int) - 1
    ∧ 0 ≤ s2.window_stop ∧ s2.window_stop ≤ (params.size : Int) - 1 := by
  have htotal : span_start out_indices i.length = (params.size : Int) := by
    rw [← hx, span_start_length, hsize]
  have hlast := span_start_strict out_indices hpos (i.length - 1) i.length (by omega) (by omega)
  have hnn := span_start_nonneg out_indices (i.length - 1)
  obtain ⟨s1, h1, h2⟩ := resolve_window_stages params i starts stops ws we it st s2 h
  have hs1 : (params.before_unbounded = true → s1.window_start = 0)
      ∧ 0 ≤ s1.window_start ∧ s1.window_start ≤ (params.size : Int) - 1
      ∧ s1.window_stop = st.window_stop := by
    rcases window_start_stage_ok _ _ _ _ _ _ _ h1 with
      ⟨hb, rfl⟩ | ⟨hb, b, idx, v, p1, _, _, hget, rfl⟩
    · exact ⟨hz, by rw [hz hb], by rw [hz hb]; omega, rfl⟩
    · obtain ⟨k, _, hk, hv⟩ := array_get_some ws idx v hget
      rw [hws k (by omega)] at hv
      cases hv
      have a1 := span_start_nonneg out_indices k
      have a2 := span_start_mono out_indices k (i.length - 1) (by omega)
      exact ⟨fun hb1 => (by rw [hb] at hb1; cases hb1), a1, by simp only; omega, rfl⟩
  obtain ⟨e1, e2, e3, e4⟩ := hs1
  rcases window_stop_stage_ok _ _ _ _ _ _ _ h2 with
    ⟨ha, rfl⟩ | ⟨ha, b, idx, v, p1, _, _, hget, rfl⟩
  · have := hf ha
    exact ⟨e1, fun _ => by rw [e4]; exact this, e2, e3, by rw [e4, this]; omega,
      by rw [e4, this]⟩
  · obtain ⟨k, _, hk, hv⟩ := array_get_some we idx v hget
    rw [hwe k (by omega)] at hv
    cases hv
    have a1 := span_start_strict out_indices hpos 0 (k + 1) (by omega) (by omega)
    have a2 := span_start_mono out_indices (k + 1) i.length (by omega)
    rw [span_start_zero] at a1
    exact ⟨e1, fun ha1 => (by rw [ha] at ha1; cases ha1), e2, e3, by simp only; omega,
      by simp only; omega⟩

/-- The slice of a window whose two ends are data positions, after the empty-window
adjustment. -/
theorem normalize_window_inside {V : Type} (s2 : LoopState V) (size : Int)
    (h1 : 0 ≤ s2.window_start) (h2 : s2.window_stop ≤ size - 1) (h3 : 0 ≤ s2.window_stop) :
    0 ≤ (normalize_window s2).window_start
    ∧ 0 ≤ (normalize_window s2).window_stop - (normalize_window s2).window_start + 1
    ∧ (normalize_window s2).window_start
        + ((normalize_window s2).window_stop - (normalize_window s2).window_start + 1) ≤ size
    ∧ (s2.window_start = 0 → (normalize_window s2).window_start = 0)
    ∧ (s2.window_start ≤ s2.window_stop → normalize_window s2 = s2) := by
  by_cases h : s2.window_stop < s2.window_start
  · obtain ⟨e1, e2⟩ := normalize_window_empty s2 h
    rw [e1, e2]
    exact ⟨le_refl _, by omega, by omega, fun _ => rfl, fun hle => by omega⟩
  · have hn := normalize_window_of_le s2 (by omega)
    rw [hn]
    exact ⟨h1, by omega, by omega, fun h0 => h0, fun _ => rfl⟩

/-- The loop keeps the unbounded sides of the window at their initial values, and every
slice it hands to the evaluator is inside of the data. -/
theorem slide_loop_inside {V : Type} (c : Collaborators V) (params : Params)
    (i starts stops : List Int) (out_indices : List (List Nat)) (ws we : List Int)
    (iteration_min iteration_max : Int)
    (hM : 1 ≤ i.length) (hx : out_indices.length = i.length)
    (hpos : ∀ g ∈ out_indices, 0 < g.length)
    (hsize : (out_indices.map List.length).sum = params.size)
    (hwl : ws.length = i.length) (hwel : we.length = i.length)
    (hws : ∀ k, k < i.length → ws[k]? = some (span_start out_indices k))
    (hwe : ∀ k, k < i.length → we[k]? = some (span_start out_indices (k + 1) - 1)) :
    (∀ s1, slide_loop (iteration_body c params i starts stops out_indices ws we)
        (iterations iteration_min iteration_max) (initial_state c params) = .ok s1 →
      ((params.before_unbounded = true → s1.window_start = 0)
        ∧ (params.after_unbounded = true → s1.window_stop = (params.size : Int) - 1))
      ∧ ∀ (k a l : Int) (elt : V), Event.eval k a l elt ∈ s1.trace →
          0 ≤ a ∧ 0 ≤ l ∧ a + l ≤ params.size
          ∧ (params.before_unbounded = true → a = 0)
          ∧ (params.after_unbounded = true → a + l = params.size))
    ∧ (∀ e, slide_loop (iteration_body c params i starts stops out_indices ws we)
        (iterations iteration_min iteration_max) (initial_state c params) = .error e →
      ∀ (k a l : Int) (elt : V), Event.eval k a l elt ∈ e.2 →
          0 ≤ a ∧ 0 ≤ l ∧ a + l ≤ params.size
          ∧ (params.before_unbounded = true → a = 0)
          ∧ (params.after_unbounded = true → a + l = params.size)) := by
  exact slide_loop_evaluations c params i starts stops out_indices ws we
    (fun _ st => (params.before_unbounded = true → st.window_start = 0)
      ∧ (params.after_unbounded = true → st.window_stop = (params.size : Int) - 1))
    (fun _ a l _ => 0 ≤ a ∧ 0 ≤ l ∧ a + l ≤ params.size
      ∧ (params.before_unbounded = true → a = 0)
      ∧ (params.after_unbounded = true → a + l = params.size))
    iteration_min iteration_max ⟨fun _ => rfl, fun _ => rfl⟩
    (by
      intro it st _ _ ⟨hz, hf⟩
      have hres : ∀ s2, resolve_window params i starts stops ws we it st = .ok s2 →
          ((params.before_unbounded = true → (normalize_window s2).window_start = 0)
            ∧ (params.after_unbounded = true →
                (normalize_window s2).window_stop = (params.size : Int) - 1))
          ∧ (0 ≤ (normalize_window s2).window_start
            ∧ 0 ≤ (normalize_window s2).window_stop - (normalize_window s2).window_start + 1
            ∧ (normalize_window s2).window_start
                + ((normalize_window s2).window_stop
                    - (normalize_window s2).window_start + 1) ≤ params.size
            ∧ (params.before_unbounded = true → (normalize_window s2).window_start = 0)
            ∧ (params.after_unbounded = true →
                (normalize_window s2).window_start
                  + ((normalize_window s2).window_stop
                      - (normalize_window s2).window_start + 1) = params.size)) := by
        intro s2 hs2
        obtain ⟨a1, a2, a3, a4, a5, a6⟩ := resolve_window_inside params i starts stops
          out_indices ws we it st s2 hM hx hpos hsize hwl hwel hws hwe hz hf hs2
        obtain ⟨b1, b2, b3, b4, b5⟩ := normalize_window_inside s2 params.size a3 a6 a5
        have hfull : params.after_unbounded = true → normalize_window s2 = s2 :=
          fun ha => b5 (by rw [a2 ha]; exact a4)
        refine ⟨⟨fun hb => b4 (a1 hb), fun ha => by rw [hfull ha]; exact a2 ha⟩,
          b1, b2, b3, fun hb => b4 (a1 hb), fun ha => ?_⟩
        rw [hfull ha, a2 ha]
        omega
      refine ⟨fun s3 hs3 => ?_, fun s2 hs2 => (hres s2 hs2).2⟩
      obtain ⟨s1, s2, h1, h2, _, _, e1, e2⟩ :=
        iteration_body_state c params i starts stops out_indices ws we it st s3 hs3
      rw [e1, e2]
      exact (hres s2 (resolve_window_ok params i starts stops ws we it st s1 s2 h1 h2)).1)

/-- C19. The slice handed to the evaluator lies inside of the data. For `M ≥ 1` groups of
positive sizes that sum to `size`, and any keys, boundaries and flags: every slice
`(window_start, window_length)` handed to the evaluator in a run has `0 ≤ window_start`,
`0 ≤ window_length` and `window_start + window_length ≤ size`, starts at 0 when the before
side is unbounded and ends at `size - 1` when the after side is unbounded. The span table
of the run is built, and in every state in which the loop enters an iteration an unbounded
side holds its initial value (`window_start = 0`, `window_stop = size - 1`); when the two
look-ups of the iteration read inside of the table, the window they resolve has both ends
inside `0 .. size - 1` and leaves the unbounded sides as they are. -/
theorem slice_inside_data {V : Type} (c : Collaborators V) (i starts stops : List Int)
    (out_indices : List (List Nat)) (params : Params)
    (hM : 1 ≤ i.length) (hx : out_indices.length = i.length)
    (hpos : ∀ g ∈ out_indices, 0 < g.length)
    (hsize : (out_indices.map List.length).sum = params.size) :
    (∀ (k window_start window_length : Int) (elt : V),
      Event.eval k window_start window_length elt
        ∈ (slide_index_core_impl c i starts stops out_indices params).trace →
      0 ≤ window_start ∧ 0 ≤ window_length ∧ window_start + window_length ≤ params.size
      ∧ (params.before_unbounded = true → window_start = 0)
      ∧ (params.after_unbounded = true → window_start + window_length = params.size))
    ∧ ∃ ws we, window_tables out_indices i.length = .ok (ws, we)
      ∧ ∀ (iteration_min k : Int) (st : LoopState V),
        state_entering c params i starts stops out_indices ws we iteration_min k = .ok st →
        (params.before_unbounded = true → st.window_start = 0)
        ∧ (params.after_unbounded = true → st.window_stop = (params.size : Int) - 1)
        ∧ ∀ s2, resolve_window params i starts stops ws we k st = .ok s2 →
            (params.before_unbounded = true → s2.window_start = 0)
            ∧ (params.after_unbounded = true → s2.window_stop = (params.size : Int) - 1)
            ∧ 0 ≤ s2.window_start ∧ s2.window_start ≤ (params.size : Int) - 1
            ∧ 0 ≤ s2.window_stop ∧ s2.window_stop ≤ (params.size : Int) - 1 := by
  obtain ⟨ws, we, hwt, hwl, hwel, hws, hwe⟩ :=
    window_tables_eq out_indices i.length hM (by omega)
  constructor
  · intro k a l elt hev
    rcases run_trace_cases c i starts stops out_indices params with
      h | ⟨lo, hi, ws1, we1, _, hwt1, h⟩
    · rw [h] at hev; cases hev
    · rw [hwt] at hwt1
      cases hwt1
      have hloop := slide_loop_inside c params i starts stops out_indices ws we lo hi
        hM hx hpos hsize hwl hwel hws hwe
      rcases h with ⟨s1, hl, hr⟩ | ⟨e, hl, hr⟩
      · rw [hr] at hev
        exact (hloop.1 s1 hl).2 k a l elt hev
      · rw [hr] at hev
        exact hloop.2 e hl k a l elt hev
  · refine ⟨ws, we, hwt, ?_⟩
    intro lo k st hst
    have hloop := slide_loop_inside c params i starts stops out_indices ws we lo (k - 1)
      hM hx hpos hsize hwl hwel hws hwe
    obtain ⟨⟨hz, hf⟩, _⟩ := hloop.1 st hst
    exact ⟨hz, hf, fun s2 hs2 => resolve_window_inside params i starts stops
      out_indices ws we k st s2 hM hx hpos hsize hwl hwel hws hwe hz hf hs2⟩

/-- C19 on the keys `[1, 3, 5]` with the groups `[[1, 2], [3], [4]]` of a run on 4 rows,
the after side unbounded and `starts = [0, 2, 4]`: the slices are `(0, 4)`, `(2, 2)` and
`(3, 1)`, each one ending at the last row. -/
theorem slice_inside_data_witness :
    (slide_index_core_impl example_collaborators [1, 3, 5] [0, 2, 4] []
        [[1, 2], [3], [4]]
        { complete := false, before_unbounded := false, after_unbounded := true,
          constrain := false, size := 4 }).windows = [(1, 0, 4), (2, 2, 2), (3, 3, 1)]
    ∧ (∀ (k window_start window_length : Int) (elt : List Int),
      Event.eval k window_start window_length elt
        ∈ (slide_index_core_impl example_collaborators [1, 3, 5] [0, 2, 4] []
            [[1, 2], [3], [4]]
            { complete := false, before_unbounded := false, after_unbounded := true,
              constrain := false, size := 4 }).trace →
      0 ≤ window_start ∧ 0 ≤ window_length ∧ window_start + window_length ≤ (4 : Nat)
      ∧ (false = true → window_start = 0)
      ∧ (true = true → window_start + window_length = (4 : Nat))) :=
  ⟨by decide,
    (slice_inside_data example_collaborators [1, 3, 5] [0, 2, 4] [] [[1, 2], [3], [4]]
      { complete := false, before_unbounded := false, after_unbounded := true,
        constrain := false, size := 4 }
      (by decide) (by decide) (by decide) (by decide)).1⟩

/-! ## Every key behind a cursor is out of the later windows -/

theorem start_stage_behind {V : Type} (params : Params) (i starts ws : List Int)
    (it : Int) (st s1 : LoopState V)
    (hss : starts.Pairwise (fun a b => a ≤ b))
    (hb : params.before_unbounded = false)
    (hp1 : 1 ≤ st.last_start_position) (hp2 : st.last_start_position ≤ i.length)
    (hcur : ∀ q, 1 ≤ q → q < st.last_start_position → ∀ k b1, it ≤ k →
      vec_slice_impl starts k = some b1 → i.getD (q - 1) 0 < b1)
    (h : window_start_stage params i starts ws it st = .ok s1) :
    1 ≤ s1.last_start_position ∧ s1.last_start_position ≤ i.length
    ∧ ∀ q, 1 ≤ q → q < s1.last_start_position → ∀ k b1, it + 1 ≤ k →
        vec_slice_impl starts k = some b1 → i.getD (q - 1) 0 < b1 := by
  rcases window_start_stage_ok _ _ _ _ _ _ _ h with
    ⟨hb1, _⟩ | ⟨_, b, idx, v, p1, hslice, hloc, _, rfl⟩
  · rw [hb] at hb1; cases hb1
  · obtain ⟨p2, e1, e2, e3, e4, _⟩ := locate_start_spec i b st.last_start_position hp1 hp2
    rw [e1] at hloc
    simp only [Option.some.injEq, Prod.mk.injEq] at hloc
    obtain ⟨_, rfl⟩ := hloc
    refine ⟨by simp only; omega, e3, ?_⟩
    intro q hq1 hq2 k b1 hk hb1
    simp only at hq2
    by_cases hq : q < st.last_start_position
    · exact hcur q hq1 hq k b1 (by omega) hb1
    · have := e4 q (by omega) hq2
      have := vec_slice_impl_sorted starts hss it k b b1 (by omega) hslice hb1
      omega

theorem stop_stage_behind {V : Type} (params : Params) (i stops we : List Int)
    (it : Int) (st s1 : LoopState V)
    (hss : stops.Pairwise (fun a b => a ≤ b))
    (ha : params.after_unbounded = false)
    (hp1 : 1 ≤ st.last_stop_position) (hp2 : st.last_stop_position ≤ i.length)
    (hcur : ∀ q, 1 ≤ q → q < st.last_stop_position → ∀ k b1, it ≤ k →
      vec_slice_impl stops k = some b1 → i.getD (q - 1) 0 ≤ b1)
    (h : window_stop_stage params i stops we it st = .ok s1) :
    1 ≤ s1.last_stop_position ∧ s1.last_stop_position ≤ i.length
    ∧ ∀ q, 1 ≤ q → q < s1.last_stop_position → ∀ k b1, it + 1 ≤ k →
        vec_slice_impl stops k = some b1 → i.getD (q - 1) 0 ≤ b1 := by
  rcases window_stop_stage_ok _ _ _ _ _ _ _ h with
    ⟨ha1, _⟩ | ⟨_, b, idx, v, p1, hslice, hloc, _, rfl⟩
  · rw [ha] at ha1; cases ha1
  · obtain ⟨idx2, p2, e1, e2, e3, e4, _⟩ :=
      locate_stop_spec i b st.last_stop_position hp1 hp2
    rw [e1] at hloc
    simp only [Option.some.injEq, Prod.mk.injEq] at hloc
    obtain ⟨_, rfl⟩ := hloc
    refine ⟨by simp only; omega, e3, ?_⟩
    intro q hq1 hq2 k b1 hk hb1
    simp only at hq2
    by_cases hq : q < st.last_stop_position
    · exact hcur q hq1 hq k b1 (by omega) hb1
    · have := e4 q (by omega) hq2
      have := vec_slice_impl_sorted stops hss it k b b1 (by omega) hslice hb1
      omega

/-- The cursors of the states of the loop, for sorted boundaries: on a bounded side the
cursor is inside `1 .. M`, and every key before it is below the start boundaries (not
above the stop boundaries) of the iterations still to come. -/
theorem slide_loop_behind {V : Type} (c : Collaborators V) (params : Params)
    (i starts stops : List Int) (out_indices : List (List Nat)) (ws we : List Int)
    (iteration_min iteration_max : Int) (hM : 1 ≤ i.length)
    (hstarts : params.before_unbounded = false → starts.Pairwise (fun a b => a ≤ b))
    (hstops : params.after_unbounded = false → stops.Pairwise (fun a b => a ≤ b))
    (s1 : LoopState V)
    (h : slide_loop (iteration_body c params i starts stops out_indices ws we)
        (iterations iteration_min iteration_max) (initial_state c params) = .ok s1) :
    (params.before_unbounded = false →
      1 ≤ s1.last_start_position ∧ s1.last_start_position ≤ i.length
      ∧ ∀ q, 1 ≤ q → q < s1.last_start_position → ∀ k b1,
          max iteration_min (iteration_max + 1) ≤ k →
          vec_slice_impl starts k = some b1 → i.getD (q - 1) 0 < b1)
    ∧ (params.after_unbounded = false →
      1 ≤ s1.last_stop_position ∧ s1.last_stop_position ≤ i.length
      ∧ ∀ q, 1 ≤ q → q < s1.last_stop_position → ∀ k b1,
          max iteration_min (iteration_max + 1) ≤ k →
          vec_slice_impl stops k = some b1 → i.getD (q - 1) 0 ≤ b1) := by
  have := slide_loop_iterations (iteration_body c params i starts stops out_indices ws we)
    (fun it st =>
      (params.before_unbounded = false →
        1 ≤ st.last_start_position ∧ st.last_start_position ≤ i.length
        ∧ ∀ q, 1 ≤ q → q < st.last_start_position → ∀ k b1, it ≤ k →
            vec_slice_impl starts k = some b1 → i.getD (q - 1) 0 < b1)
      ∧ (params.after_unbounded = false →
        1 ≤ st.last_stop_position ∧ st.last_stop_position ≤ i.length
        ∧ ∀ q, 1 ≤ q → q < st.last_stop_position → ∀ k b1, it ≤ k →
            vec_slice_impl stops k = some b1 → i.getD (q - 1) 0 ≤ b1))
    (fun _ => True) iteration_min iteration_max (initial_state c params)
    ⟨fun _ => ⟨le_refl _, hM, fun q h1 h2 => (by simp [initial_state] at h2; omega)⟩,
      fun _ => ⟨le_refl _, hM, fun q h1 h2 => (by simp [initial_state] at h2; omega)⟩⟩
    (by
      intro it st _ _ ⟨hcs, hce⟩
      refine ⟨fun s3 hs3 => ?_, fun _ _ => trivial⟩
      obtain ⟨t1, t2, h1, h2, e1, e2, _, _⟩ :=
        iteration_body_state c params i starts stops out_indices ws we it st s3 hs3
      rw [e1, e2]
      constructor
      · intro hb
        obtain ⟨a1, a2, a3⟩ := hcs hb
        have hs := start_stage_behind params i starts ws it st t1 (hstarts hb) hb a1 a2 a3 h1
        rcases window_stop_stage_ok _ _ _ _ _ _ _ h2 with ⟨_, rfl⟩ | ⟨_, _, _, _, _, _, _, _, rfl⟩
        · exact hs
        · exact hs
      · intro ha
        obtain ⟨a1, a2, a3⟩ := hce ha
        have hk : t1.last_stop_position = st.last_stop_position := by
          rcases window_start_stage_ok _ _ _ _ _ _ _ h1 with
            ⟨_, rfl⟩ | ⟨_, _, _, _, _, _, _, _, rfl⟩
          · rfl
          · rfl
        rw [← hk] at a1 a2 a3
        exact stop_stage_behind params i stops we it t1 t2 (hstops ha) ha a1 a2 a3 h2)
  exact this.1 s1 h

/-! ## The window of an iteration, before the empty-window adjustment -/

theorem span_start_inj (x : List (List Nat)) (hpos : ∀ g ∈ x, 0 < g.length) (a b : Nat)
    (ha : a ≤ x.length) (hb : b ≤ x.length) (h : span_start x a = span_start x b) : a = b := by
  rcases Nat.lt_trichotomy a b with hlt | heq | hgt
  · have := span_start_strict x hpos a b hlt hb
    omega
  · exact heq
  · have := span_start_strict x hpos b a hgt ha
    omega

/-- The two look-ups of an iteration with both sides bounded, from a state whose cursors
have only keys out of the window behind them: the start look-up returns the first group
with its key at or after the start boundary, the stop look-up the last group with its key
at or before the stop boundary, and the window is read from the table at these groups. -/
theorem resolve_both_bounded {V : Type} (params : Params) (i starts stops : List Int)
    (out_indices : List (List Nat)) (ws we : List Int) (it : Int) (st : LoopState V)
    (hi : i.Pairwise (fun a b => a ≤ b))
    (hx : out_indices.length = i.length) (hpos : ∀ g ∈ out_indices, 0 < g.length)
    (hws : ∀ k, k < i.length → ws[k]? = some (span_start out_indices k))
    (hwe : ∀ k, k < i.length → we[k]? = some (span_start out_indices (k + 1) - 1))
    (hb : params.before_unbounded = false) (ha : params.after_unbounded = false)
    (hss : starts.Pairwise (fun a b => a ≤ b)) (hes : stops.Pairwise (fun a b => a ≤ b))
    (a b : Int) (hsa : vec_slice_impl starts it = some a)
    (hsb : vec_slice_impl stops it = some b)
    (hex1 : a ≤ i.getD (i.length - 1) 0) (hex2 : i.getD 0 0 ≤ b)
    (hp1 : 1 ≤ st.last_start_position) (hp2 : st.last_start_position ≤ i.length)
    (hcur1 : ∀ q, 1 ≤ q → q < st.last_start_position → ∀ k b1, it ≤ k →
      vec_slice_impl starts k = some b1 → i.getD (q - 1) 0 < b1)
    (hq1 : 1 ≤ st.last_stop_position) (hq2 : st.last_stop_position ≤ i.length)
    (hcur2 : ∀ q, 1 ≤ q → q < st.last_stop_position → ∀ k b1, it ≤ k →
      vec_slice_impl stops k = some b1 → i.getD (q - 1) 0 ≤ b1) :
    ∃ (s t p1 p2 : Nat) (s2 : LoopState V),
      locate_window_start_index i a i.length st.last_start_position = some ((s : Int), p1)
      ∧ locate_window_stop_index i b i.length st.last_stop_position = some ((t : Int), p2)
      ∧ resolve_window params i starts stops ws we it st = .ok s2
      ∧ s < i.length ∧ t < i.length
      ∧ s2.window_start = span_start out_indices s
      ∧ s2.window_stop = span_start out_indices (t + 1) - 1
      ∧ (∀ g, g < i.length → (a ≤ i.getD g 0 ↔ s ≤ g))
      ∧ (∀ g, g < i.length → (i.getD g 0 ≤ b ↔ g ≤ t)) := by
  obtain ⟨p1, e1, e2, e3, e4, _⟩ := start_stage_resolved params i starts ws out_indices
    it st hi hws hss hb a hsa hex1 hp1 hp2 hcur1
  obtain ⟨t, p2, f1, f2, f3, f4, f5, _⟩ := stop_stage_resolved params i stops we out_indices it
    { st with
      window_start := span_start out_indices (p1 - 1)
      last_start_position := p1
      trace := st.trace ++ [Event.locate_start it a] }
    hi hwe hes ha b hsb hex2 hq1 hq2 hcur2
  have hres := resolve_window_ok params i starts stops ws we it st _ _ e1 f1
  -- the group the start look-up returned
  have hloc1 : locate_window_start_index i a i.length st.last_start_position
      = some (((p1 - 1 : Nat) : Int), p1) := by
    rcases window_start_stage_ok _ _ _ _ _ _ _ e1 with
      ⟨hb1, _⟩ | ⟨_, a1, idx, v, p, hs1, hl1, hg1, hrec⟩
    · rw [hb] at hb1; cases hb1
    · rw [hsa] at hs1
      cases hs1
      have hv : v = span_start out_indices (p1 - 1) :=
        (congrArg LoopState.window_start hrec).symm
      have hp : p = p1 := (congrArg LoopState.last_start_position hrec).symm
      obtain ⟨k, hk1, hk2, hk3⟩ := array_get_some ws idx v hg1
      have hkl : k < i.length := by
        by_contra hcon
        obtain ⟨p3, g1, _, g3, _⟩ := locate_start_spec i a st.last_start_position hp1 hp2
        rw [g1] at hl1
        simp only [Option.some.injEq, Prod.mk.injEq] at hl1
        omega
      rw [hws k hkl] at hk3
      simp only [Option.some.injEq] at hk3
      have := span_start_inj out_indices hpos k (p1 - 1) (by omega) (by omega)
        (by rw [hk3, hv])
      rw [hl1, hk1, this, hp]
  -- the group the stop look-up returned
  have hloc2 : locate_window_stop_index i b i.length st.last_stop_position
      = some ((t : Int), p2) := by
    rcases window_stop_stage_ok _ _ _ _ _ _ _ f1 with
      ⟨ha1, _⟩ | ⟨_, b1, idx, v, p, hs1, hl1, hg1, hrec⟩
    · rw [ha] at ha1; cases ha1
    · rw [hsb] at hs1
      cases hs1
      have hv : v = span_start out_indices (t + 1) - 1 :=
        (congrArg LoopState.window_stop hrec).symm
      have hp : p = p2 := (congrArg LoopState.last_stop_position hrec).symm
      obtain ⟨k, hk1, hk2, hk3⟩ := array_get_some we idx v hg1
      have hkl : k < i.length := by
        by_contra hcon
        obtain ⟨idx3, p3, g1, _, g3, _, g5⟩ :=
          locate_stop_spec i b st.last_stop_position hq1 hq2
        simp only at hl1
        rw [g1] at hl1
        simp only [Option.some.injEq, Prod.mk.injEq] at hl1
        omega
      rw [hwe k hkl] at hk3
      simp only [Option.some.injEq] at hk3
      have := span_start_inj out_indices hpos (k + 1) (t + 1) (by omega) (by omega)
        (by omega)
      have hkt : k = t := by omega
      simp only at hl1
      rw [hl1, hk1, hkt, hp]
  exact ⟨p1 - 1, t, p1, p2, _, hloc1, hloc2, hres, by omega, f4, rfl, rfl, e4, f5⟩

/-- C16. Resolved windows are never shorter than empty-by-adjacency. For non-decreasing
keys of length `M ≥ 1`, groups of positive sizes, non-decreasing `starts` and `stops` with
no start past its stop, both sides bounded and either value of `complete`: the iteration
range and the span table of the run are computed, and in every state in which the loop
enters an iteration `k` of the range, the two look-ups return groups `s` and `t` inside of
the table and resolve the window `window_start = window_starts[s]`,
`window_stop = window_stops[t]`, which before the empty-window adjustment satisfies
`window_stop ≥ window_start - 1`; equality holds exactly when no key lies in
`[starts[k], stops[k]]`, and exactly when `t = s - 1`. -/
theorem resolved_window_adjacent {V : Type} (c : Collaborators V)
    (i starts stops : List Int) (out_indices : List (List Nat)) (params : Params)
    (hM : 1 ≤ i.length) (hi : i.Pairwise (fun a b => a ≤ b))
    (hx : out_indices.length = i.length) (hpos : ∀ g ∈ out_indices, 0 < g.length)
    (hstarts : starts.length = i.length) (hstops : stops.length = i.length)
    (hss : starts.Pairwise (fun a b => a ≤ b)) (hes : stops.Pairwise (fun a b => a ≤ b))
    (hle : ∀ ab ∈ List.zip starts stops, ab.1 ≤ ab.2)
    (hb : params.before_unbounded = false) (ha : params.after_unbounded = false) :
    ∃ (iteration_min iteration_max : Int) (ws we : List Int),
      iteration_bounds params i starts stops = some (iteration_min, iteration_max)
      ∧ window_tables out_indices i.length = .ok (ws, we)
      ∧ ∀ (k : Int) (st : LoopState V), iteration_min ≤ k → k ≤ iteration_max →
          state_entering c params i starts stops out_indices ws we iteration_min k = .ok st →
          ∃ (a b : Int) (s t p1 p2 : Nat) (s2 : LoopState V),
            vec_slice_impl starts k = some a ∧ vec_slice_impl stops k = some b
            ∧ locate_window_start_index i a i.length st.last_start_position
                = some ((s : Int), p1)
            ∧ locate_window_stop_index i b i.length st.last_stop_position
                = some ((t : Int), p2)
            ∧ resolve_window params i starts stops ws we k st = .ok s2
            ∧ array_get ws s = some s2.window_start
            ∧ array_get we t = some s2.window_stop
            ∧ s2.window_start - 1 ≤ s2.window_stop
            ∧ (s2.window_stop = s2.window_start - 1 ↔ ¬ ∃ key ∈ i, a ≤ key ∧ key ≤ b)
            ∧ (s2.window_stop = s2.window_start - 1 ↔ (t : Int) = (s : Int) - 1) := by
  have hle1 : ∀ (k a b : Int), vec_slice_impl starts k = some a →
      vec_slice_impl stops k = some b → a ≤ b := by
    intro k a b h1 h2
    obtain ⟨_, _, e1⟩ := vec_slice_impl_eq starts k a h1
    obtain ⟨_, _, e2⟩ := vec_slice_impl_eq stops k b h2
    exact hle (a, b) (List.mem_iff_getElem?.2
      ⟨(k - 1).toNat, by rw [List.getElem?_zip_eq_some]; exact ⟨e1, e2⟩⟩)
  obtain ⟨lo, hi1, hib, hlo, hhi⟩ := iteration_bounds_resolvable params i starts stops hM
    (fun _ => ⟨hstarts, hss⟩) (fun _ => ⟨hstops, hes⟩) (fun _ _ => hle1)
    (by intro _; rw [hb, ha])
  obtain ⟨ws, we, hwt, _, _, hws, hwe⟩ := window_tables_eq out_indices i.length hM (by omega)
  have hr := iteration_bounds_range params i starts stops lo hi1 hib
  refine ⟨lo, hi1, ws, we, hib, hwt, ?_⟩
  intro k st hk1 hk2 hst
  obtain ⟨hcs, hce⟩ := slide_loop_behind c params i starts stops out_indices ws we lo (k - 1)
    hM (fun _ => hss) (fun _ => hes) st hst
  have hmax : max lo (k - 1 + 1) = k := by omega
  rw [hmax] at hcs hce
  obtain ⟨c1, c2, c3⟩ := hcs hb
  obtain ⟨d1, d2, d3⟩ := hce ha
  obtain ⟨a, hsa⟩ := vec_slice_impl_some starts k (by omega) (by omega)
  obtain ⟨b, hsb⟩ := vec_slice_impl_some stops k (by omega) (by omega)
  obtain ⟨s, t, p1, p2, s2, e1, e2, e3, e4, e5, e6, e7, e8, e9⟩ :=
    resolve_both_bounded params i starts stops out_indices ws we k st hi hx hpos hws hwe hb ha
      hss hes a b hsa hsb (hlo hb k a hk1 hk2 hsa) (hhi ha k b hk1 hk2 hsb)
      c1 c2 c3 d1 d2 d3
  have hab := hle1 k a b hsa hsb
  have hst1 : s ≤ t + 1 := by
    by_cases hlast : t + 1 < i.length
    · have h1 : ¬ i.getD (t + 1) 0 ≤ b := fun h => by
        have := (e9 (t + 1) hlast).1 h
        omega
      exact (e8 (t + 1) hlast).1 (by omega)
    · omega
  have hmono := span_start_mono out_indices s (t + 1) hst1
  have hadj : s2.window_stop = s2.window_start - 1 ↔ s = t + 1 := by
    rw [e6, e7]
    constructor
    · intro h
      exact span_start_inj out_indices hpos s (t + 1) (by omega) (by omega) (by omega)
    · intro h
      rw [h]
  refine ⟨a, b, s, t, p1, p2, s2, hsa, hsb, e1, e2, e3, ?_, ?_, by rw [e6, e7]; omega, ?_, ?_⟩
  · rw [e6]
    exact array_get_span ws out_indices i.length hws s e4
  · unfold array_get
    rw [if_pos (by omega), e7]
    simpa using hwe t e5
  · rw [hadj]
    constructor
    · rintro h ⟨key, hkey, h1, h2⟩
      obtain ⟨g, hg, he⟩ := mem_getD i key hkey
      rw [← he] at h1 h2
      have := (e8 g hg).1 h1
      have := (e9 g hg).1 h2
      omega
    · intro h
      by_contra hne
      have hs : s ≤ t := by omega
      exact h ⟨i.getD s 0, getD_mem i s e4, (e8 s e4).2 (le_refl _), (e9 s e4).2 hs⟩
  · rw [hadj]
    omega

/-- C16 on the keys `[1, 3, 5]` with unit groups, `starts = [2, 2, 4]` and
`stops = [2, 3, 9]`: in iteration 1 no key is in `[2, 2]`, the look-ups return the groups
1 and 0 and resolve `window_start = 1`, `window_stop = 0`; in iteration 2 the key 3 is in
`[2, 3]` and the window is `1 .. 1`. -/
theorem resolved_window_adjacent_witness :
    locate_window_start_index [1, 3, 5] 2 3 1 = some (1, 2)
    ∧ locate_window_stop_index [1, 3, 5] 2 3 1 = some (0, 2)
    ∧ resolve_window
        { complete := false, before_unbounded := false, after_unbounded := false,
          constrain := false, size := 3 }
        [1, 3, 5] [2, 2, 4] [2, 3, 9] [0, 1, 2] [0, 1, 2] 1
        (initial_state example_collaborators
          { complete := false, before_unbounded := false, after_unbounded := false,
            constrain := false, size := 3 })
      = .ok { out := [[], [], []]
              window_start := 1
              window_stop := 0
              last_start_position := 2
              last_stop_position := 2
              trace := [Event.locate_start 1 2, Event.locate_stop 1 2] }
    ∧ ∃ (iteration_min iteration_max : Int) (ws we : List Int),
      iteration_bounds
          { complete := false, before_unbounded := false, after_unbounded := false,
            constrain := false, size := 3 }
          [1, 3, 5] [2, 2, 4] [2, 3, 9] = some (iteration_min, iteration_max)
      ∧ window_tables [[1], [2], [3]] 3 = .ok (ws, we)
      ∧ ∀ (k : Int) (st : LoopState (List Int)), iteration_min ≤ k → k ≤ iteration_max →
          state_entering example_collaborators
              { complete := false, before_unbounded := false, after_unbounded := false,
                constrain := false, size := 3 }
              [1, 3, 5] [2, 2, 4] [2, 3, 9] [[1], [2], [3]] ws we iteration_min k = .ok st →
          ∃ (a b : Int) (s t p1 p2 : Nat) (s2 : LoopState (List Int)),
            vec_slice_impl [2, 2, 4] k = some a ∧ vec_slice_impl [2, 3, 9] k = some b
            ∧ locate_window_start_index [1, 3, 5] a 3 st.last_start_position
                = some ((s : Int), p1)
            ∧ locate_window_stop_index [1, 3, 5] b 3 st.last_stop_position
                = some ((t : Int), p2)
            ∧ resolve_window
                { complete := false, before_unbounded := false, after_unbounded := false,
                  constrain := false, size := 3 }
                [1, 3, 5] [2, 2, 4] [2, 3, 9] ws we k st = .ok s2
            ∧ array_get ws s = some s2.window_start
            ∧ array_get we t = some s2.window_stop
            ∧ s2.window_start - 1 ≤ s2.window_stop
            ∧ (s2.window_stop = s2.window_start - 1
                ↔ ¬ ∃ key ∈ ([1, 3, 5] : List Int), a ≤ key ∧ key ≤ b)
            ∧ (s2.window_stop = s2.window_start - 1 ↔ (t : Int) = (s : Int) - 1) :=
  ⟨by decide, by decide, rfl,
    resolved_window_adjacent example_collaborators [1, 3, 5] [2, 2, 4] [2, 3, 9]
      [[1], [2], [3]]
      { complete := false, before_unbounded := false, after_unbounded := false,
        constrain := false, size := 3 }
      (by decide) (by decide) (by decide) (by decide) (by decide) (by decide) (by decide)
      (by decide) (by decide) rfl rfl⟩

/-! ## The groups the look-ups return, and the reads of the span table -/

/-- A stop look-up whose boundary is not before the first key returns a group of the
table. -/
theorem stop_call_inside (i : List Int) (b : Int) (p : Nat) (hp1 : 1 ≤ p)
    (hp2 : p ≤ i.length) (hfirst : i.getD 0 0 ≤ b) :
    ∃ (t p1 : Nat), locate_window_stop_index i b i.length p = some ((t : Int), p1)
      ∧ t < i.length := by
  obtain ⟨idx, p1, h1, h2, h3, _, h5⟩ := locate_stop_spec i b p hp1 hp2
  rcases h5 with ⟨h5, h6⟩ | ⟨_, _, h7⟩
  · have hp : 2 ≤ p1 := by
      by_contra hcon
      have hp : p1 = 1 := by omega
      subst hp
      simp only [Nat.sub_self] at h5
      omega
    refine ⟨p1 - 2, p1, ?_, by omega⟩
    rw [h1, h6]
    congr 2
    omega
  · refine ⟨i.length - 1, p1, ?_, by omega⟩
    rw [h1, h7]
    congr 2
    omega

/-- A start look-up from a cursor inside `1 .. M` returns a group of the table. -/
theorem start_call_inside (i : List Int) (a : Int) (p : Nat) (hp1 : 1 ≤ p)
    (hp2 : p ≤ i.length) :
    ∃ (s p1 : Nat), locate_window_start_index i a i.length p = some ((s : Int), p1)
      ∧ s < i.length := by
  obtain ⟨p1, h1, h2, h3, _, _⟩ := locate_start_spec i a p hp1 hp2
  refine ⟨p1 - 1, p1, ?_, by omega⟩
  rw [h1]
  congr 2
  omega

/-- Where the reads of the span table are in range: for every flag combination other than
complete mode with the before side only unbounded, non-decreasing keys, and boundaries
non-decreasing on each bounded side with no start past its stop when both sides are
bounded, the look-ups of every iteration the loop enters return groups inside `0 .. M - 1`. -/
theorem located_indices_in_range {V : Type} (c : Collaborators V)
    (i starts stops : List Int) (out_indices : List (List Nat)) (params : Params)
    (hM : 1 ≤ i.length)
    (hstarts : params.before_unbounded = false →
      starts.length = i.length ∧ starts.Pairwise (fun a b => a ≤ b))
    (hstops : params.after_unbounded = false →
      stops.length = i.length ∧ stops.Pairwise (fun a b => a ≤ b))
    (hle : params.before_unbounded = false → params.after_unbounded = false →
      ∀ ab ∈ List.zip starts stops, ab.1 ≤ ab.2)
    (hflags : ¬ (params.complete = true ∧ params.before_unbounded = true
      ∧ params.after_unbounded = false))
    (iteration_min iteration_max : Int) (ws we : List Int)
    (hib : iteration_bounds params i starts stops = some (iteration_min, iteration_max))
    (k : Int) (st : LoopState V) (hk1 : iteration_min ≤ k) (hk2 : k ≤ iteration_max)
    (hst : state_entering c params i starts stops out_indices ws we iteration_min k = .ok st) :
    (params.before_unbounded = false →
      ∃ (a : Int) (s p1 : Nat), vec_slice_impl starts k = some a
        ∧ locate_window_start_index i a i.length st.last_start_position = some ((s : Int), p1)
        ∧ s < i.length)
    ∧ (params.after_unbounded = false →
      ∃ (b : Int) (t p2 : Nat), vec_slice_impl stops k = some b
        ∧ locate_window_stop_index i b i.length st.last_stop_position = some ((t : Int), p2)
        ∧ t < i.length) := by
  have hr := iteration_bounds_range params i starts stops _ _ hib
  obtain ⟨c1, c2, c3, c4⟩ := slide_loop_cursor_range c params i starts stops out_indices
    ws we iteration_min (k - 1) hM st hst
  constructor
  · intro hb
    obtain ⟨a, hsa⟩ := vec_slice_impl_some starts k (by omega) (by rw [(hstarts hb).1]; omega)
    obtain ⟨s, p1, h1, h2⟩ := start_call_inside i a st.last_start_position c1 c2
    exact ⟨a, s, p1, hsa, h1, h2⟩
  · intro ha
    obtain ⟨b, hsb⟩ := vec_slice_impl_some stops k (by omega) (by rw [(hstops ha).1]; omega)
    have hmode : params.complete = true → params.before_unbounded = params.after_unbounded := by
      intro hc
      cases hb : params.before_unbounded
      · rw [ha]
      · exact absurd ⟨hc, hb, ha⟩ hflags
    obtain ⟨lo, hi1, hib1, _, hhi⟩ := iteration_bounds_resolvable params i starts stops hM
      hstarts hstops
      (by
        intro hb ha1 k1 a1 b1 h1 h2
        obtain ⟨_, _, e1⟩ := vec_slice_impl_eq starts k1 a1 h1
        obtain ⟨_, _, e2⟩ := vec_slice_impl_eq stops k1 b1 h2
        exact hle hb ha1 (a1, b1) (List.mem_iff_getElem?.2
          ⟨(k1 - 1).toNat, by rw [List.getElem?_zip_eq_some]; exact ⟨e1, e2⟩⟩))
      hmode
    rw [hib] at hib1
    simp only [Option.some.injEq, Prod.mk.injEq] at hib1
    obtain ⟨rfl, rfl⟩ := hib1
    obtain ⟨t, p2, h1, h2⟩ := stop_call_inside i b st.last_stop_position c3 c4
      (hhi ha k b hk1 hk2 hsb)
    exact ⟨b, t, p2, hsb, h1, h2⟩

/-- C18 is violated in complete mode with the before side only unbounded. On the keys
`[10, 20]` with `stops = [5, 25]`, the iteration range is `1 .. 1`; the loop enters
iteration 1 in its initial state, `locate_window_stop_index` returns -1 for the stop
boundary 5, which is before every key, and `window_stops[-1]` is read, outside of the
table. -/
theorem stop_index_before_table :
    iteration_bounds
        { complete := true, before_unbounded := true, after_unbounded := false,
          constrain := false, size := 2 }
        [10, 20] [] [5, 25] = some (1, 1)
    ∧ window_tables [[1], [2]] 2 = .ok ([0, 1], [0, 1])
    ∧ state_entering example_collaborators
        { complete := true, before_unbounded := true, after_unbounded := false,
          constrain := false, size := 2 }
        [10, 20] [] [5, 25] [[1], [2]] [0, 1] [0, 1] 1 1
      = .ok (initial_state example_collaborators
          { complete := true, before_unbounded := true, after_unbounded := false,
            constrain := false, size := 2 })
    ∧ vec_slice_impl [5, 25] 1 = some (5 : Int)
    ∧ locate_window_stop_index [10, 20] 5 2 1 = some (-1, 1)
    ∧ array_get [0, 1] (-1) = none
    ∧ resolve_window
        { complete := true, before_unbounded := true, after_unbounded := false,
          constrain := false, size := 2 }
        [10, 20] [] [5, 25] [0, 1] [0, 1] 1
        (initial_state example_collaborators
          { complete := true, before_unbounded := true, after_unbounded := false,
            constrain := false, size := 2 })
      = .error (.span_index_out_of_bounds (-1), [Event.locate_stop 1 5])
    ∧ slide_index_core_impl example_collaborators [10, 20] [] [5, 25] [[1], [2]]
        { complete := true, before_unbounded := true, after_unbounded := false,
          constrain := false, size := 2 }
      = .failed (.span_index_out_of_bounds (-1)) [Event.locate_stop 1 5] := by
  exact ⟨by decide, rfl, rfl, by decide, by decide, by decide, rfl, by decide⟩

/-! ## The state entering an iteration, inside of the run of the loop -/

theorem iterations_split (lo hi k : Int) (h1 : lo ≤ k) (h2 : k ≤ hi + 1) :
    iterations lo hi = iterations lo (k - 1) ++ iterations k hi := by
  unfold iterations
  have e : (hi + 1 - lo).toNat = (k - 1 + 1 - lo).toNat + (hi + 1 - k).toNat := by omega
  rw [e, List.range_add, List.map_append, List.map_map]
  congr 1
  apply List.map_congr_left
  intro j _
  simp only [Function.comp]
  push_cast
  omega

theorem iterations_first (lo hi : Int) (h : lo ≤ hi) :
    iterations lo hi = lo :: iterations (lo + 1) hi := by
  unfold iterations
  have e : (hi + 1 - lo).toNat = (hi + 1 - (lo + 1)).toNat + 1 := by omega
  rw [e, iterations_succ]

theorem slide_loop_append {V : Type} (body : Int → LoopState V → Step V) :
    ∀ (l1 l2 : List Int) (st : LoopState V),
      slide_loop body (l1 ++ l2) st =
        match slide_loop body l1 st with
        | .error e => .error e
        | .ok s => slide_loop body l2 s := by
  intro l1
  induction l1 with
  | nil => intro l2 st; rfl
  | cons k l1 ih =>
    intro l2 st
    simp only [List.cons_append, slide_loop]
    cases body k st with
    | error e => rfl
    | ok s => exact ih l2 s

/-- The loop of a run goes through the state entering iteration `k`, for every `k` of the
iteration range: it runs the body of iteration `k` on that state, then the iterations
after `k`. -/
theorem slide_loop_enters {V : Type} (c : Collaborators V) (params : Params)
    (i starts stops : List Int) (out_indices : List (List Nat)) (ws we : List Int)
    (iteration_min iteration_max k : Int) (h1 : iteration_min ≤ k) (h2 : k ≤ iteration_max) :
    slide_loop (iteration_body c params i starts stops out_indices ws we)
        (iterations iteration_min iteration_max) (initial_state c params) =
      match state_entering c params i starts stops out_indices ws we iteration_min k with
      | .error e => .error e
      | .ok st =>
        match iteration_body c params i starts stops out_indices ws we k st with
        | .error e => .error e
        | .ok s3 =>
          slide_loop (iteration_body c params i starts stops out_indices ws we)
            (iterations (k + 1) iteration_max) s3 := by
  rw [iterations_split iteration_min iteration_max k h1 (by omega), slide_loop_append,
    iterations_first k iteration_max h2]
  unfold state_entering
  cases slide_loop (iteration_body c params i starts stops out_indices ws we)
      (iterations iteration_min (k - 1)) (initial_state c params) with
  | error e => rfl
  | ok st => rfl

end Slider
